import Mathlib

/-!
The ics-golang parser: the recurrence expander and the start/end resolver of `parse.go`

A shallow embedding of `src/parse.go`, with the theorems that settle the
claims about it.

* Go strings are lists of characters (`Str`); the texts handled are ASCII.
* A `time.Time` is the number of seconds since 0001-01-01T00:00:00Z (the zero
  `time.Time` is `0`). Every `time.Time` that `parseEvents` handles is a UTC
  value with no sub-second part, so Go's `==` on them is equality of instants.
* Go `int` values and instants are unbounded integers: the model is exact as
  long as no 64-bit overflow occurs. `strconv.Atoi` clamps to the 64-bit range
  as the library does.
* A Go run-time panic is the `none` of an `Option`; a loop that may not end is
  run with a bound on its number of passes, and `none` means it is still running.
* Functions, constants and types of the repository that are declared outside
  `parse.go` are modelled from the spec and marked so; the libraries
  (`time.LoadLocation`, `wtz.LoadLocation`, the duration notation, the
  identifier generator) are parameters collected in `Env`.
-/

namespace Ics

abbrev Str := List Char

/-! ## Regular expressions: the subset of Go `regexp` used by `parse.go` -/

/-- Abstract syntax of the regular expressions that occur in `parse.go`.
Alternation prefers its left branch, `star true` and `opt true` are the greedy
operators `*` and `?` (or `{0,1}`), `star false` and `opt false` are `*?` and `??`,
and `grp i` is the i-th capturing group. -/
inductive RE where
  | eps : RE
  | lit : Char → RE
  | cls : (Char → Bool) → RE
  | seq : RE → RE → RE
  | alt : RE → RE → RE
  | star : Bool → RE → RE
  | opt : Bool → RE → RE
  | grp : Nat → RE → RE

/-- Captured groups, most recent binding first. -/
abbrev Caps := List (Nat × Str)

/-- Iteration of a starred body. Every body starred in `parse.go` consumes at
least one character, so an iteration that consumes nothing is not retried. -/
def starLoop {R : Type} (body : Str → Caps → (Str → Caps → Option R) → Option R)
    (greedy : Bool) : Nat → Str → Caps → (Str → Caps → Option R) → Option R
  | 0, s, c, k => k s c
  | n + 1, s, c, k =>
    if greedy then
      match body s c (fun s1 c1 =>
          if s1.length < s.length then starLoop body greedy n s1 c1 k else none) with
      | some r => some r
      | none => k s c
    else
      match k s c with
      | some r => some r
      | none => body s c (fun s1 c1 =>
          if s1.length < s.length then starLoop body greedy n s1 c1 k else none)

/-- Backtracking matcher in continuation-passing style: the first success in
preference order is the leftmost-first match that Go's `regexp` reports. -/
def RE.run {R : Type} : RE → Str → Caps → (Str → Caps → Option R) → Option R
  | .eps, s, c, k => k s c
  | .lit a, s, c, k =>
    match s with
    | [] => none
    | x :: t => if x = a then k t c else none
  | .cls p, s, c, k =>
    match s with
    | [] => none
    | x :: t => if p x then k t c else none
  | .seq a b, s, c, k => a.run s c (fun s1 c1 => b.run s1 c1 k)
  | .alt a b, s, c, k =>
    match a.run s c k with
    | some r => some r
    | none => b.run s c k
  | .star g a, s, c, k => starLoop (fun s1 c1 k1 => a.run s1 c1 k1) g s.length s c k
  | .opt g a, s, c, k =>
    if g then
      match a.run s c k with
      | some r => some r
      | none => k s c
    else
      match k s c with
      | some r => some r
      | none => a.run s c k
  | .grp i a, s, c, k =>
    a.run s c (fun s1 c1 => k s1 ((i, s.take (s.length - s1.length)) :: c1))

/-- A literal string as a regular expression. -/
def RE.str : Str → RE
  | [] => .eps
  | [a] => .lit a
  | a :: t => .seq (.lit a) (RE.str t)

/-- The class `.`: any character but the line feed. -/
def RE.dot : RE := .cls (fun ch => ch != '\n')

/-- The class `\d`. -/
def RE.digit : RE := .cls (fun ch => decide ('0' ≤ ch) && decide (ch ≤ '9'))

/-- The class `[^;]`. -/
def RE.notSemi : RE := .cls (fun ch => ch != ';')

/-- Sequence of several expressions. -/
def RE.cat : List RE → RE
  | [] => .eps
  | [a] => a
  | a :: t => .seq a (RE.cat t)

/-- One match: the text before it, the matched text, the text after it, and
the captured groups. -/
structure Match where
  pre : Str
  text : Str
  post : Str
  caps : Caps

/-- Match anchored at the head of `s`. -/
def RE.matchAt (r : RE) (pre s : Str) : Option Match :=
  r.run s [] (fun s1 c => some ⟨pre, s.take (s.length - s1.length), s1, c⟩)

/-- Leftmost match: the first start position at which the expression matches. -/
def RE.findFrom (r : RE) (pre : Str) : Str → Option Match
  | [] => r.matchAt pre []
  | x :: t =>
    match r.matchAt pre (x :: t) with
    | some m => some m
    | none => RE.findFrom r (pre ++ [x]) t

/-- Leftmost match in `s`. -/
def RE.find (r : RE) (s : Str) : Option Match := r.findFrom [] s

/-- Go `Regexp.FindString`: the text of the leftmost match, the empty string
when there is none. -/
def RE.findString (r : RE) (s : Str) : Str :=
  match r.find s with
  | some m => m.text
  | none => []

/-- Text of group `i` of a match, empty when the group did not take part. -/
def Match.group (m : Match) (i : Nat) : Str :=
  match m.caps.lookup i with
  | some t => t
  | none => []

/-- Go `Regexp.ReplaceAllString r s ""`: all successive non-overlapping matches
removed (an empty match removes nothing and the scan moves on one character). -/
def RE.removeAllAux (r : RE) : Nat → Str → Str
  | 0, s => s
  | n + 1, s =>
    match r.find s with
    | none => s
    | some m =>
      if m.text.isEmpty then
        match m.post with
        | [] => m.pre
        | x :: t => m.pre ++ x :: RE.removeAllAux r n t
      else m.pre ++ RE.removeAllAux r n m.post

/-- Go `Regexp.ReplaceAllString r s ""`. -/
def RE.removeAll (r : RE) (s : Str) : Str := r.removeAllAux (s.length + 1) s

/-! ## Go `strings` and `strconv` -/

/-- Go `strings.Contains`. -/
def contains : Str → Str → Bool
  | [], sub => sub.isEmpty
  | x :: t, sub => sub.isPrefixOf (x :: t) || contains t sub

/-- Go `strings.TrimRight s "\r\n"`. -/
def trimRightCRLF (s : Str) : Str :=
  (s.reverse.dropWhile (fun ch => ch == '\r' || ch == '\n')).reverse

/-- Go `unicode.IsSpace`, the white space that `strings.TrimSpace` cuts. -/
def isSpace (ch : Char) : Bool :=
  ch == ' ' || ch == '\t' || ch == '\n' || ch == '\r' || ch.toNat == 11 || ch.toNat == 12 ||
  ch.toNat == 133 || ch.toNat == 160 || ch.toNat == 5760 ||
  (decide (8192 ≤ ch.toNat) && decide (ch.toNat ≤ 8202)) || ch.toNat == 8232 ||
  ch.toNat == 8233 || ch.toNat == 8239 || ch.toNat == 8287 || ch.toNat == 12288

/-- Go `strings.TrimSpace`. -/
def trimSpace (s : Str) : Str :=
  ((s.dropWhile isSpace).reverse.dropWhile isSpace).reverse

/-- Value of a run of decimal digits, `none` when a character is not a digit. -/
def digitsVal : Str → Nat → Option Nat
  | [], acc => some acc
  | ch :: t, acc =>
    if '0' ≤ ch ∧ ch ≤ '9' then digitsVal t (acc * 10 + (ch.toNat - 48)) else none

/-- Go `strconv.Atoi` with the error dropped, as every caller in `parse.go`
does: `0` on a syntax error, the nearest 64-bit value on a range error. -/
def atoi (s : Str) : Int :=
  let body (neg : Bool) (ds : Str) : Int :=
    match ds with
    | [] => 0
    | _ =>
      match digitsVal ds 0 with
      | none => 0
      | some n =>
        if neg then (if n > 2 ^ 63 then -(2 ^ 63 : Int) else -(n : Int))
        else (if n ≥ 2 ^ 63 then (2 ^ 63 : Int) - 1 else (n : Int))
  match s with
  | '-' :: ds => body true ds
  | '+' :: ds => body false ds
  | ds => body false ds

/-- Go string comparison `a <= b` (bytewise; the strings compared in `parse.go`
are ASCII). -/
def strLe : Str → Str → Bool
  | [], _ => true
  | _ :: _, [] => false
  | a :: s, b :: t =>
    if a.toNat < b.toNat then true
    else if b.toNat < a.toNat then false
    else strLe s t

/-- One decimal digit as a character. -/
def digitChar : Nat → Char
  | 0 => '0' | 1 => '1' | 2 => '2' | 3 => '3' | 4 => '4'
  | 5 => '5' | 6 => '6' | 7 => '7' | 8 => '8' | _ => '9'

/-- Decimal digits of `n`, most significant first, in front of `acc`. -/
def decAux : Nat → Nat → Str → Str
  | 0, _, acc => acc
  | f + 1, n, acc =>
    if n < 10 then digitChar n :: acc
    else decAux f (n / 10) (digitChar (n % 10) :: acc)

/-- Decimal text of a natural number. -/
def natDec (n : Nat) : Str := decAux (n + 1) n []

/-- Decimal text zero-padded on the left to width `w`. -/
def padDec (w n : Nat) : Str :=
  let ds := natDec n
  List.replicate (w - ds.length) '0' ++ ds

/-! ## Go `time`: the proleptic Gregorian calendar in UTC -/

/-- A `time.Time` in UTC with no sub-second part: seconds since
0001-01-01T00:00:00Z. The zero `time.Time` is `0`. -/
abbrev Time := Int

def secondsPerDay : Int := 86400

/-- Gregorian leap-year rule. -/
def isLeap (y : Int) : Bool := decide (y % 4 = 0) && (decide (y % 100 ≠ 0) || decide (y % 400 = 0))

/-- Days from 0001-01-01 to January 1st of year `y`. -/
def daysBeforeYear (y : Int) : Int :=
  365 * (y - 1) + (y - 1) / 4 - (y - 1) / 100 + (y - 1) / 400

/-- Days of the year before the first day of month `m` (1..12; 13 gives the
length of the year). -/
def daysBeforeMonth (leap : Bool) (m : Int) : Int :=
  let base : Int :=
    if m ≤ 1 then 0 else if m = 2 then 31 else if m = 3 then 59 else if m = 4 then 90
    else if m = 5 then 120 else if m = 6 then 151 else if m = 7 then 181
    else if m = 8 then 212 else if m = 9 then 243 else if m = 10 then 273
    else if m = 11 then 304 else if m = 12 then 334 else 365
  if leap && decide (3 ≤ m) then base + 1 else base

/-- Number of days of month `m` of year `y`. -/
def daysIn (m y : Int) : Int :=
  daysBeforeMonth (isLeap y) (m + 1) - daysBeforeMonth (isLeap y) m

/-- Go `time.Date(year, month, day, hour, min, sec, 0, time.UTC)`: values out of
range are normalised, the month by carrying into the year, the others because
the instant is linear in them. -/
def goDate (year month day hour min sec : Int) : Time :=
  let y := year + (month - 1) / 12
  let m := (month - 1) % 12 + 1
  (daysBeforeYear y + daysBeforeMonth (isLeap y) m + (day - 1)) * secondsPerDay
    + hour * 3600 + min * 60 + sec

/-- Year of the day numbered `n` (day 0 is 0001-01-01). -/
def yearOfDay (n : Int) : Int :=
  let y0 := (400 * n) / 146097 + 1
  if daysBeforeYear (y0 + 1) ≤ n then y0 + 1
  else if n < daysBeforeYear y0 then y0 - 1
  else y0

/-- Search for the month of the day numbered `yd` within a year (0-based): the
first month from `m` on, among the next `fuel` ones, that ends after that day;
the month `m + fuel` when there is none. -/
def monthSearch (leap : Bool) (yd : Int) : Nat → Int → Int
  | 0, m => m
  | fuel + 1, m => if yd < daysBeforeMonth leap (m + 1) then m else monthSearch leap yd fuel (m + 1)

/-- Month (1..12) of the day numbered `yd` within a year (0-based). -/
def monthOfYday (leap : Bool) (yd : Int) : Int := monthSearch leap yd 11 1

/-- Day number of an instant. -/
def Time.dayNumber (t : Time) : Int := t / secondsPerDay

/-- Second within the day of an instant. -/
def Time.secOfDay (t : Time) : Int := t % secondsPerDay

/-- Go `t.Year()`. -/
def Time.year (t : Time) : Int := yearOfDay t.dayNumber

/-- Day of the year, 0-based. -/
def Time.yday (t : Time) : Int := t.dayNumber - daysBeforeYear t.year

/-- Go `t.Month()`. -/
def Time.month (t : Time) : Int := monthOfYday (isLeap t.year) t.yday

/-- Go `t.Day()`. -/
def Time.day (t : Time) : Int := t.yday - daysBeforeMonth (isLeap t.year) t.month + 1

/-- Go `t.Hour()`. -/
def Time.hour (t : Time) : Int := t.secOfDay / 3600

/-- Go `t.Minute()`. -/
def Time.minute (t : Time) : Int := t.secOfDay % 3600 / 60

/-- Go `t.Second()`. -/
def Time.second (t : Time) : Int := t.secOfDay % 60

/-- Go `t.Weekday()`, Sunday = 0. Day 0 (0001-01-01) is a Monday. -/
def Time.weekday (t : Time) : Int := (t.dayNumber + 1) % 7

/-- Go `t.AddDate(years, months, days)`. -/
def Time.addDate (t : Time) (years months days : Int) : Time :=
  goDate (t.year + years) (t.month + months) (t.day + days) t.hour t.minute t.second

/-- Go `t.Add(d)` for a duration of whole seconds. -/
def Time.add (t : Time) (d : Int) : Time := t + d

/-- Go `t.Before(u)`. -/
def Time.before (t u : Time) : Bool := decide (t < u)

/-- The year as Go formats the layout element `2006`: at least four digits,
a minus sign in front for a negative year. -/
def fmtYear (y : Int) : Str :=
  if y < 0 then '-' :: padDec 4 (-y).toNat else padDec 4 y.toNat

/-- Go `t.Format("20060102T150405")`, the constant `dateTimeLayoutLocalized`. -/
def Time.formatCompact (t : Time) : Str :=
  fmtYear t.year ++ padDec 2 t.month.toNat ++ padDec 2 t.day.toNat ++ 'T' ::
    (padDec 2 t.hour.toNat ++ padDec 2 t.minute.toNat ++ padDec 2 t.second.toNat)

/-- Go `t.Format("1")`: the month number without padding. -/
def Time.formatNumMonth (t : Time) : Str := natDec t.month.toNat

/-- Go `t.Format("Mon")`: the abbreviated English weekday name. -/
def Time.formatWeekDay (t : Time) : Str :=
  if t.weekday = 0 then "Sun".toList else if t.weekday = 1 then "Mon".toList
  else if t.weekday = 2 then "Tue".toList else if t.weekday = 3 then "Wed".toList
  else if t.weekday = 4 then "Thu".toList else if t.weekday = 5 then "Fri".toList
  else "Sat".toList

/-- Modelled from the spec: the layout constant `YmdHis` is declared outside
`parse.go`; its name spells year-month-day hour:minute:second, the Go layout
`2006-01-02 15:04:05`. This is `t.Format(YmdHis)`. -/
def Time.formatYmdHis (t : Time) : Str :=
  fmtYear t.year ++ '-' :: (padDec 2 t.month.toNat ++ '-' :: (padDec 2 t.day.toNat ++ ' ' ::
    (padDec 2 t.hour.toNat ++ ':' :: (padDec 2 t.minute.toNat ++ ':' :: padDec 2 t.second.toNat))))

/-! ### `time.Parse` for the layouts of `parse.go` -/

/-- The layout elements that occur in the layouts parsed by `parse.go`: `2006`,
`01`, `02`, `15`, `04`, `05` and literal characters. -/
inductive Chunk where
  | longYear | zeroMonth | zeroDay | hour | zeroMinute | zeroSecond
  | lit (c : Char)

/-- The fields that `time.Parse` collects. -/
structure DateFields where
  year : Int := 0
  month : Int := 1
  day : Int := 1
  hour : Int := 0
  min : Int := 0
  sec : Int := 0

def isDigit (ch : Char) : Bool := decide ('0' ≤ ch) && decide (ch ≤ '9')

def digitVal (ch : Char) : Int := (ch.toNat - 48 : Nat)

/-- Go `getnum` of package `time`: a one- or two-digit number, exactly two
digits when `fixed`. -/
def getnum (s : Str) (fixed : Bool) : Option (Int × Str) :=
  match s with
  | [] => none
  | a :: rest =>
    if isDigit a then
      match rest with
      | b :: t =>
        if isDigit b then some (digitVal a * 10 + digitVal b, t)
        else if fixed then none else some (digitVal a, rest)
      | [] => if fixed then none else some (digitVal a, rest)
    else none

/-- After the seconds field `time.Parse` accepts a fractional second that the
layout does not mention: a period or comma followed by digits. -/
def skipFraction (s : Str) : Str :=
  match s with
  | p :: q :: t =>
    if (p == '.' || p == ',') && isDigit q then t.dropWhile isDigit else s
  | _ => s

/-- The parsing loop of `time.Parse`: each layout element consumes its part of
the value and range-checks it; text left over at the end is an error. -/
def parseChunks : List Chunk → Str → DateFields → Option DateFields
  | [], [], f => some f
  | [], _ :: _, _ => none
  | .lit c :: cs, s, f =>
    match s with
    | x :: t => if x = c then parseChunks cs t f else none
    | [] => none
  | .longYear :: cs, s, f =>
    match s with
    | a :: b :: c :: d :: t =>
      if isDigit a && isDigit b && isDigit c && isDigit d then
        parseChunks cs t { f with year := digitVal a * 1000 + digitVal b * 100 + digitVal c * 10 + digitVal d }
      else none
    | _ => none
  | .zeroMonth :: cs, s, f =>
    match getnum s true with
    | some (n, t) => if n ≤ 0 ∨ 12 < n then none else parseChunks cs t { f with month := n }
    | none => none
  | .zeroDay :: cs, s, f =>
    match getnum s true with
    | some (n, t) => parseChunks cs t { f with day := n }
    | none => none
  | .hour :: cs, s, f =>
    match getnum s false with
    | some (n, t) => if n < 0 ∨ 24 ≤ n then none else parseChunks cs t { f with hour := n }
    | none => none
  | .zeroMinute :: cs, s, f =>
    match getnum s true with
    | some (n, t) => if n < 0 ∨ 60 ≤ n then none else parseChunks cs t { f with min := n }
    | none => none
  | .zeroSecond :: cs, s, f =>
    match getnum s true with
    | some (n, t) =>
      if n < 0 ∨ 60 ≤ n then none else parseChunks cs (skipFraction t) { f with sec := n }
    | none => none

/-- The fields of a value under a layout, with the final validation of the day
against the length of the month; `none` is a parse error. -/
def parseFields (layout : List Chunk) (value : Str) : Option DateFields :=
  match parseChunks layout value {} with
  | some f => if f.day < 1 ∨ daysIn f.month f.year < f.day then none else some f
  | none => none

/-- The layout `20060102T150405`, the constant `dateTimeLayoutLocalized`. -/
def dateTimeLayoutLocalized : List Chunk :=
  [.longYear, .zeroMonth, .zeroDay, .lit 'T', .hour, .zeroMinute, .zeroSecond]

/-- Modelled from the spec: the constant `IcsFormat` is declared outside
`parse.go`; it is "the format's compact basic timestamp layout" in UTC form,
`20060102T150405Z`. -/
def IcsFormat : List Chunk :=
  [.longYear, .zeroMonth, .zeroDay, .lit 'T', .hour, .zeroMinute, .zeroSecond, .lit 'Z']

/-- Modelled from the spec: the constant `IcsFormatWholeDay` is declared outside
`parse.go`; it is the "date-only layout" `20060102`. -/
def IcsFormatWholeDay : List Chunk := [.longYear, .zeroMonth, .zeroDay]

/-- Go `time.Parse(layout, value)` with the error dropped (the zero time on
error), for a layout without a zone: the fields are read as UTC. -/
def timeParse (layout : List Chunk) (value : Str) : Time :=
  match parseFields layout value with
  | some f => goDate f.year f.month f.day f.hour f.min f.sec
  | none => 0

/-- A `*time.Location`: for an instant, the offset in force (seconds east of
UTC) and the interval of instants `[start, stop)` in which it is in force. -/
structure Location where
  lookup : Time → Int × Int × Int

/-- Go `time.UTC`. -/
def Location.utc : Location := ⟨fun _ => (0, 0, 0)⟩

/-- Go `time.Date(..., loc)`: the wall-clock fields are first read as UTC, then
shifted by the offset the location gives, looked up a second time when the first
guess falls outside the interval of that offset. -/
def dateIn (loc : Location) (f : DateFields) : Time :=
  let unix := goDate f.year f.month f.day f.hour f.min f.sec
  match loc.lookup unix with
  | (offset, start, stop) =>
    if offset ≠ 0 then
      let utc := unix - offset
      if utc < start ∨ utc ≥ stop then unix - (loc.lookup utc).1 else unix - offset
    else unix

/-- Go `time.ParseInLocation(layout, value, loc)` with the error dropped. The
outer `none` is the panic of `time.Date` on a nil location, which is reached
only when the value parses. -/
def parseInLocation (layout : List Chunk) (value : Str) (loc : Option Location) : Option Time :=
  match parseFields layout value with
  | none => some 0
  | some f =>
    match loc with
    | none => none
    | some l => some (dateIn l f)

/-! ## Helpers and data holders declared outside `parse.go` -/

/-- Modelled from the spec: the helper `trimField(field, cutset)` is declared
outside `parse.go`. It "strip[s] the key/parameter prefix and trailing line
terminator": every match of the expression `cutset` is removed from `field`,
then trailing carriage returns and line feeds are cut. -/
def trimField (field : Str) (cutset : RE) : Str :=
  trimRightCRLF (cutset.removeAll field)

/-- Modelled from the spec: the helper `parseDayNameToIcsName` is declared
outside `parse.go`. It turns the abbreviated weekday name into the "two-letter
weekday code" of the recurrence rule. -/
def parseDayNameToIcsName (day : Str) : Str :=
  if day = "Mon".toList then "MO".toList else if day = "Tue".toList then "TU".toList
  else if day = "Wed".toList then "WE".toList else if day = "Thu".toList then "TH".toList
  else if day = "Fri".toList then "FR".toList else if day = "Sat".toList then "SA".toList
  else if day = "Sun".toList then "SU".toList else []

/-- The `Event` data holder (declared outside `parse.go`), with the scalar
attributes that `parseEvents` sets. Its setters "carry no logic". The geo
coordinate, the attendees, the organizer and the back-reference to the calendar
are set from the event block alone and play no part in the expansion; they are
left out. -/
structure Event where
  startTZID : Str := []
  endTZID : Str := []
  status : Str := []
  summary : Str := []
  description : Str := []
  importedID : Str := []
  class_ : Str := []
  sequence : Int := 0
  created : Time := 0
  modified : Time := 0
  rrule : Str := []
  location : Str := []
  start : Time := 0
  end_ : Time := 0
  wholeDayEvent : Bool := false
  id : Str := []
deriving DecidableEq

/-- What lies outside `parse.go` and the Go standard library, and the
process-wide configuration. -/
structure Env where
  /-- The host zone database behind `time.LoadLocation`; `none` is an error. -/
  zoneDB : Str → Option Location
  /-- The legacy zone-name table `wtz.LoadLocation`: the location returned
  (`none` for a nil pointer) and whether an error is returned with it. -/
  wtzLoadLocation : Str → Option Location × Bool
  /-- The duration notation `duration.FromString` followed by `ToDuration`, in
  whole seconds; `none` is an error. -/
  durationFromString : Str → Option Int
  /-- The method `GenerateEventId` of `Event`. -/
  generateEventId : Event → Str
  /-- The variable `MaxRepeats` (1000 after `init`). -/
  MaxRepeats : Int
  /-- The variable `RepeatRuleApply` (true after `init`). -/
  RepeatRuleApply : Bool

/-- The function `init` of `parse.go`, as far as the expansion reads what it
sets: `RepeatRuleApply = true` and `MaxRepeats = 1000`. -/
def Env.init (env : Env) : Env := { env with MaxRepeats := 1000, RepeatRuleApply := true }

/-- Go `time.LoadLocation`: the names `""` and `"UTC"` give UTC, any other name
is looked up in the zone database. -/
def timeLoadLocation (env : Env) (name : Str) : Option Location :=
  if name = [] ∨ name = "UTC".toList then some Location.utc else env.zoneDB name

/-- What `parseEvents` does to the outside: `events` is the event sequence of
the calendar, to which `cal.SetEvent` appends, and `buffered` is the sequence of
events sent on `p.bufferedChan`. -/
structure Sink where
  events : List Event := []
  buffered : List Event := []
deriving DecidableEq

/-- Modelled from the spec: `Calendar.SetEvent` is declared outside `parse.go`;
the event "is appended to the owning Calendar", whose event sequence is in
insertion order. -/
def Sink.setEvent (k : Sink) (e : Event) : Sink := { k with events := k.events ++ [e] }

/-- The send `p.bufferedChan <- event`. -/
def Sink.send (k : Sink) (e : Event) : Sink := { k with buffered := k.buffered ++ [e] }

/-! ## The field extractors of `parse.go` -/

/-- The expression `key.*?\n` shared by the single-line extractors. -/
def reLine (key : Str) : RE :=
  RE.cat [RE.str key, .star false RE.dot, .lit '\n']

/-- `parseEventStatus`: expression `STATUS:.*?\n`, cut `STATUS:`. -/
def parseEventStatus (eventData : Str) : Str :=
  trimField ((reLine "STATUS:".toList).findString eventData) (RE.str "STATUS:".toList)

/-- `parseEventId`: expression `UID:.*?\n`, cut `UID:`. -/
def parseEventId (eventData : Str) : Str :=
  trimField ((reLine "UID:".toList).findString eventData) (RE.str "UID:".toList)

/-- `parseEventClass`: expression `CLASS:.*?\n`, cut `CLASS:`. -/
def parseEventClass (eventData : Str) : Str :=
  trimField ((reLine "CLASS:".toList).findString eventData) (RE.str "CLASS:".toList)

/-- `parseEventSequence`: expression `SEQUENCE:.*?\n`, cut `SEQUENCE:`, then
`strconv.Atoi`. -/
def parseEventSequence (eventData : Str) : Int :=
  atoi (trimField ((reLine "SEQUENCE:".toList).findString eventData) (RE.str "SEQUENCE:".toList))

/-- `parseEventCreated`: expression `CREATED:.*?\n`, parsed with `IcsFormat`. -/
def parseEventCreated (eventData : Str) : Time :=
  timeParse IcsFormat
    (trimField ((reLine "CREATED:".toList).findString eventData) (RE.str "CREATED:".toList))

/-- `parseEventModified`: expression `LAST-MODIFIED:.*?\n`, parsed with
`IcsFormat`. -/
def parseEventModified (eventData : Str) : Time :=
  timeParse IcsFormat
    (trimField ((reLine "LAST-MODIFIED:".toList).findString eventData)
      (RE.str "LAST-MODIFIED:".toList))

/-- `parseEventRRule`: expression `RRULE:.*?\n`, cut `RRULE:`. -/
def parseEventRRule (eventData : Str) : Str :=
  trimField ((reLine "RRULE:".toList).findString eventData) (RE.str "RRULE:".toList)

/-- `parseEventLocation`: expression `LOCATION:.*?\n`, cut `LOCATION:`. -/
def parseEventLocation (eventData : Str) : Str :=
  trimField ((reLine "LOCATION:".toList).findString eventData) (RE.str "LOCATION:".toList)

/-- The class `[a-zA-Z\-]`. -/
def RE.langChar : RE :=
  .cls (fun ch => (decide ('a' ≤ ch) && decide (ch ≤ 'z')) ||
    (decide ('A' ≤ ch) && decide (ch ≤ 'Z')) || ch == '-')

/-- The expression `SUMMARY(?:;LANGUAGE=[a-zA-Z\-]+)?`. -/
def reSummaryKey : RE :=
  RE.cat [RE.str "SUMMARY".toList,
    .opt true (RE.cat [RE.str ";LANGUAGE=".toList, RE.langChar, .star true RE.langChar])]

/-- `parseEventSummary`: expression `SUMMARY(?:;LANGUAGE=[a-zA-Z\-]+)?.*?\n`, cut
`SUMMARY(?:;LANGUAGE=[a-zA-Z\-]+)?:`. -/
def parseEventSummary (eventData : Str) : Str :=
  trimField ((RE.cat [reSummaryKey, .star false RE.dot, .lit '\n']).findString eventData)
    (RE.cat [reSummaryKey, .lit ':'])

/-- The class `\s`. -/
def RE.space : RE :=
  .cls (fun ch => ch == '\t' || ch == '\n' || ch.toNat == 12 || ch == '\r' || ch == ' ')

/-- Go `strings.Replace(s, old, "", -1)` for a non-empty `old`; the first
argument counts the characters of a found occurrence still to be dropped. -/
def removeLiteralAux (old : Str) : Nat → Str → Str
  | _, [] => []
  | k + 1, _ :: t => removeLiteralAux old k t
  | 0, x :: t =>
    if old.isPrefixOf (x :: t) && !old.isEmpty then removeLiteralAux old (old.length - 1) t
    else x :: removeLiteralAux old 0 t

/-- Go `strings.Replace(s, old, "", -1)`. -/
def removeLiteral (old s : Str) : Str := removeLiteralAux old 0 s

/-- `parseEventDescription`: expression `DESCRIPTION:.*?\n(?:\s+.*?\n)*`, the
line folds removed, cut `DESCRIPTION:`. -/
def parseEventDescription (eventData : Str) : Str :=
  trimField
    (removeLiteral "\r\n ".toList
      ((RE.cat [RE.str "DESCRIPTION:".toList, .star false RE.dot, .lit '\n',
        .star true (RE.cat [RE.space, .star true RE.space, .star false RE.dot, .lit '\n'])]).findString
        eventData))
    (RE.str "DESCRIPTION:".toList)

/-- `parseEventDuration`: expression `DURATION:.*?\n`, cut `DURATION:`, then the
duration notation; the zero duration when that fails. -/
def parseEventDuration (env : Env) (eventData : Str) : Int :=
  match env.durationFromString
      (trimField ((reLine "DURATION:".toList).findString eventData) (RE.str "DURATION:".toList)) with
  | some d => d
  | none => 0

/-! ## `parseTimeField` -/

/-- The expression `fieldName;VALUE=DATE:.*?\n` of `parseTimeField`. -/
def reWholeDay (fieldName : Str) : RE :=
  RE.cat [RE.str fieldName, RE.str ";VALUE=DATE:".toList, .star false RE.dot, .lit '\n']

/-- The expression `fieldName(;TZID=(.*?))?(;VALUE=DATE-TIME)?:(.*?)\n` of
`parseTimeField`. -/
def reTimed (fieldName : Str) : RE :=
  RE.cat [RE.str fieldName,
    .opt true (.grp 1 (RE.cat [RE.str ";TZID=".toList, .grp 2 (.star false RE.dot)])),
    .opt true (.grp 3 (RE.str ";VALUE=DATE-TIME".toList)),
    .lit ':', .grp 4 (.star false RE.dot), .lit '\n']

/-- `parseTimeField`. The result `none` is a run-time panic. The value `t` of the
source is computed and never returned: the function returns `ut`, which only the
timed branch assigns. In the timed branch `loc` is first the result of
`time.LoadLocation`; when that fails, `loc = time.UTC` is assigned if
`wtz.LoadLocation` fails too, and then `loc = newloc` is assigned in either case.
The parameter `tzData` of the source is not used by it. -/
def parseTimeField (env : Env) (fieldName eventData : Str) : Option (Time × Str) :=
  let re := reTimed fieldName
  let resultWholeDay := (reWholeDay fieldName).findString eventData
  let ut : Time := 0
  let tzID : Str := []
  if resultWholeDay ≠ [] then
    let modified := trimField resultWholeDay (RE.cat [RE.str fieldName, RE.str ";VALUE=DATE:".toList])
    let _t := timeParse IcsFormatWholeDay modified
    some (ut, tzID)
  else
    match re.find eventData with
    | none => some (ut, tzID)
    | some result =>
      let tzID := result.group 2
      let dt := trimSpace (result.group 4)
      let loc : Option Location :=
        match timeLoadLocation env tzID with
        | some l => some l
        | none =>
          let (newloc, newlocerr) := env.wtzLoadLocation tzID
          let _loc : Option Location := if newlocerr then some Location.utc else none
          newloc
      match parseInLocation dateTimeLayoutLocalized dt loc with
      | none => none
      | some localTime =>
        let utcTime := localTime.formatCompact
        let dt := if !contains dt ['Z'] then dt ++ ['Z'] else dt
        let _t := timeParse IcsFormat dt
        let utcTime := if !contains utcTime ['Z'] then utcTime ++ ['Z'] else utcTime
        let ut := timeParse IcsFormat utcTime
        some (ut, tzID)

/-- `parseEventStart`. -/
def parseEventStart (env : Env) (eventData : Str) : Option (Time × Str) :=
  parseTimeField env "DTSTART".toList eventData

/-- `parseEventEnd`. -/
def parseEventEnd (env : Env) (eventData : Str) : Option (Time × Str) :=
  parseTimeField env "DTEND".toList eventData

/-! ## `parseEvents`: assembling the master event -/

/-- The end that `parseEvents` gives the event: `start.Add(duration)` when the
resolved end is before the resolved start, the resolved end otherwise. -/
def resolveEnd (start end_ : Time) (duration : Int) : Time :=
  if end_.before start then start.add duration else end_

/-- The whole-day test of `parseEvents`. -/
def isWholeDay (start end_ : Time) : Bool :=
  decide (start.hour = 0) && decide (end_.hour = 0) && decide (start.minute = 0) &&
    decide (end_.minute = 0) && decide (start.second = 0) && decide (end_.second = 0)

/-- The first part of the body of the loop of `parseEvents`: the event of one
event block. `none` is a panic of `parseTimeField`. -/
def assembleEvent (env : Env) (eventData : Str) : Option Event :=
  match parseEventStart env eventData with
  | none => none
  | some (start, startTZID) =>
    match parseEventEnd env eventData with
    | none => none
    | some (end0, endTZID) =>
      let duration := parseEventDuration env eventData
      let end_ := resolveEnd start end0 duration
      let wholeDay := isWholeDay start end_
      let event : Event :=
        { startTZID := startTZID
          endTZID := endTZID
          status := parseEventStatus eventData
          summary := parseEventSummary eventData
          description := parseEventDescription eventData
          importedID := parseEventId eventData
          class_ := parseEventClass eventData
          sequence := parseEventSequence eventData
          created := parseEventCreated eventData
          modified := parseEventModified eventData
          rrule := parseEventRRule eventData
          location := parseEventLocation eventData
          start := start
          end_ := end_
          wholeDayEvent := wholeDay }
      some { event with id := env.generateEventId event }

/-! ## `parseEvents`: the recurrence expansion -/

/-- The sub-fields that `parseEvents` reads from the rule text. -/
structure Rule where
  until_ : Option Time
  interval : Int
  count : Int
  freq : Str
  bymonth : Str
  byday : Str
deriving DecidableEq

/-- The expression `UNTIL=(\d)*T(\d)*Z(;){0,1}`. -/
def reUntil : RE :=
  RE.cat [RE.str "UNTIL=".toList, .star true (.grp 1 RE.digit), .lit 'T',
    .star true (.grp 2 RE.digit), .lit 'Z', .opt true (.grp 3 (.lit ';'))]

/-- The expression `INTERVAL=(\d)*(;){0,1}`. -/
def reInterval : RE :=
  RE.cat [RE.str "INTERVAL=".toList, .star true (.grp 1 RE.digit), .opt true (.grp 2 (.lit ';'))]

/-- The expression `COUNT=(\d)*(;){0,1}`. -/
def reCount : RE :=
  RE.cat [RE.str "COUNT=".toList, .star true (.grp 1 RE.digit), .opt true (.grp 2 (.lit ';'))]

/-- The expression `FREQ=[^;]*(;){0,1}`. -/
def reFr : RE :=
  RE.cat [RE.str "FREQ=".toList, .star true RE.notSemi, .opt true (.grp 1 (.lit ';'))]

/-- The expression `BYMONTH=[^;]*(;){0,1}`. -/
def reBM : RE :=
  RE.cat [RE.str "BYMONTH=".toList, .star true RE.notSemi, .opt true (.grp 1 (.lit ';'))]

/-- The expression `BYDAY=[^;]*(;){0,1}`. -/
def reBD : RE :=
  RE.cat [RE.str "BYDAY=".toList, .star true RE.notSemi, .opt true (.grp 1 (.lit ';'))]

/-- The cut expression `(KEY=|;)`. -/
def reCut (key : Str) : RE := .grp 1 (.alt (RE.str key) (.lit ';'))

/-- The sub-fields of the rule text, as `parseEvents` reads them; `maxRepeats`
is the value of the variable `MaxRepeats`. -/
def parseRule (maxRepeats : Int) (rrule : Str) : Rule :=
  let untilString := trimField (reUntil.findString rrule) (reCut "UNTIL=".toList)
  let until_ : Option Time :=
    if untilString = [] then none else some (timeParse IcsFormat untilString)
  let intervalString := trimField (reInterval.findString rrule) (reCut "INTERVAL=".toList)
  let interval := atoi intervalString
  let interval := if interval = 0 then 1 else interval
  let countString := trimField (reCount.findString rrule) (reCut "COUNT=".toList)
  let count := atoi countString
  let count := if count = 0 then maxRepeats else count
  let freq := trimField (reFr.findString rrule) (reCut "FREQ=".toList)
  let bymonth := trimField (reBM.findString rrule) (reCut "BYMONTH=".toList)
  let byday := trimField (reBD.findString rrule) (reCut "BYDAY=".toList)
  { until_ := until_, interval := interval, count := count, freq := freq,
    bymonth := bymonth, byday := byday }

/-- The step `(years, months, days)` that the `switch` on `freq` sets; all
three stay zero when no case applies. -/
def freqStep (r : Rule) : Int × Int × Int :=
  if r.freq = "DAILY".toList then (0, 0, r.interval)
  else if r.freq = "WEEKLY".toList then (0, 0, 7)
  else if r.freq = "MONTHLY".toList then (0, r.interval, 0)
  else if r.freq = "YEARLY".toList then (r.interval, 0, 0)
  else (0, 0, 0)

/-- The variables of the generation loop, with what the loop has done to the
outside so far. -/
structure LoopState where
  current : Int
  count : Int
  freqDateStart : Time
  freqDateEnd : Time
  sink : Sink
deriving DecidableEq

/-- The guard of `cal.SetEvent(newE)`:
`until == nil || until.Format(YmdHis) >= weekDaysStart.Format(YmdHis)`. -/
def untilAdmits (until_ : Option Time) (weekDaysStart : Time) : Bool :=
  match until_ with
  | none => true
  | some u => strLe weekDaysStart.formatYmdHis u.formatYmdHis

/-- The occurrence `newE` built for the date `weekDaysStart`, when `current`
has already been incremented. -/
def newOccurrence (env : Env) (event : Event) (weekDaysStart weekDaysEnd : Time)
    (current : Int) : Event :=
  let newE := { event with start := weekDaysStart, end_ := weekDaysEnd }
  let newE := { newE with id := env.generateEventId newE }
  { newE with sequence := current }

/-- The block that emits one occurrence: `current++`, `count--`, the copy of
the master with its start, end, identifier and sequence overwritten, appended
to the calendar when the UNTIL guard admits it. -/
def emit (env : Env) (event : Event) (r : Rule) (weekDaysStart weekDaysEnd : Time)
    (st : LoopState) : LoopState :=
  let current := st.current + 1
  let count := st.count - 1
  let newE := newOccurrence env event weekDaysStart weekDaysEnd current
  { st with
    current := current
    count := count
    sink := if untilAdmits r.until_ weekDaysStart then st.sink.setEvent newE else st.sink }

/-- The inner loop `for i := 0; i < 7; i++` over the weekdays; the first
argument is the number of iterations left. -/
def weekLoop (env : Env) (event : Event) (start : Time) (r : Rule) :
    Nat → Time → Time → LoopState → LoopState
  | 0, _, _, st => st
  | i + 1, weekDaysStart, weekDaysEnd, st =>
    let day := parseDayNameToIcsName weekDaysStart.formatWeekDay
    let st1 :=
      if contains r.byday day && decide (weekDaysStart ≠ start) then
        emit env event r weekDaysStart weekDaysEnd st
      else st
    weekLoop env event start r i (weekDaysStart.addDate 0 0 1) (weekDaysEnd.addDate 0 0 1) st1

/-- What one pass of the generation loop emits: nothing when BYMONTH is given
and does not contain the month number of the stepped date; the matching
weekdays of the seven days from the stepped date when BYDAY is given; the
stepped date itself otherwise, unless it is the start of the master. -/
def emitPass (env : Env) (event : Event) (start : Time) (r : Rule) (st : LoopState) :
    LoopState :=
  let weekDaysStart := st.freqDateStart
  let weekDaysEnd := st.freqDateEnd
  if r.bymonth = [] ∨ contains r.bymonth weekDaysStart.formatNumMonth = true then
    if r.byday ≠ [] then
      weekLoop env event start r 7 weekDaysStart weekDaysEnd st
    else if weekDaysStart ≠ start then
      emit env event r weekDaysStart weekDaysEnd st
    else st
  else st

/-- One pass of the generation loop `for { ... }`: the emission, the step of
the date, and the two `break` tests. The flag says that the loop is left. -/
def loopBody (env : Env) (event : Event) (start : Time) (r : Rule) (st : LoopState) :
    LoopState × Bool :=
  let st1 := emitPass env event start r st
  match freqStep r with
  | (years, months, days) =>
    let st2 : LoopState :=
      { st1 with
        freqDateStart := st1.freqDateStart.addDate years months days
        freqDateEnd := st1.freqDateEnd.addDate years months days }
    if st2.current > env.MaxRepeats ∨ st2.count = 0 then (st2, true)
    else
      match r.until_ with
      | some u =>
        if strLe u.formatYmdHis st2.freqDateStart.formatYmdHis then (st2, true)
        else (st2, false)
      | none => (st2, false)

/-- The generation loop run for at most `fuel` passes: `some` is the state in
which the loop is left, `none` means that it is still running after `fuel`
passes. -/
def runLoop (env : Env) (event : Event) (start : Time) (r : Rule) :
    Nat → LoopState → Option LoopState
  | 0, _ => none
  | fuel + 1, st =>
    match loopBody env event start r st with
    | (st1, true) => some st1
    | (st1, false) => runLoop env event start r fuel st1

/-- The state after at most `n` passes of the generation loop (fewer when the
loop is left earlier). -/
def stateAfter (env : Env) (event : Event) (start : Time) (r : Rule) :
    Nat → LoopState → LoopState
  | 0, st => st
  | n + 1, st =>
    match loopBody env event start r st with
    | (st1, true) => st1
    | (st1, false) => stateAfter env event start r n st1

/-- The state in which the generation loop is entered. -/
def initState (env : Env) (event : Event) (start end_ : Time) (k : Sink) : LoopState :=
  { current := 0
    count := (parseRule env.MaxRepeats event.rrule).count
    freqDateStart := start
    freqDateEnd := end_
    sink := k }

/-- The recurrence expansion of one master event: the block guarded by
`RepeatRuleApply && event.GetRRule() != ""`, run for at most `fuel` passes of
the generation loop. `none` means that the loop is still running. -/
def expand (env : Env) (fuel : Nat) (event : Event) (start end_ : Time) (k : Sink) :
    Option Sink :=
  if env.RepeatRuleApply ∧ event.rrule ≠ [] then
    match runLoop env event start (parseRule env.MaxRepeats event.rrule) fuel
        (initState env event start end_ k) with
    | some st => some st.sink
    | none => none
  else some k

/-- How a run of `parseEvents` can fail to return. -/
inductive Fault where
  | panic
  | running
deriving DecidableEq

/-- `parseEvents`: every event block is assembled, appended to the calendar,
sent on the buffered channel and expanded; each expansion may take `fuel`
passes of its generation loop. -/
def parseEvents (env : Env) (fuel : Nat) : List Str → Sink → Except Fault Sink
  | [], k => .ok k
  | eventData :: rest, k =>
    match assembleEvent env eventData with
    | none => .error .panic
    | some event =>
      let k1 := (k.setEvent event).send event
      match expand env fuel event event.start event.end_ k1 with
      | none => .error .running
      | some k2 => parseEvents env fuel rest k2

/-! ## Closed form of the expansion of a rule that steps by whole days -/

/-- The `i`-th occurrence of a rule that steps `d` days at a time and has no
BYDAY, BYMONTH or UNTIL part. -/
def dayOccurrence (env : Env) (event : Event) (start end_ : Time) (d i : Int) : Event :=
  newOccurrence env event (start + i * d * 86400) (end_ + i * d * 86400) i

/-- The first `n` occurrences of such a rule, in order. -/
def dayOccurrences (env : Env) (event : Event) (start end_ : Time) (d : Int) (n : Nat) :
    List Event :=
  (List.range n).map (fun (i : Nat) => dayOccurrence env event start end_ d ((i : Int) + 1))

/-- The state of the generation loop of such a rule after the pass that emitted
the `i`-th occurrence. -/
def dayState (env : Env) (event : Event) (start end_ : Time) (k : Sink) (c d : Int) (i : Nat) :
    LoopState :=
  { current := i
    count := c - i
    freqDateStart := start + ((i : Int) + 1) * d * 86400
    freqDateEnd := end_ + ((i : Int) + 1) * d * 86400
    sink := { k with events := k.events ++ dayOccurrences env event start end_ d i } }

/-! ## Concrete inputs -/

/-- An environment with an empty zone database, an empty legacy zone table, no
duration notation and a constant identifier, configured as `init` does. -/
def bareEnv : Env :=
  { zoneDB := fun _ => none
    wtzLoadLocation := fun _ => (none, true)
    durationFromString := fun _ => none
    generateEventId := fun _ => []
    MaxRepeats := 1000
    RepeatRuleApply := true }

/-- A master event that carries the rule text `rrule` and nothing else. -/
def masterWith (rrule : Str) (start end_ : Time) : Event :=
  { rrule := rrule, start := start, end_ := end_ }

/-- The master of the weekly example of the spec: Monday 2024-01-01, 09:00 to
10:00 UTC, repeated on Monday, Wednesday and Friday, UNTIL one week later. -/
def weeklyMaster : Event :=
  masterWith "FREQ=WEEKLY;BYDAY=MO,WE,FR;UNTIL=20240108T090000Z".toList
    (goDate 2024 1 1 9 0 0) (goDate 2024 1 1 10 0 0)

/-- The sink after the expansion of `weeklyMaster` into an empty sink. -/
def weeklyResult : Sink :=
  { events :=
      [newOccurrence bareEnv weeklyMaster (goDate 2024 1 3 9 0 0) (goDate 2024 1 3 10 0 0) 1,
        newOccurrence bareEnv weeklyMaster (goDate 2024 1 5 9 0 0) (goDate 2024 1 5 10 0 0) 2]
    buffered := [] }

/-- An environment like `bareEnv` whose duration notation knows `PT1H`. -/
def hourEnv : Env :=
  { bareEnv with
    durationFromString := fun s => if s = "PT1H".toList then some 3600 else none }

/-! ## What the generation loop may append -/

/-- An occurrence as the loop appends it: the copy of the master that
`newOccurrence` makes for a date other than the start of the master that the
UNTIL guard admits. -/
def Admitted (env : Env) (event : Event) (start : Time) (r : Rule) (e : Event) : Prop :=
  ∃ (ws we : Time) (cur : Int),
    e = newOccurrence env event ws we cur ∧ ws ≠ start ∧ untilAdmits r.until_ ws = true

/-- The sink `k` comes from the sink `k0` by appending admitted occurrences to
the calendar and sending nothing. -/
def Extends (env : Env) (event : Event) (start : Time) (r : Rule) (k0 k : Sink) : Prop :=
  k.buffered = k0.buffered ∧
    ∃ occ : List Event, k.events = k0.events ++ occ ∧ ∀ e ∈ occ, Admitted env event start r e

/-- The calendar fields of an instant as one number, two decimal places for
each field below the year. -/
def Time.lexKey (t : Time) : Int :=
  ((((t.year * 100 + t.month) * 100 + t.day) * 100 + t.hour) * 100 + t.minute) * 100 + t.second

/-- The ranges of the fields that `time.Parse` accepts, the day apart. -/
def DateFields.InRange (f : DateFields) : Prop :=
  (0 ≤ f.year ∧ f.year ≤ 9999) ∧ (1 ≤ f.month ∧ f.month ≤ 12) ∧ (0 ≤ f.hour ∧ f.hour ≤ 23) ∧
    (0 ≤ f.min ∧ f.min ≤ 59) ∧ (0 ≤ f.sec ∧ f.sec ≤ 59)

/-- An event block whose end, 08:00, lies before its start, 09:00, with a
duration of one hour. -/
def shortBlock : Str :=
  "BEGIN:VEVENT\r\nDTSTART:20240101T090000\r\nDTEND:20240101T080000\r\nDURATION:PT1H\r\nEND:VEVENT\r\n".toList
/-! ## `explodeICal`: the document segmenter -/

/-- Go `Regexp.FindAllString r s n` for `n >= 0`: the texts of the successive
non-overlapping matches, at most `limit` of them. The first argument bounds the
number of searches (each moves on at least one character), `afterMatch` says
that the text starts where the previous match ended: an empty match there is
not delivered. -/
def RE.findAllAux (r : RE) : Nat → Nat → Bool → Str → List Str
  | 0, _, _, _ => []
  | _ + 1, 0, _, _ => []
  | fuel + 1, limit + 1, afterMatch, s =>
    match r.find s with
    | none => []
    | some m =>
      if m.text.isEmpty then
        match m.post with
        | [] => if afterMatch && m.pre.isEmpty then [] else [[]]
        | _ :: t =>
          if afterMatch && m.pre.isEmpty then RE.findAllAux r fuel (limit + 1) false t
          else [] :: RE.findAllAux r fuel limit false t
      else m.text :: RE.findAllAux r fuel limit true m.post

/-- Go `Regexp.FindAllString r s n`. -/
def RE.findAllString (r : RE) (s : Str) (n : Nat) : List Str :=
  r.findAllAux (s.length + 1) n false s

/-- Go `len(s)`: the number of bytes of the UTF-8 text. -/
def byteLen (s : Str) : Nat := (s.map Char.utf8Size).sum

/-- The expression `(BEGIN(.*\n)*?END\r?\n)` for a begin marker and an end
marker. -/
def reBlock (beginM endM : Str) : RE :=
  .grp 1 (RE.cat [RE.str beginM,
    .star false (.grp 2 (RE.cat [.star true RE.dot, .lit '\n'])),
    RE.str endM, .opt true (.lit '\r'), .lit '\n'])

/-- The expression `(BEGIN:VEVENT(.*\n)*?END:VEVENT\r?\n)`. -/
def reEvents : RE := reBlock "BEGIN:VEVENT".toList "END:VEVENT".toList

/-- The expression `(BEGIN:VTIMEZONE(.*\n)*?END:VTIMEZONE\r?\n)`. -/
def tzDefs : RE := reBlock "BEGIN:VTIMEZONE".toList "END:VTIMEZONE".toList

/-- `explodeICal`: the event blocks, the calendar information and the zone
blocks of a document. -/
def explodeICal (iCalContent : Str) : List Str × Str × List Str :=
  let allEvents := reEvents.findAllString iCalContent (byteLen iCalContent)
  let allTz := tzDefs.findAllString iCalContent (byteLen iCalContent)
  let calInfo := reEvents.removeAll iCalContent
  (allEvents, calInfo, allTz)

/-! ### The segmentation in the words of the spec -/

/-- The text that follows an end-marker line standing at the head of `s`: the
end marker, an optional carriage return and the line feed. -/
def afterEndLine (endM s : Str) : Option Str :=
  if endM.isPrefixOf s then
    match s.drop endM.length with
    | '\r' :: '\n' :: rest => some rest
    | '\n' :: rest => some rest
    | _ => none
  else none

/-- The text that follows the first line feed of `s`. -/
def afterLine : Str → Option Str
  | [] => none
  | x :: t => if x = '\n' then some t else afterLine t

/-- The text that follows the first end-marker line of `s`: the end marker is
looked for at the head of `s` and then at the start of each following line. The
first argument bounds the number of lines passed over; the length of `s` is
enough. -/
def afterBlockBody (endM : Str) : Nat → Str → Option Str
  | 0, s => afterEndLine endM s
  | n + 1, s =>
    match afterEndLine endM s with
    | some rest => some rest
    | none =>
      match afterLine s with
      | some t => afterBlockBody endM n t
      | none => none

/-- The block that starts at the head of `s`, with the text that follows it:
`s` starts with the begin marker, and the block ends with the first end-marker
line after it, line terminator included. -/
def blockAt (beginM endM s : Str) : Option (Str × Str) :=
  if beginM.isPrefixOf s then
    match afterBlockBody endM (s.drop beginM.length).length (s.drop beginM.length) with
    | some rest => some (s.take (s.length - rest.length), rest)
    | none => none
  else none

/-- The first block of `s`: the text before it, the block, the text after
it. The block starts at the leftmost position at which there is one. -/
def firstBlock (beginM endM : Str) : Str → Option (Str × Str × Str)
  | [] =>
    match blockAt beginM endM [] with
    | some (blk, rest) => some ([], blk, rest)
    | none => none
  | x :: t =>
    match blockAt beginM endM (x :: t) with
    | some (blk, rest) => some ([], blk, rest)
    | none =>
      match firstBlock beginM endM t with
      | some (pre, blk, rest) => some (x :: pre, blk, rest)
      | none => none

/-- The blocks of a document, in order, and the document with the blocks
removed: the first block is cut out, what precedes it is kept, and the text
after it is treated in the same way. The first argument bounds the number of
blocks; the length of the document is enough. -/
def cutBlocks (beginM endM : Str) : Nat → Str → List Str × Str
  | 0, s => ([], s)
  | n + 1, s =>
    match firstBlock beginM endM s with
    | none => ([], s)
    | some (pre, blk, rest) =>
      ((cutBlocks beginM endM n rest).1.cons blk, pre ++ (cutBlocks beginM endM n rest).2)

/-- The text made of the gaps with the blocks put between them, in order. -/
def weave : List Str → List Str → Str
  | g :: gs, b :: bs => g ++ b ++ weave gs bs
  | g :: _, [] => g
  | [], _ => []

/-- The segmentation in the words of the spec: "(a) the list of verbatim
event-block substrings", where "a block starts at its begin marker and ends at
the first following matching end marker, line-terminator included", cut out one
after the other, each in what follows the block before it; "(c) the
calendar-level metadata text, defined as the document with all event blocks
removed (zone blocks are left in place)"; "(b) the list of verbatim
zone-rule-block substrings", cut out the same way from the whole document. -/
def explodeSpec (doc : Str) : List Str × Str × List Str :=
  ((cutBlocks "BEGIN:VEVENT".toList "END:VEVENT".toList (doc.length + 1) doc).1,
    (cutBlocks "BEGIN:VEVENT".toList "END:VEVENT".toList (doc.length + 1) doc).2,
    (cutBlocks "BEGIN:VTIMEZONE".toList "END:VTIMEZONE".toList (doc.length + 1) doc).1)

/-- A document with a zone block and two event blocks. -/
def sampleDoc : Str :=
  "BEGIN:VCALENDAR\r\nX-WR-CALNAME:n\r\nBEGIN:VTIMEZONE\r\nTZID:Z\r\nEND:VTIMEZONE\r\nBEGIN:VEVENT\r\nUID:1\r\nEND:VEVENT\r\nBEGIN:VEVENT\r\nUID:2\r\nEND:VEVENT\r\nEND:VCALENDAR\r\n".toList

/-! ## The attendee extractors -/

/-- The `Attendee` data holder (declared outside `parse.go`) with the fields
that `parseAttendee` sets; its setters carry no logic. -/
structure Attendee where
  email : Str := []
  name : Str := []
  role : Str := []
  status : Str := []
  type_ : Str := []
deriving DecidableEq

/-- Go `strings.Replace(s, old, "", 1)`: the first occurrence of `old` removed. -/
def removeFirst (old : Str) : Str → Str
  | [] => []
  | x :: t => if old.isPrefixOf (x :: t) then (x :: t).drop old.length else x :: removeFirst old t

/-- The expression `KEY(:|;)(.*?\r?\n)(\s.*?\r?\n)*` of `parseEventAttendees`
(`KEY` is `ATTENDEE`) and of `parseEventOrganizer` (`ORGANIZER`). -/
def rePerson (key : Str) : RE :=
  RE.cat [RE.str key, .grp 1 (.alt (.lit ':') (.lit ';')),
    .grp 2 (RE.cat [.star false RE.dot, .opt true (.lit '\r'), .lit '\n']),
    .star true (.grp 3 (RE.cat [RE.space, .star false RE.dot, .opt true (.lit '\r'), .lit '\n']))]

/-- The expression `KEY.*?;` shared by the parameter extractors. -/
def reParam (key : Str) : RE := RE.cat [RE.str key, .star false RE.dot, .lit ';']

/-- `parseAttendeeMail`: expression `mailto:.*?\n`, cut `mailto:`. -/
def parseAttendeeMail (attendeeData : Str) : Str :=
  trimField ((reLine "mailto:".toList).findString attendeeData) (RE.str "mailto:".toList)

/-- `parseAttendeeStatus`: expression `PARTSTAT=.*?;`, cut `(PARTSTAT=|;)`. -/
def parseAttendeeStatus (attendeeData : Str) : Str :=
  let result := (reParam "PARTSTAT=".toList).findString attendeeData
  if result = [] then [] else trimField result (reCut "PARTSTAT=".toList)

/-- `parseAttendeeRole`: expression `ROLE=.*?;`, cut `(ROLE=|;)`. -/
def parseAttendeeRole (attendeeData : Str) : Str :=
  let result := (reParam "ROLE=".toList).findString attendeeData
  if result = [] then [] else trimField result (reCut "ROLE=".toList)

/-- `parseAttendeeName`: expression `CN=.*?;`, cut `(CN=|;)`. -/
def parseAttendeeName (attendeeData : Str) : Str :=
  let result := (reParam "CN=".toList).findString attendeeData
  if result = [] then [] else trimField result (reCut "CN=".toList)

/-- `parseOrganizerName`: expression `CN=.*?:`, cut `(CN=|:)`. -/
def parseOrganizerName (orgData : Str) : Str :=
  let result := (RE.cat [RE.str "CN=".toList, .star false RE.dot, .lit ':']).findString orgData
  if result = [] then [] else trimField result (.grp 1 (.alt (RE.str "CN=".toList) (.lit ':')))

/-- `parseAttendeeType`: expression `CUTYPE=.*?;`, cut `(CUTYPE=|;)`. -/
def parseAttendeeType (attendeeData : Str) : Str :=
  let result := (reParam "CUTYPE=".toList).findString attendeeData
  if result = [] then [] else trimField result (reCut "CUTYPE=".toList)

/-- `parseAttendee`. -/
def parseAttendee (attendeeData : Str) : Attendee :=
  { email := parseAttendeeMail attendeeData
    name := parseAttendeeName attendeeData
    role := parseAttendeeRole attendeeData
    status := parseAttendeeStatus attendeeData
    type_ := parseAttendeeType attendeeData }

/-- The clean-up of a matched block in `parseEventAttendees` and
`parseEventOrganizer`:
`strings.Replace(strings.Replace(data, "\r", "", 1), "\n ", "", 1)`. -/
def unfoldOnce (data : Str) : Str := removeFirst "\n ".toList (removeFirst "\r".toList data)

/-- The loop of `parseEventAttendees` over the matched blocks: an empty block is
passed over, an attendee none of whose fields is set is not appended. -/
def collectAttendees : List Str → List Attendee
  | [] => []
  | attendeeData :: rest =>
    if attendeeData = [] then collectAttendees rest
    else
      let attendee := parseAttendee (unfoldOnce attendeeData)
      if attendee.email ≠ [] ∨ attendee.name ≠ [] ∨ attendee.role ≠ [] ∨ attendee.status ≠ [] ∨
          attendee.type_ ≠ [] then
        attendee :: collectAttendees rest
      else collectAttendees rest

/-- `parseEventAttendees`. -/
def parseEventAttendees (eventData : Str) : List Attendee :=
  collectAttendees ((rePerson "ATTENDEE".toList).findAllString eventData (byteLen eventData))

/-- `parseEventOrganizer`; `none` is the nil pointer. -/
def parseEventOrganizer (eventData : Str) : Option Attendee :=
  let organizerData := (rePerson "ORGANIZER".toList).findString eventData
  if organizerData = [] then none
  else
    some { email := parseAttendeeMail (unfoldOnce organizerData)
           name := parseOrganizerName (unfoldOnce organizerData) }

/-! ## The parsing session -/

/-- The errors that a session records or returns. -/
inductive Err where
  /-- The error of `downloadFromUrl`. -/
  | download (url : Str)
  /-- The error `File %s does not exists` of `getICal`. -/
  | notExists (url : Str)
  /-- The error of `ioutil.ReadFile`. -/
  | readFile (fileName : Str)
  /-- The error of `time.LoadLocation`. -/
  | unknownZone (name : Str)
  /-- The error `Calendars not parsed` of the bulk accessors. -/
  | notParsed
deriving DecidableEq

/-- The `Calendar` data holder (declared outside `parse.go`) with what
`parseICalContent` sets. The version number is kept as the text handed to
`strconv.ParseFloat`. -/
structure Calendar where
  name : Str := []
  desc : Str := []
  version : Str := []
  timezone : Location := Location.utc
  url : Str := []
  events : List Event := []

/-- The `Parser`: the recorded errors, the calendars, the in-flight counter, and
the events sent on `bufferedChan` so far. The channels themselves, the wait
group and the queue `parsedEvents` of the buffering goroutine are left out. -/
structure Parser where
  errorsOccured : List Err := []
  parsedCalendars : List Calendar := []
  statusCalendars : Int := 0
  buffered : List Event := []

/-- `New`: the parser as it is returned, before any source is submitted. -/
def Parser.new : Parser := {}

/-- `Done`. -/
def Parser.Done (p : Parser) : Bool := decide (p.statusCalendars = 0)

/-- `GetCalendars`: the list (`none` is nil) and the error (`none` is nil). -/
def Parser.GetCalendars (p : Parser) : Option (List Calendar) × Option Err :=
  if !p.Done then (none, some .notParsed) else (some p.parsedCalendars, none)

/-- `GetErrors`: the list (`none` is nil) and the error (`none` is nil). -/
def Parser.GetErrors (p : Parser) : Option (List Err) × Option Err :=
  if !p.Done then (none, some .notParsed) else (some p.errorsOccured, none)

/-- What `getICal` reaches outside `parse.go`: the helper `downloadFromUrl` (the
name of the local file, `none` on error), the helper `fileExists`, and
`ioutil.ReadFile` (`none` on error). -/
structure World where
  downloadFromUrl : Str → Option Str
  fileExists : Str → Bool
  readFile : Str → Option Str

/-- The expression `http(s){0,1}:\/\/`. -/
def reHttp : RE :=
  RE.cat [RE.str "http".toList, .opt true (.grp 1 (.lit 's')), RE.str "://".toList]

/-- `getICal`: the text of a source, or the error of its retrieval. Removing the
temporary file changes nothing that is read afterwards. -/
def getICal (w : World) (url : Str) : Except Err Str :=
  let located : Except Err Str :=
    if reHttp.findString url ≠ [] then
      match w.downloadFromUrl url with
      | none => .error (.download url)
      | some fileName => .ok fileName
    else if w.fileExists url then .ok url
    else .error (.notExists url)
  match located with
  | .error e => .error e
  | .ok fileName =>
    match w.readFile fileName with
    | none => .error (.readFile fileName)
    | some fileContent => .ok fileContent

/-- `parseICalName`: expression `X-WR-CALNAME:.*?\n`, cut `X-WR-CALNAME:`. -/
def parseICalName (iCalContent : Str) : Str :=
  trimField ((reLine "X-WR-CALNAME:".toList).findString iCalContent)
    (RE.str "X-WR-CALNAME:".toList)

/-- `parseICalDesc`: expression `X-WR-CALDESC:.*?\n`, cut `X-WR-CALDESC:`. -/
def parseICalDesc (iCalContent : Str) : Str :=
  trimField ((reLine "X-WR-CALDESC:".toList).findString iCalContent)
    (RE.str "X-WR-CALDESC:".toList)

/-- `parseICalVersion`, up to the text handed to `strconv.ParseFloat`:
expression `VERSION:.*?\n`, cut `VERSION:`. -/
def parseICalVersion (iCalContent : Str) : Str :=
  trimField ((reLine "VERSION:".toList).findString iCalContent) (RE.str "VERSION:".toList)

/-- The zone name that `parseICalTimezone` hands to `time.LoadLocation`:
expression `X-WR-TIMEZONE:.*?\n`, cut `X-WR-TIMEZONE:`. -/
def calendarZoneName (iCalContent : Str) : Str :=
  trimField ((reLine "X-WR-TIMEZONE:".toList).findString iCalContent)
    (RE.str "X-WR-TIMEZONE:".toList)

/-- `parseICalTimezone`: the location of the calendar; when the zone name does
not load, the error is appended to the errors of the parser and the location is
UTC. -/
def parseICalTimezone (env : Env) (p : Parser) (iCalContent : Str) : Location × Parser :=
  let timezone := calendarZoneName iCalContent
  match timeLoadLocation env timezone with
  | some loc => (loc, p)
  | none => (Location.utc, { p with errorsOccured := p.errorsOccured ++ [.unknownZone timezone] })

/-- `parseICalContent`: the calendar of a document is appended to the calendars
of the parser, its fields are filled and its events parsed, each expansion with
`fuel` passes of its generation loop. An error is a run that does not return.
The counter `idCounter`, which `parse.go` increments here and never reads, is
left out. -/
def parseICalContent (env : Env) (fuel : Nat) (p : Parser) (iCalContent url : Str) :
    Except Fault Parser :=
  match explodeICal iCalContent with
  | (eventsData, calInfo, _) =>
    match parseICalTimezone env p calInfo with
    | (timezone, p1) =>
      match parseEvents env fuel eventsData { events := [], buffered := p1.buffered } with
      | .error f => .error f
      | .ok k =>
        .ok { p1 with
          parsedCalendars := p1.parsedCalendars ++
            [{ name := parseICalName calInfo
               desc := parseICalDesc calInfo
               version := parseICalVersion calInfo
               timezone := timezone
               url := url
               events := k.events }]
          buffered := k.buffered }

/-- The goroutine that `New` starts for one accepted source, from the retrieval
to the decrement of the in-flight counter: on a retrieval error the error is
recorded, otherwise the document is parsed. -/
def worker (w : World) (env : Env) (fuel : Nat) (p : Parser) (link : Str) : Except Fault Parser :=
  match getICal w link with
  | .error err =>
    .ok { p with errorsOccured := p.errorsOccured ++ [err], statusCalendars := p.statusCalendars - 1 }
  | .ok iCalContent =>
    match parseICalContent env fuel p iCalContent link with
    | .error f => .error f
    | .ok p1 => .ok { p1 with statusCalendars := p1.statusCalendars - 1 }

/-- A session: the parser and the accepted sources whose worker has not yet
finished. -/
structure Session where
  parser : Parser := {}
  running : List Str := []

/-- What happens in a session: the dispatch loop accepts a source from the input
channel, or the worker of the `i`-th running source runs to its end. -/
inductive Action where
  | accept (link : Str)
  | finish (i : Nat)
deriving DecidableEq

/-- The dispatch loop of `New` receives a link: `p.statusCalendars++` under the
mutex, and the worker is started. -/
def Session.accept (s : Session) (link : Str) : Session :=
  { parser := { s.parser with statusCalendars := s.parser.statusCalendars + 1 }
    running := s.running ++ [link] }

/-- One action of a session; `none` when there is no such running worker or when
the worker does not return. The body of a worker is taken as one step: the
interleaving of the unsynchronised appends of two workers is not modelled. -/
def Session.step (w : World) (env : Env) (fuel : Nat) (s : Session) : Action → Option Session
  | .accept link => some (s.accept link)
  | .finish i =>
    match s.running.get? i with
    | none => none
    | some link =>
      match worker w env fuel s.parser link with
      | .error _ => none
      | .ok p => some { parser := p, running := s.running.eraseIdx i }

/-- A run of actions from a session. -/
def Session.run (w : World) (env : Env) (fuel : Nat) : Session → List Action → Option Session
  | s, [] => some s
  | s, a :: rest =>
    match s.step w env fuel a with
    | none => none
    | some s1 => Session.run w env fuel s1 rest

/-- The sources accepted by a run of actions, in order. -/
def accepted : List Action → List Str
  | [] => []
  | .accept link :: rest => link :: accepted rest
  | .finish _ :: rest => accepted rest

/-- The number of workers finished by a run of actions. -/
def finished : List Action → Nat
  | [] => 0
  | .accept _ :: rest => finished rest
  | .finish _ :: rest => finished rest + 1

/-- Whether the retrieval of a source fails. -/
def retrievalFails (w : World) (link : Str) : Bool :=
  match getICal w link with
  | .error _ => true
  | .ok _ => false

/-- Whether a source is retrieved and its calendar names a zone that does not
load. -/
def zoneFails (w : World) (env : Env) (link : Str) : Bool :=
  match getICal w link with
  | .error _ => false
  | .ok iCalContent =>
    match timeLoadLocation env (calendarZoneName (explodeICal iCalContent).2.1) with
    | some _ => false
    | none => true

/-- The number of elements of a list with a property. -/
def countIf (f : Str → Bool) (l : List Str) : Nat := (l.filter f).length

/-- A calendar document that names a zone which no zone database holds. -/
def zoneDoc : Str :=
  "BEGIN:VCALENDAR\r\nX-WR-TIMEZONE:Nowhere/Zone\r\nEND:VCALENDAR\r\n".toList

/-- A world with two local files, `a.ics` holding `sampleDoc` and `tz.ics`
holding `zoneDoc`, and no network. -/
def demoWorld : World :=
  { downloadFromUrl := fun _ => none
    fileExists := fun url => decide (url = "a.ics".toList) || decide (url = "tz.ics".toList)
    readFile := fun f =>
      if f = "a.ics".toList then some sampleDoc
      else if f = "tz.ics".toList then some zoneDoc
      else none }

/-- Three sources are accepted, one of which is not there; two workers finish. -/
def demoActions : List Action :=
  [.accept "a.ics".toList, .accept "missing.ics".toList, .finish 1, .accept "a.ics".toList,
    .finish 0]

/-- Three sources are accepted, one of which is not there; all workers finish. -/
def drainedActions : List Action :=
  [.accept "a.ics".toList, .accept "missing.ics".toList, .accept "a.ics".toList,
    .finish 1, .finish 0, .finish 0]

/-- The master of a rule that steps by days and names weekdays: Monday
2024-01-01, 09:00 to 10:00 UTC, with the rule text `rrule`. -/
def mondayMaster (rrule : Str) : Event :=
  masterWith rrule (goDate 2024 1 1 9 0 0) (goDate 2024 1 1 10 0 0)

/-- The starts of the occurrences that the expansion of `mondayMaster rrule`
appends to an empty calendar. -/
def mondayStarts (rrule : Str) : Option (List Time) :=
  (expand bareEnv 10 (mondayMaster rrule) (goDate 2024 1 1 9 0 0) (goDate 2024 1 1 10 0 0) {}).map
    (fun k => k.events.map (fun e => e.start))

/-- An event block whose start and end are both in whole-day form. -/
def wholeDayBlock : Str :=
  "BEGIN:VEVENT\r\nDTSTART;VALUE=DATE:20240101\r\nDTEND;VALUE=DATE:20240102\r\nEND:VEVENT\r\n".toList

/-! ## Zones with a change of offset -/

/-- Go `t.In(loc)` read as wall-clock fields: the calendar fields of `t` in the
location are the UTC fields of `t` shifted by the offset in force at `t`. -/
def wallClock (loc : Location) (t : Time) : Time := t + (loc.lookup t).1

/-- The zone `America/New_York` around 2024: five hours west of UTC, four hours
west between 2024-03-10T07:00:00Z and 2024-11-03T06:00:00Z. -/
def newYork : Location :=
  ⟨fun t =>
    if t < goDate 2024 3 10 7 0 0 then (-18000, -(2 ^ 63), goDate 2024 3 10 7 0 0)
    else if t < goDate 2024 11 3 6 0 0 then (-14400, goDate 2024 3 10 7 0 0, goDate 2024 11 3 6 0 0)
    else (-18000, goDate 2024 11 3 6 0 0, 2 ^ 63 - 1)⟩

/-- An environment like `bareEnv` whose zone database holds `America/New_York`. -/
def zoneEnv : Env :=
  { bareEnv with
    zoneDB := fun name => if name = "America/New_York".toList then some newYork else none }

/-- An event block whose start is the wall-clock value 02:30 of 2024-03-10 in
`America/New_York`, a value that the change to summer time skips. -/
def gapBlock : Str :=
  "BEGIN:VEVENT\r\nDTSTART;TZID=America/New_York:20240310T023000\r\nEND:VEVENT\r\n".toList

/-- An event block whose start is noon of 2024-01-01 in `America/New_York`. -/
def noonBlock : Str :=
  "BEGIN:VEVENT\r\nDTSTART;TZID=America/New_York:20240101T120000\r\nEND:VEVENT\r\n".toList

/-- The wall-clock fields read as an instant of UTC, the first step of
`time.Date`. -/
def DateFields.utc (f : DateFields) : Time := goDate f.year f.month f.day f.hour f.min f.sec

/-! ## `getNthDate` -/

/-- A result of Go's `int` arithmetic on a 64-bit platform: the value of the
same width that agrees with `x` modulo 2^64. -/
def wrap64 (x : Int) : Int :=
  (x + 9223372036854775808) % 18446744073709551616 - 9223372036854775808

/-- The layout `2006-01-02`. -/
def layoutDate : List Chunk := [.longYear, .lit '-', .zeroMonth, .lit '-', .zeroDay]

/-- Go `fmt.Sprintf("%d", n)`. -/
def fmtInt (n : Int) : Str := if n < 0 then '-' :: natDec (-n).toNat else natDec n.toNat

/-- Go `fmt.Sprintf("%02d", n)`: padded with zeros to width two, the sign
counted in the width. -/
def fmtInt02 (n : Int) : Str := if n < 0 then '-' :: padDec 1 (-n).toNat else padDec 2 n.toNat

/-- `getNthDate`: the day of the month is computed from the weekday of the first
of the month, printed as `%d-%02d-%02d` with the year and the month, and parsed
back with the layout `2006-01-02`; a parse error is logged and the zero time is
returned. -/
def getNthDate (year month day num : Int) : Time :=
  let t := goDate year month 1 0 0 0
  let firstDay := t.weekday
  let dayOfMonth : Int := 0
  let dayOfMonth := if firstDay > day then wrap64 (1 + 7 * num - (firstDay - day)) else dayOfMonth
  let dayOfMonth := if firstDay = day then wrap64 (1 + 7 * (num - 1)) else dayOfMonth
  let dayOfMonth :=
    if firstDay < day then wrap64 (1 + (day - firstDay) + 7 * (num - 1)) else dayOfMonth
  timeParse layoutDate (fmtInt year ++ '-' :: (fmtInt02 month ++ '-' :: fmtInt02 dayOfMonth))

/-- The day of the month of the `num`-th occurrence of the weekday `day` in a
month, in the words of the spec ("generalized to the Nth occurrence"): the first
occurrence is the first day of the month on which the weekday is `day`, each
further one is seven days later. -/
def nthWeekday (year month day num : Int) : Int :=
  1 + (day - (goDate year month 1 0 0 0).weekday) % 7 + 7 * (num - 1)

/-! ## More concrete inputs -/

/-- An event block whose start is in UTC form, with no zone identifier. -/
def utcBlock : Str :=
  "BEGIN:VEVENT\r\nDTSTART:20240101T120000Z\r\nDTEND:20240101T130000Z\r\nEND:VEVENT\r\n".toList

/-- The starts and ends of the occurrences that the expansion of a master with
the rule text `rrule`, the start `start` and the end `end_` appends to an empty
calendar, under the configuration that `init` sets. -/
def occurrenceSpans (rrule : Str) (start end_ : Time) : Option (List (Time × Time)) :=
  (expand bareEnv 10 (masterWith rrule start end_) start end_ {}).map
    (fun k => k.events.map (fun e => (e.start, e.end_)))

/-- The sink `k` comes from the sink `k0` by appending to the calendar events
whose end lies `delta` seconds after their start. -/
def SameSpan (delta : Int) (k0 k : Sink) : Prop :=
  ∃ occ : List Event, k.events = k0.events ++ occ ∧ ∀ e ∈ occ, e.end_ - e.start = delta

/-- An event block whose end, 11:00, lies after its start, 09:00, with a
duration of one hour. -/
def longBlock : Str :=
  "BEGIN:VEVENT\r\nDTSTART:20240101T090000\r\nDTEND:20240101T110000\r\nDURATION:PT1H\r\nEND:VEVENT\r\n".toList

/-- An event block whose start is the wall-clock value 03:30 of 2024-03-10 in
`America/New_York`, half an hour after the change to summer time. -/
def afterGapBlock : Str :=
  "BEGIN:VEVENT\r\nDTSTART;TZID=America/New_York:20240310T033000\r\nEND:VEVENT\r\n".toList

/-- An event block whose start is the wall-clock value 01:30 of 2024-11-03 in
`America/New_York`, which occurs twice, before and after the change back to
standard time. -/
def twiceBlock : Str :=
  "BEGIN:VEVENT\r\nDTSTART;TZID=America/New_York:20241103T013000\r\nEND:VEVENT\r\n".toList

/-! ## The session with its unsynchronised appends -/

/-- One effect of a worker on what the workers share. -/
inductive Effect where
  /-- The statement `p.errorsOccured = append(p.errorsOccured, err)` of the worker
  and of `parseICalTimezone`. -/
  | appendError (err : Err)
  /-- The statement `p.parsedCalendars = append(p.parsedCalendars, ical)` of
  `parseICalContent`; the calendar is the one that `ical` points to when the
  worker has finished. -/
  | appendCalendar (ical : Calendar)
  /-- The sends `p.bufferedChan <- event` of `parseEvents`. -/
  | send (events : List Event)

/-- The effects of the worker of a source, in the order of the program: on a
retrieval error the error is appended; otherwise `parseICalContent` appends the
calendar, `parseICalTimezone` appends the error of a zone that does not load,
and `parseEvents` sends the events. `none` is a worker that does not return. -/
def effects (w : World) (env : Env) (fuel : Nat) (link : Str) : Option (List Effect) :=
  match getICal w link with
  | .error err => some [.appendError err]
  | .ok iCalContent =>
    match explodeICal iCalContent with
    | (eventsData, calInfo, _) =>
      match parseEvents env fuel eventsData {} with
      | .error _ => none
      | .ok k =>
        some (.appendCalendar
            { name := parseICalName calInfo
              desc := parseICalDesc calInfo
              version := parseICalVersion calInfo
              timezone := (parseICalTimezone env {} calInfo).1
              url := link
              events := k.events } ::
          ((parseICalTimezone env {} calInfo).2.errorsOccured.map .appendError ++
            [.send k.buffered]))

/-- A running worker: its source, the effects it has still to perform, and, when
it is in the middle of an append, the list that it has read and to which it will
append. -/
structure Task where
  link : Str
  todo : List Effect
  readErrors : Option (List Err) := none
  readCalendars : Option (List Calendar) := none

/-- One step of a worker. An append is two steps, neither under the mutex: the
worker reads the list, and later writes back what it read with its element
appended. The sends of one worker are taken as one step. When nothing is left to
do the worker decrements the counter under the mutex and is gone (`none`). -/
def Task.step (p : Parser) (t : Task) : Parser × Option Task :=
  match t.todo with
  | [] => ({ p with statusCalendars := p.statusCalendars - 1 }, none)
  | .appendError err :: rest =>
    match t.readErrors with
    | none => (p, some { t with readErrors := some p.errorsOccured })
    | some errs =>
      ({ p with errorsOccured := errs ++ [err] }, some { t with todo := rest, readErrors := none })
  | .appendCalendar ical :: rest =>
    match t.readCalendars with
    | none => (p, some { t with readCalendars := some p.parsedCalendars })
    | some cals =>
      ({ p with parsedCalendars := cals ++ [ical] },
        some { t with todo := rest, readCalendars := none })
  | .send events :: rest => ({ p with buffered := p.buffered ++ events }, some { t with todo := rest })

/-- A session with concurrent workers: the parser and the workers that run. -/
structure Pool where
  parser : Parser := {}
  tasks : List Task := []

/-- What happens in such a session: the dispatch loop accepts a source, or the
`i`-th running worker takes its next step. -/
inductive Move where
  | accept (link : Str)
  | step (i : Nat)
deriving DecidableEq

/-- One move of a session. Accepting a source increments the counter under the
mutex and starts its worker; a source whose worker does not return is not
accepted here, since only runs in which every worker finishes are looked at. -/
def Pool.move (w : World) (env : Env) (fuel : Nat) (s : Pool) : Move → Option Pool
  | .accept link =>
    match effects w env fuel link with
    | none => none
    | some todo =>
      some { parser := { s.parser with statusCalendars := s.parser.statusCalendars + 1 }
             tasks := s.tasks ++ [{ link := link, todo := todo }] }
  | .step i =>
    match s.tasks.get? i with
    | none => none
    | some t =>
      match t.step s.parser with
      | (p, some t1) => some { parser := p, tasks := s.tasks.set i t1 }
      | (p, none) => some { parser := p, tasks := s.tasks.eraseIdx i }

/-- A run of moves from a session. -/
def Pool.run (w : World) (env : Env) (fuel : Nat) : Pool → List Move → Option Pool
  | s, [] => some s
  | s, m :: rest =>
    match s.move w env fuel m with
    | none => none
    | some s1 => Pool.run w env fuel s1 rest

/-- Whether in a run of moves the workers run one at a time: a source is
accepted only when no worker is running. -/
def Pool.oneAtATime (w : World) (env : Env) (fuel : Nat) : Pool → List Move → Bool
  | _, [] => true
  | s, m :: rest =>
    (match m with
      | .accept _ => s.tasks.isEmpty
      | .step _ => true) &&
    (match s.move w env fuel m with
      | none => true
      | some s1 => Pool.oneAtATime w env fuel s1 rest)

/-- The sources that a run of moves submits, in order. -/
def submitted : List Move → List Str
  | [] => []
  | .accept link :: rest => link :: submitted rest
  | .step _ :: rest => submitted rest

/-- The number of calendar appends among effects. -/
def calendarAppends : List Effect → Nat
  | [] => 0
  | .appendCalendar _ :: rest => calendarAppends rest + 1
  | _ :: rest => calendarAppends rest

/-- The number of error appends among effects. -/
def errorAppends : List Effect → Nat
  | [] => 0
  | .appendError _ :: rest => errorAppends rest + 1
  | _ :: rest => errorAppends rest

/-- One source with a zone that does not load: accepted, and its worker run to
its end (read and write of the calendar append, read and write of the error
append, the sends, the decrement). -/
def zoneMoves : List Move :=
  [.accept "tz.ics".toList, .step 0, .step 0, .step 0, .step 0, .step 0, .step 0]

/-- Two sources whose workers overlap: both read the calendars before either
writes, so the second write drops what the first appended. -/
def overlapMoves : List Move :=
  [.accept "a.ics".toList, .accept "a.ics".toList, .step 0, .step 1, .step 0, .step 1,
    .step 0, .step 0, .step 0, .step 0]

/-- Three sources, one of which is not there, each submitted when the worker of
the one before has finished. -/
def queueMoves : List Move :=
  [.accept "a.ics".toList, .step 0, .step 0, .step 0, .step 0,
    .accept "missing.ics".toList, .step 0, .step 0, .step 0,
    .accept "a.ics".toList, .step 0, .step 0, .step 0, .step 0]

/-- The calendar appends that running workers have still to perform. -/
def pendingCalendars (tasks : List Task) : Nat := (tasks.map (fun t => calendarAppends t.todo)).sum

/-- The error appends that running workers have still to perform. -/
def pendingErrors (tasks : List Task) : Nat := (tasks.map (fun t => errorAppends t.todo)).sum

/-- At most one worker runs, and what it has read for a pending append is what
the parser holds. -/
def Pool.Settled (s : Pool) : Prop :=
  s.tasks = [] ∨ ∃ t, s.tasks = [t] ∧
    (∀ errs, t.readErrors = some errs → errs = s.parser.errorsOccured) ∧
    (∀ cals, t.readCalendars = some cals → cals = s.parser.parsedCalendars)

/-! # Theorems -/

set_option maxRecDepth 20000

/-! ## Calendar arithmetic -/

theorem monthSearch_range (leap : Bool) (yd : Int) :
    ∀ (fuel : Nat) (m : Int), m ≤ monthSearch leap yd fuel m ∧ monthSearch leap yd fuel m ≤ m + fuel := by
  intro fuel
  induction fuel with
  | zero => intro m; simp [monthSearch]
  | succ f ih =>
    intro m
    unfold monthSearch
    split
    · constructor <;> omega
    · have := ih (m + 1)
      push_cast
      constructor <;> omega

theorem monthOfYday_range (leap : Bool) (yd : Int) :
    1 ≤ monthOfYday leap yd ∧ monthOfYday leap yd ≤ 12 := by
  have := monthSearch_range leap yd 11 1
  unfold monthOfYday
  constructor <;> omega

theorem month_range (t : Time) : 1 ≤ t.month ∧ t.month ≤ 12 :=
  monthOfYday_range _ _

theorem goDate_eq (y m d h mi s : Int) (hm : 1 ≤ m ∧ m ≤ 12) :
    goDate y m d h mi s =
      (daysBeforeYear y + daysBeforeMonth (isLeap y) m + (d - 1)) * 86400
        + h * 3600 + mi * 60 + s := by
  have h1 : (m - 1) / 12 = 0 := by omega
  have h2 : (m - 1) % 12 + 1 = m := by omega
  unfold goDate secondsPerDay
  rw [h1, h2, add_zero]

theorem goDate_civil (t : Time) :
    goDate t.year t.month t.day t.hour t.minute t.second = t := by
  rw [goDate_eq _ _ _ _ _ _ (month_range t)]
  unfold Time.day Time.yday Time.hour Time.minute Time.second Time.secOfDay Time.dayNumber
    secondsPerDay
  generalize daysBeforeMonth (isLeap (Time.year t)) (Time.month t) = a
  generalize daysBeforeYear (Time.year t) = b
  show @Eq Int _ _
  omega

theorem addDate_days (t : Time) (d : Int) : t.addDate 0 0 d = t + d * 86400 := by
  have h := goDate_civil t
  unfold Time.addDate
  rw [goDate_eq _ _ _ _ _ _ (month_range t)] at h
  simp only [add_zero]
  rw [goDate_eq _ _ _ _ _ _ (month_range t)]
  generalize daysBeforeMonth (isLeap (Time.year t)) (Time.month t) = a at *
  generalize daysBeforeYear (Time.year t) = b at *
  revert h
  show @Eq Int _ _ → @Eq Int _ _
  intro h
  unfold Time.hour Time.minute Time.second Time.secOfDay secondsPerDay at *
  omega

/-! ## The generation loop -/

theorem runLoop_mono (env : Env) (event : Event) (start : Time) (r : Rule) :
    ∀ (fuel : Nat) (st s : LoopState), runLoop env event start r fuel st = some s →
      ∀ n, runLoop env event start r (fuel + n) st = some s := by
  intro fuel
  induction fuel with
  | zero => intro st s h; simp [runLoop] at h
  | succ f ih =>
    intro st s h n
    have e : f + 1 + n = (f + n) + 1 := by omega
    rw [e]
    unfold runLoop at h ⊢
    rcases hb : loopBody env event start r st with ⟨st1, b⟩
    rw [hb] at h
    cases b with
    | true => simpa using h
    | false => exact ih st1 s (by simpa using h) n

theorem runLoop_continue (env : Env) (event : Event) (start : Time) (r : Rule) (fuel : Nat)
    (st st1 : LoopState) (h : loopBody env event start r st = (st1, false)) :
    runLoop env event start r (fuel + 1) st = runLoop env event start r fuel st1 := by
  simp [runLoop, h]

theorem runLoop_break (env : Env) (event : Event) (start : Time) (r : Rule) (fuel : Nat)
    (st st1 : LoopState) (h : loopBody env event start r st = (st1, true)) :
    runLoop env event start r (fuel + 1) st = some st1 := by
  simp [runLoop, h]

theorem dayOccurrences_succ (env : Env) (event : Event) (start end_ : Time) (d : Int) (n : Nat) :
    dayOccurrences env event start end_ d (n + 1) =
      dayOccurrences env event start end_ d n ++
        [dayOccurrence env event start end_ d ((n : Int) + 1)] := by
  simp [dayOccurrences, List.range_succ]

theorem emitPass_plain (env : Env) (event : Event) (start : Time) (r : Rule) (st : LoopState)
    (hbm : r.bymonth = []) (hbd : r.byday = []) :
    emitPass env event start r st =
      if st.freqDateStart ≠ start then emit env event r st.freqDateStart st.freqDateEnd st
      else st := by
  simp [emitPass, hbm, hbd]

theorem loopBody_noUntil (env : Env) (event : Event) (start : Time) (r : Rule) (st : LoopState)
    (y m d : Int) (hu : r.until_ = none) (hs : freqStep r = (y, m, d)) :
    loopBody env event start r st =
      ({ emitPass env event start r st with
          freqDateStart := (emitPass env event start r st).freqDateStart.addDate y m d
          freqDateEnd := (emitPass env event start r st).freqDateEnd.addDate y m d },
        decide ((emitPass env event start r st).current > env.MaxRepeats ∨
          (emitPass env event start r st).count = 0)) := by
  simp only [loopBody, hs, hu]
  split <;> simp_all

theorem loopBody_day_first (env : Env) (event : Event) (start end_ : Time) (k : Sink)
    (r : Rule) (c d : Int) (hbm : r.bymonth = []) (hbd : r.byday = [])
    (hu : r.until_ = none) (hs : freqStep r = (0, 0, d)) (hc : c ≠ 0) (hM : 0 ≤ env.MaxRepeats) :
    loopBody env event start r
        { current := 0, count := c, freqDateStart := start, freqDateEnd := end_, sink := k } =
      (dayState env event start end_ k c d 0, false) := by
  have hM' : ¬ (0 > env.MaxRepeats) := by omega
  rw [loopBody_noUntil env event start r _ 0 0 d hu hs, emitPass_plain env event start r _ hbm hbd]
  simp [addDate_days, dayState, dayOccurrences, hc, hM']

theorem loopBody_day_step (env : Env) (event : Event) (start end_ : Time) (k : Sink)
    (r : Rule) (c d : Int) (i : Nat) (hbm : r.bymonth = []) (hbd : r.byday = [])
    (hu : r.until_ = none) (hs : freqStep r = (0, 0, d)) (hd : 1 ≤ d) :
    loopBody env event start r (dayState env event start end_ k c d i) =
      (dayState env event start end_ k c d (i + 1),
        decide (((i : Int) + 1) > env.MaxRepeats ∨ c - ((i : Int) + 1) = 0)) := by
  have hne : (dayState env event start end_ k c d i).freqDateStart ≠ start := by
    have : 0 < ((i : Int) + 1) * d := by positivity
    show ¬ @Eq Int (start + ((i : Int) + 1) * d * 86400) start
    omega
  rw [loopBody_noUntil env event start r _ 0 0 d hu hs, emitPass_plain env event start r _ hbm hbd,
    if_pos hne]
  simp only [emit, untilAdmits, hu, dayState, addDate_days, dayOccurrences_succ, dayOccurrence,
    Sink.setEvent, if_true]
  have e1 : ∀ x : Time, x + ((i : Int) + 1) * d * 86400 + d * 86400
      = x + (((i + 1 : Nat) : Int) + 1) * d * 86400 := by
    intro x; push_cast; ring
  have e2 : c - (i : Int) - 1 = c - ((i + 1 : Nat) : Int) := by push_cast; ring
  have e3 : c - ((i : Int) + 1) = c - ((i + 1 : Nat) : Int) := by push_cast; ring
  have e4 : (i : Int) + 1 = ((i + 1 : Nat) : Int) := by push_cast; ring
  rw [e1, e1, e2, e3, List.append_assoc]
  simp only [e4]

theorem runLoop_day (env : Env) (event : Event) (start end_ : Time) (k : Sink)
    (r : Rule) (c d : Int) (N : Nat) (hbm : r.bymonth = []) (hbd : r.byday = [])
    (hu : r.until_ = none) (hs : freqStep r = (0, 0, d)) (hd : 1 ≤ d)
    (hgo : ∀ j : Nat, j < N → ¬ ((j : Int) > env.MaxRepeats ∨ c - (j : Int) = 0))
    (hstop : (N : Int) > env.MaxRepeats ∨ c - (N : Int) = 0) (hN : 1 ≤ N) (n : Nat) :
    runLoop env event start r (N + 1 + n)
        { current := 0, count := c, freqDateStart := start, freqDateEnd := end_, sink := k } =
      some (dayState env event start end_ k c d N) := by
  have h0 := hgo 0 (by omega)
  have hc : c ≠ 0 := by
    intro h; apply h0; right; simp [h]
  have hM : 0 ≤ env.MaxRepeats := by
    by_contra h; apply h0; left; simp at h ⊢; exact h
  have key : ∀ (m i : Nat), i + m = N → 1 ≤ m →
      runLoop env event start r m (dayState env event start end_ k c d i) =
        some (dayState env event start end_ k c d N) := by
    intro m
    induction m with
    | zero => intro i _ h; omega
    | succ m ih =>
      intro i hi _
      by_cases hm : m = 0
      · subst hm
        have : i + 1 = N := by omega
        subst this
        apply runLoop_break
        rw [loopBody_day_step env event start end_ k r c d i hbm hbd hu hs hd]
        have : ((i : Int) + 1 > env.MaxRepeats ∨ c - ((i : Int) + 1) = 0) := by
          push_cast at hstop; exact hstop
        simp [this]
      · rw [runLoop_continue env event start r m _ (dayState env event start end_ k c d (i + 1))]
        · exact ih (i + 1) (by omega) (by omega)
        · rw [loopBody_day_step env event start end_ k r c d i hbm hbd hu hs hd]
          have := hgo (i + 1) (by omega)
          push_cast at this
          simp [this]
  have e : N + 1 + n = (N + n) + 1 := by omega
  rw [e, runLoop_continue env event start r (N + n) _ (dayState env event start end_ k c d 0)
    (loopBody_day_first env event start end_ k r c d hbm hbd hu hs hc hM)]
  exact runLoop_mono env event start r N _ _ (key N 0 (by omega) hN) n

/-! ## Calendar fields are monotone in the instant -/

theorem daysBeforeYear_mono (a b : Int) (h : a ≤ b) : daysBeforeYear a ≤ daysBeforeYear b := by
  unfold daysBeforeYear
  omega

theorem yearOfDay_spec (n : Int) :
    daysBeforeYear (yearOfDay n) ≤ n ∧ n < daysBeforeYear (yearOfDay n + 1) := by
  unfold yearOfDay
  simp only []
  split
  · unfold daysBeforeYear at *; omega
  · split
    · unfold daysBeforeYear at *; omega
    · unfold daysBeforeYear at *; omega

theorem daysBeforeYear_succ (y : Int) :
    daysBeforeYear (y + 1) = daysBeforeYear y + (if isLeap y then 366 else 365) := by
  unfold daysBeforeYear isLeap
  by_cases h4 : y % 4 = 0 <;> by_cases h100 : y % 100 = 0 <;> by_cases h400 : y % 400 = 0 <;>
    simp [h4, h100, h400] <;> omega

theorem daysBeforeMonth_one (leap : Bool) : daysBeforeMonth leap 1 = 0 := by
  cases leap <;> decide

theorem daysBeforeMonth_thirteen (leap : Bool) :
    daysBeforeMonth leap 13 = if leap then 366 else 365 := by
  cases leap <;> decide

theorem daysBeforeMonth_step (leap : Bool) (m : Int) (h1 : 1 ≤ m) (h2 : m ≤ 12) :
    daysBeforeMonth leap m + 28 ≤ daysBeforeMonth leap (m + 1) ∧
      daysBeforeMonth leap (m + 1) ≤ daysBeforeMonth leap m + 31 := by
  interval_cases m <;> cases leap <;> decide

theorem daysBeforeMonth_mono (leap : Bool) (a b : Int) (h1 : 1 ≤ a) (h : a ≤ b) (h2 : b ≤ 13) :
    daysBeforeMonth leap a ≤ daysBeforeMonth leap b := by
  have ha : a ≤ 13 := by omega
  interval_cases a <;> interval_cases b <;> cases leap <;> decide

theorem monthSearch_spec (leap : Bool) (yd : Int) :
    ∀ (fuel : Nat) (m : Int), daysBeforeMonth leap m ≤ yd →
      yd < daysBeforeMonth leap (m + fuel + 1) →
      daysBeforeMonth leap (monthSearch leap yd fuel m) ≤ yd ∧
        yd < daysBeforeMonth leap (monthSearch leap yd fuel m + 1) := by
  intro fuel
  induction fuel with
  | zero =>
    intro m h1 h2
    simp only [Nat.cast_zero, add_zero] at h2
    exact ⟨h1, h2⟩
  | succ f ih =>
    intro m h1 h2
    unfold monthSearch
    split
    · rename_i hlt; exact ⟨h1, hlt⟩
    · rename_i hge
      apply ih (m + 1) (by omega)
      have e : m + 1 + (f : Int) + 1 = m + ((f + 1 : Nat) : Int) + 1 := by push_cast; ring
      rw [e]; exact h2

theorem yday_range (t : Time) :
    0 ≤ t.yday ∧ t.yday < daysBeforeMonth (isLeap t.year) 13 := by
  have h := yearOfDay_spec t.dayNumber
  have hs := daysBeforeYear_succ t.year
  rw [daysBeforeMonth_thirteen]
  unfold Time.yday
  unfold Time.year at *
  constructor
  · omega
  · split <;> rename_i hl <;> simp [hl] at hs <;> omega

theorem month_spec (t : Time) :
    daysBeforeMonth (isLeap t.year) t.month ≤ t.yday ∧
      t.yday < daysBeforeMonth (isLeap t.year) (t.month + 1) := by
  have h := yday_range t
  unfold Time.month monthOfYday
  apply monthSearch_spec
  · rw [daysBeforeMonth_one]; exact h.1
  · exact h.2

theorem day_range (t : Time) : 1 ≤ t.day ∧ t.day ≤ 31 := by
  have h := month_spec t
  have hm := month_range t
  have hs := daysBeforeMonth_step (isLeap t.year) t.month hm.1 hm.2
  unfold Time.day
  constructor <;> omega

theorem clock_range (t : Time) :
    0 ≤ t.hour ∧ t.hour ≤ 23 ∧ 0 ≤ t.minute ∧ t.minute ≤ 59 ∧ 0 ≤ t.second ∧ t.second ≤ 59 := by
  unfold Time.hour Time.minute Time.second Time.secOfDay secondsPerDay
  omega

theorem year_mono (t u : Time) (h : u.dayNumber ≤ t.dayNumber) : u.year ≤ t.year := by
  by_contra hc
  have h1 := yearOfDay_spec t.dayNumber
  have h2 := yearOfDay_spec u.dayNumber
  have h3 := daysBeforeYear_mono (t.year + 1) u.year (by omega)
  unfold Time.year at *
  omega

theorem lexKey_strictMono (t u : Time) (h : u < t) : u.lexKey < t.lexKey := by
  have hdn : u.dayNumber ≤ t.dayNumber ∧ (u.dayNumber = t.dayNumber → u.secOfDay < t.secOfDay) := by
    revert h
    unfold Time.dayNumber Time.secOfDay secondsPerDay
    show (@LT.lt Int _ u t) → _
    intro h
    omega
  have hy := year_mono t u hdn.1
  have hcu := clock_range u
  have hct := clock_range t
  have hdu := day_range u
  have hdt := day_range t
  have hmu := month_range u
  have hmt := month_range t
  unfold Time.lexKey
  by_cases hyy : u.year = t.year
  · -- same year
    have hmsu := month_spec u
    have hmst := month_spec t
    rw [hyy] at hmsu
    have hyd : u.yday ≤ t.yday ∧ (u.dayNumber = t.dayNumber → u.yday = t.yday) ∧
        (u.yday = t.yday → u.dayNumber = t.dayNumber) := by
      unfold Time.yday; rw [hyy]; omega
    have hmm : u.month ≤ t.month := by
      by_contra hc
      have := daysBeforeMonth_mono (isLeap t.year) (t.month + 1) u.month (by omega) (by omega) (by omega)
      omega
    by_cases hme : u.month = t.month
    · have hday : u.day ≤ t.day ∧ (u.day = t.day → u.yday = t.yday) := by
        unfold Time.day; rw [hyy, hme]; omega
      by_cases hde : u.day = t.day
      · have hsod := hdn.2 (hyd.2.2 (hday.2 hde))
        have hsu : u.secOfDay = u.hour * 3600 + u.minute * 60 + u.second := by
          unfold Time.hour Time.minute Time.second; omega
        have hst : t.secOfDay = t.hour * 3600 + t.minute * 60 + t.second := by
          unfold Time.hour Time.minute Time.second; omega
        rw [hyy, hme, hde]
        omega
      · rw [hyy, hme]; omega
    · rw [hyy]; omega
  · omega

theorem le_of_lexKey_le (t u : Time) (h : t.lexKey ≤ u.lexKey) : t ≤ u := by
  by_contra hc
  have := lexKey_strictMono t u (by
    show @LT.lt Int _ u t
    have : ¬ @LE.le Int _ t u := hc
    omega)
  omega

/-! ## Order of the `YmdHis` texts -/

theorem digitChar_toNat (a : Nat) (h : a < 10) : (digitChar a).toNat = 48 + a := by
  interval_cases a <;> rfl

theorem strLe_cons_digit (a b : Nat) (x y : Str) (ha : a < 10) (hb : b < 10) :
    strLe (digitChar a :: x) (digitChar b :: y) =
      if a < b then true else if b < a then false else strLe x y := by
  simp only [strLe, digitChar_toNat a ha, digitChar_toNat b hb, Nat.add_lt_add_iff_left]

theorem strLe_cons_same (c : Char) (x y : Str) : strLe (c :: x) (c :: y) = strLe x y := by
  simp [strLe]

theorem decAux_lt (f n : Nat) (acc : Str) (h : n < 10) :
    decAux (f + 1) n acc = digitChar n :: acc := by
  simp [decAux, h]

theorem decAux_ge (f n : Nat) (acc : Str) (h : 10 ≤ n) :
    decAux (f + 1) n acc = decAux f (n / 10) (digitChar (n % 10) :: acc) := by
  have : ¬ n < 10 := by omega
  simp [decAux, this]

theorem decAux_two (f n : Nat) (acc : Str) (h1 : 10 ≤ n) (h2 : n < 100) :
    decAux (f + 2) n acc = digitChar (n / 10) :: digitChar (n % 10) :: acc := by
  rw [decAux_ge (f + 1) n acc h1, decAux_lt f _ _ (by omega)]

theorem decAux_three (f n : Nat) (acc : Str) (h1 : 100 ≤ n) (h2 : n < 1000) :
    decAux (f + 3) n acc =
      digitChar (n / 100) :: digitChar (n / 10 % 10) :: digitChar (n % 10) :: acc := by
  rw [decAux_ge (f + 2) n acc (by omega), decAux_two f _ _ (by omega) (by omega),
    Nat.div_div_eq_div_mul]

theorem decAux_four (f n : Nat) (acc : Str) (h1 : 1000 ≤ n) (h2 : n < 10000) :
    decAux (f + 4) n acc =
      digitChar (n / 1000) :: digitChar (n / 100 % 10) :: digitChar (n / 10 % 10) ::
        digitChar (n % 10) :: acc := by
  rw [decAux_ge (f + 3) n acc (by omega), decAux_three f _ _ (by omega) (by omega),
    Nat.div_div_eq_div_mul, Nat.div_div_eq_div_mul]

theorem padDec_two (n : Nat) (h : n < 100) :
    padDec 2 n = [digitChar (n / 10), digitChar (n % 10)] := by
  unfold padDec natDec
  by_cases h1 : n < 10
  · have e : n / 10 = 0 := by omega
    have e2 : n % 10 = n := by omega
    rw [decAux_lt n n [] h1, e, e2]
    rfl
  · obtain ⟨k, rfl⟩ : ∃ k, n = k + 1 := ⟨n - 1, by omega⟩
    rw [decAux_two k (k + 1) [] (by omega) h]
    rfl

theorem padDec_four (n : Nat) (h : n < 10000) :
    padDec 4 n = [digitChar (n / 1000), digitChar (n / 100 % 10), digitChar (n / 10 % 10),
      digitChar (n % 10)] := by
  unfold padDec natDec
  by_cases h1 : n < 10
  · have e : n / 1000 = 0 := by omega
    have e1 : n / 100 % 10 = 0 := by omega
    have e2 : n / 10 % 10 = 0 := by omega
    have e3 : n % 10 = n := by omega
    rw [decAux_lt n n [] h1, e, e1, e2, e3]
    rfl
  · by_cases h2 : n < 100
    · obtain ⟨k, rfl⟩ : ∃ k, n = k + 1 := ⟨n - 1, by omega⟩
      have e : (k + 1) / 1000 = 0 := by omega
      have e1 : (k + 1) / 100 % 10 = 0 := by omega
      have e2 : (k + 1) / 10 % 10 = (k + 1) / 10 := by omega
      rw [decAux_two k (k + 1) [] (by omega) h2, e, e1, e2]
      rfl
    · by_cases h3 : n < 1000
      · obtain ⟨k, rfl⟩ : ∃ k, n = k + 2 := ⟨n - 2, by omega⟩
        have e : (k + 2) / 1000 = 0 := by omega
        have e1 : (k + 2) / 100 % 10 = (k + 2) / 100 := by omega
        rw [decAux_three k (k + 2) [] (by omega) h3, e, e1]
        rfl
      · obtain ⟨k, rfl⟩ : ∃ k, n = k + 3 := ⟨n - 3, by omega⟩
        rw [decAux_four k (k + 3) [] (by omega) h]
        rfl

theorem strLe_padDec_two (m n : Nat) (x y : Str) (hm : m < 100) (hn : n < 100) :
    strLe (padDec 2 m ++ x) (padDec 2 n ++ y) =
      if m < n then true else if n < m then false else strLe x y := by
  rw [padDec_two m hm, padDec_two n hn]
  simp only [List.cons_append, List.nil_append]
  rw [strLe_cons_digit _ _ _ _ (by omega) (by omega)]
  rw [strLe_cons_digit _ _ _ _ (by omega) (by omega)]
  by_cases h1 : m / 10 < n / 10
  · have : m < n := by omega
    simp [h1, this]
  · by_cases h2 : n / 10 < m / 10
    · have a : ¬ m < n := by omega
      have b : n < m := by omega
      simp [h1, h2, a, b]
    · by_cases h3 : m % 10 < n % 10
      · have : m < n := by omega
        simp [h1, h2, h3, this]
      · by_cases h4 : n % 10 < m % 10
        · have a : ¬ m < n := by omega
          have b : n < m := by omega
          simp [h1, h2, h3, h4, a, b]
        · have a : ¬ m < n := by omega
          have b : ¬ n < m := by omega
          simp [h1, h2, h3, h4, a, b]

theorem strLe_padDec_four (m n : Nat) (x y : Str) (hm : m < 10000) (hn : n < 10000) :
    strLe (padDec 4 m ++ x) (padDec 4 n ++ y) =
      if m < n then true else if n < m then false else strLe x y := by
  have e4 : ∀ k : Nat, k < 10000 → ∀ z : Str, padDec 4 k ++ z =
      padDec 2 (k / 100) ++ (padDec 2 (k % 100) ++ z) := by
    intro k hk z
    rw [padDec_four k hk, padDec_two (k / 100) (by omega), padDec_two (k % 100) (by omega)]
    have a1 : k / 100 / 10 = k / 1000 := by omega
    have a2 : k / 100 % 10 = k / 100 % 10 := rfl
    have a3 : k % 100 / 10 = k / 10 % 10 := by omega
    have a4 : k % 100 % 10 = k % 10 := by omega
    rw [a1, a3, a4]
    rfl
  rw [e4 m hm, e4 n hn, strLe_padDec_two _ _ _ _ (by omega) (by omega),
    strLe_padDec_two _ _ _ _ (by omega) (by omega)]
  by_cases h1 : m / 100 < n / 100
  · have : m < n := by omega
    simp [h1, this]
  · by_cases h2 : n / 100 < m / 100
    · have a : ¬ m < n := by omega
      have b : n < m := by omega
      simp [h1, h2, a, b]
    · by_cases h3 : m % 100 < n % 100
      · have : m < n := by omega
        simp [h1, h2, h3, this]
      · by_cases h4 : n % 100 < m % 100
        · have a : ¬ m < n := by omega
          have b : n < m := by omega
          simp [h1, h2, h3, h4, a, b]
        · have a : ¬ m < n := by omega
          have b : ¬ n < m := by omega
          simp [h1, h2, h3, h4, a, b]

theorem strLe_padDec_two_end (m n : Nat) (hm : m < 100) (hn : n < 100) :
    strLe (padDec 2 m) (padDec 2 n) = if m < n then true else if n < m then false else true := by
  have h := strLe_padDec_two m n [] [] hm hn
  simpa [strLe] using h

theorem ite_lex (a b : Nat) (r : Bool)
    (h : (if a < b then true else if b < a then false else r) = true) :
    a < b ∨ (a = b ∧ r = true) := by
  by_cases h1 : a < b
  · exact Or.inl h1
  · rw [if_neg h1] at h
    by_cases h2 : b < a
    · rw [if_pos h2] at h
      exact absurd h (by decide)
    · rw [if_neg h2] at h
      exact Or.inr ⟨by omega, h⟩

theorem key_le_of_fieldwise (y m d h i s y1 m1 d1 h1 i1 s1 : Nat)
    (bm : m < 100) (bd : d < 100) (bh : h < 100) (bi : i < 100) (bs : s < 100)
    (bm1 : m1 < 100) (bd1 : d1 < 100) (bh1 : h1 < 100) (bi1 : i1 < 100) (bs1 : s1 < 100)
    (hc : (if y < y1 then true else if y1 < y then false else
            if m < m1 then true else if m1 < m then false else
            if d < d1 then true else if d1 < d then false else
            if h < h1 then true else if h1 < h then false else
            if i < i1 then true else if i1 < i then false else
            if s < s1 then true else if s1 < s then false else true) = true) :
    ((((y * 100 + m) * 100 + d) * 100 + h) * 100 + i) * 100 + s ≤
      ((((y1 * 100 + m1) * 100 + d1) * 100 + h1) * 100 + i1) * 100 + s1 := by
  rcases ite_lex _ _ _ hc with c1 | ⟨e1, hc⟩
  · omega
  rcases ite_lex _ _ _ hc with c2 | ⟨e2, hc⟩
  · omega
  rcases ite_lex _ _ _ hc with c3 | ⟨e3, hc⟩
  · omega
  rcases ite_lex _ _ _ hc with c4 | ⟨e4, hc⟩
  · omega
  rcases ite_lex _ _ _ hc with c5 | ⟨e5, hc⟩
  · omega
  rcases ite_lex _ _ _ hc with c6 | ⟨e6, _⟩
  · omega
  · omega

theorem lexKey_le_of_formatYmdHis (t u : Time) (ht : 0 ≤ t.year ∧ t.year ≤ 9999)
    (hu : 0 ≤ u.year ∧ u.year ≤ 9999)
    (h : strLe t.formatYmdHis u.formatYmdHis = true) : t.lexKey ≤ u.lexKey := by
  have hct := clock_range t
  have hcu := clock_range u
  have hdt := day_range t
  have hdu := day_range u
  have hmt := month_range t
  have hmu := month_range u
  have hyt : ¬ t.year < 0 := by omega
  have hyu : ¬ u.year < 0 := by omega
  unfold Time.formatYmdHis fmtYear at h
  rw [if_neg hyt, if_neg hyu] at h
  rw [strLe_padDec_four _ _ _ _ (by omega) (by omega), strLe_cons_same,
    strLe_padDec_two _ _ _ _ (by omega) (by omega), strLe_cons_same,
    strLe_padDec_two _ _ _ _ (by omega) (by omega), strLe_cons_same,
    strLe_padDec_two _ _ _ _ (by omega) (by omega), strLe_cons_same,
    strLe_padDec_two _ _ _ _ (by omega) (by omega), strLe_cons_same,
    strLe_padDec_two_end _ _ (by omega) (by omega)] at h
  have key := key_le_of_fieldwise _ _ _ _ _ _ _ _ _ _ _ _ (by omega) (by omega) (by omega)
    (by omega) (by omega) (by omega) (by omega) (by omega) (by omega) (by omega) h
  have key2 := Int.ofNat_le.mpr key
  push_cast at key2
  rw [Int.toNat_of_nonneg ht.1, Int.toNat_of_nonneg hu.1,
    Int.toNat_of_nonneg (by omega : 0 ≤ t.month), Int.toNat_of_nonneg (by omega : 0 ≤ u.month),
    Int.toNat_of_nonneg (by omega : 0 ≤ t.day), Int.toNat_of_nonneg (by omega : 0 ≤ u.day),
    Int.toNat_of_nonneg hct.1, Int.toNat_of_nonneg hcu.1,
    Int.toNat_of_nonneg hct.2.2.1, Int.toNat_of_nonneg hcu.2.2.1,
    Int.toNat_of_nonneg hct.2.2.2.2.1, Int.toNat_of_nonneg hcu.2.2.2.2.1] at key2
  exact key2

theorem le_of_formatYmdHis (t u : Time) (ht : 0 ≤ t.year ∧ t.year ≤ 9999)
    (hu : 0 ≤ u.year ∧ u.year ≤ 9999)
    (h : strLe t.formatYmdHis u.formatYmdHis = true) : t ≤ u :=
  le_of_lexKey_le t u (lexKey_le_of_formatYmdHis t u ht hu h)

/-! ## What `time.Parse` returns lies in the years 0 to 9999 -/

theorem digitVal_range (ch : Char) (h : isDigit ch = true) : 0 ≤ digitVal ch ∧ digitVal ch ≤ 9 := by
  unfold isDigit at h
  simp only [Bool.and_eq_true, decide_eq_true_eq] at h
  have h2 : ch.toNat ≤ 57 := h.2
  unfold digitVal
  omega

theorem getnum_range (s : Str) (fixed : Bool) (n : Int) (t : Str)
    (h : getnum s fixed = some (n, t)) : 0 ≤ n ∧ n ≤ 99 := by
  unfold getnum at h
  split at h
  · simp at h
  · rename_i a rest
    split at h
    · rename_i ha
      have r1 := digitVal_range a ha
      split at h
      · rename_i b t1
        split at h
        · rename_i hb
          have r2 := digitVal_range b hb
          simp only [Option.some.injEq, Prod.mk.injEq] at h
          omega
        · split at h
          · simp at h
          · simp only [Option.some.injEq, Prod.mk.injEq] at h
            omega
      · split at h
        · simp at h
        · simp only [Option.some.injEq, Prod.mk.injEq] at h
          omega
    · simp at h

theorem parseChunks_inRange :
    ∀ (layout : List Chunk) (s : Str) (f g : DateFields), f.InRange →
      parseChunks layout s f = some g → g.InRange := by
  intro layout
  induction layout with
  | nil =>
    intro s f g hf h
    cases s with
    | nil =>
      simp only [parseChunks, Option.some.injEq] at h
      subst h; exact hf
    | cons x t => simp [parseChunks] at h
  | cons c cs ih =>
    intro s f g hf h
    cases c with
    | lit ch =>
      simp only [parseChunks] at h
      split at h
      · split at h
        · exact ih _ _ _ hf h
        · simp at h
      · simp at h
    | longYear =>
      simp only [parseChunks] at h
      split at h
      · rename_i a b c d t
        split at h
        · rename_i hd
          simp only [Bool.and_eq_true] at hd
          have ra := digitVal_range a hd.1.1.1
          have rb := digitVal_range b hd.1.1.2
          have rc := digitVal_range c hd.1.2
          have rd := digitVal_range d hd.2
          refine ih _ _ _ ?_ h
          obtain ⟨-, h2, h3, h4, h5⟩ := hf
          exact ⟨⟨by dsimp only; omega, by dsimp only; omega⟩, h2, h3, h4, h5⟩
        · simp at h
      · simp at h
    | zeroMonth =>
      simp only [parseChunks] at h
      split at h
      · rename_i n t hg
        split at h
        · simp at h
        · rename_i hr
          refine ih _ _ _ ?_ h
          obtain ⟨h1, -, h3, h4, h5⟩ := hf
          exact ⟨h1, ⟨by dsimp only; omega, by dsimp only; omega⟩, h3, h4, h5⟩
      · simp at h
    | zeroDay =>
      simp only [parseChunks] at h
      split at h
      · exact ih _ _ _ (by exact hf) h
      · simp at h
    | hour =>
      simp only [parseChunks] at h
      split at h
      · rename_i n t hg
        split at h
        · simp at h
        · rename_i hr
          refine ih _ _ _ ?_ h
          obtain ⟨h1, h2, -, h4, h5⟩ := hf
          exact ⟨h1, h2, ⟨by dsimp only; omega, by dsimp only; omega⟩, h4, h5⟩
      · simp at h
    | zeroMinute =>
      simp only [parseChunks] at h
      split at h
      · rename_i n t hg
        split at h
        · simp at h
        · rename_i hr
          refine ih _ _ _ ?_ h
          obtain ⟨h1, h2, h3, -, h5⟩ := hf
          exact ⟨h1, h2, h3, ⟨by dsimp only; omega, by dsimp only; omega⟩, h5⟩
      · simp at h
    | zeroSecond =>
      simp only [parseChunks] at h
      split at h
      · rename_i n t hg
        split at h
        · simp at h
        · rename_i hr
          refine ih _ _ _ ?_ h
          obtain ⟨h1, h2, h3, h4, -⟩ := hf
          exact ⟨h1, h2, h3, h4, ⟨by dsimp only; omega, by dsimp only; omega⟩⟩
      · simp at h

theorem year_goDate (y m d h mi s : Int) (hm : 1 ≤ m ∧ m ≤ 12)
    (hd : 1 ≤ d ∧ d ≤ daysIn m y) (hh : 0 ≤ h ∧ h ≤ 23) (hmi : 0 ≤ mi ∧ mi ≤ 59)
    (hs : 0 ≤ s ∧ s ≤ 59) : (goDate y m d h mi s).year = y := by
  have hmono := daysBeforeMonth_mono (isLeap y) (m + 1) 13 (by omega) (by omega) (by omega)
  have h13 := daysBeforeMonth_thirteen (isLeap y)
  have h1 := daysBeforeMonth_one (isLeap y)
  have hm1 := daysBeforeMonth_mono (isLeap y) 1 m (by omega) hm.1 (by omega)
  have hsucc := daysBeforeYear_succ y
  unfold daysIn at hd
  have hn : (goDate y m d h mi s).dayNumber =
      daysBeforeYear y + daysBeforeMonth (isLeap y) m + (d - 1) := by
    rw [goDate_eq y m d h mi s hm]
    unfold Time.dayNumber secondsPerDay
    omega
  have hlt : daysBeforeYear y + daysBeforeMonth (isLeap y) m + (d - 1) < daysBeforeYear (y + 1) := by
    rw [hsucc]
    rw [h13] at hmono
    omega
  have hspec := yearOfDay_spec (goDate y m d h mi s).dayNumber
  unfold Time.year
  rw [hn] at hspec ⊢
  generalize yearOfDay (daysBeforeYear y + daysBeforeMonth (isLeap y) m + (d - 1)) = Y at *
  by_contra hne
  rcases lt_or_gt_of_ne hne with hlt2 | hgt2
  · have := daysBeforeYear_mono (Y + 1) y (by omega)
    omega
  · have := daysBeforeYear_mono (y + 1) Y (by omega)
    omega

theorem timeParse_year (layout : List Chunk) (value : Str) :
    0 ≤ (timeParse layout value).year ∧ (timeParse layout value).year ≤ 9999 := by
  unfold timeParse
  split
  · rename_i f hf
    unfold parseFields at hf
    split at hf
    · rename_i g hg
      split at hf
      · simp at hf
      · rename_i hday
        simp only [Option.some.injEq] at hf
        subst hf
        have hr := parseChunks_inRange layout value {} g
          ⟨⟨by decide, by decide⟩, ⟨by decide, by decide⟩, ⟨by decide, by decide⟩,
            ⟨by decide, by decide⟩, ⟨by decide, by decide⟩⟩ hg
        obtain ⟨h1, h2, h3, h4, h5⟩ := hr
        rw [year_goDate g.year g.month g.day g.hour g.min g.sec h2 (by omega) h3 h4 h5]
        exact h1
    · simp at hf
  · decide

/-! ## The calendar fields of `time.Date` -/

theorem month_goDate (y m d h mi s : Int) (hm : 1 ≤ m ∧ m ≤ 12)
    (hd : 1 ≤ d ∧ d ≤ daysIn m y) (hh : 0 ≤ h ∧ h ≤ 23) (hmi : 0 ≤ mi ∧ mi ≤ 59)
    (hs : 0 ≤ s ∧ s ≤ 59) : (goDate y m d h mi s).month = m := by
  have hy := year_goDate y m d h mi s hm hd hh hmi hs
  have hsp := month_spec (goDate y m d h mi s)
  have hr := month_range (goDate y m d h mi s)
  have hyd : (goDate y m d h mi s).yday = daysBeforeMonth (isLeap y) m + (d - 1) := by
    unfold Time.yday
    rw [hy, goDate_eq y m d h mi s hm]
    unfold Time.dayNumber secondsPerDay
    omega
  rw [hy, hyd] at hsp
  unfold daysIn at hd
  generalize (goDate y m d h mi s).month = M at *
  by_contra hne
  rcases lt_or_gt_of_ne hne with hlt | hgt
  · have := daysBeforeMonth_mono (isLeap y) (M + 1) m (by omega) (by omega) (by omega)
    omega
  · have := daysBeforeMonth_mono (isLeap y) (m + 1) M (by omega) (by omega) (by omega)
    omega

theorem day_goDate (y m d h mi s : Int) (hm : 1 ≤ m ∧ m ≤ 12)
    (hd : 1 ≤ d ∧ d ≤ daysIn m y) (hh : 0 ≤ h ∧ h ≤ 23) (hmi : 0 ≤ mi ∧ mi ≤ 59)
    (hs : 0 ≤ s ∧ s ≤ 59) : (goDate y m d h mi s).day = d := by
  have hy := year_goDate y m d h mi s hm hd hh hmi hs
  have hmo := month_goDate y m d h mi s hm hd hh hmi hs
  unfold Time.day Time.yday
  rw [hmo, hy, goDate_eq y m d h mi s hm]
  unfold Time.dayNumber secondsPerDay
  omega

theorem clock_goDate (y m d h mi s : Int) (hm : 1 ≤ m ∧ m ≤ 12)
    (hh : 0 ≤ h ∧ h ≤ 23) (hmi : 0 ≤ mi ∧ mi ≤ 59) (hs : 0 ≤ s ∧ s ≤ 59) :
    (goDate y m d h mi s).hour = h ∧ (goDate y m d h mi s).minute = mi ∧
      (goDate y m d h mi s).second = s := by
  rw [goDate_eq y m d h mi s hm]
  unfold Time.hour Time.minute Time.second Time.secOfDay secondsPerDay
  omega

theorem addDate_years_january (y n : Int) :
    (goDate y 1 1 0 0 0).addDate n 0 0 = goDate (y + n) 1 1 0 0 0 := by
  have hd : 1 ≤ (1 : Int) ∧ (1 : Int) ≤ daysIn 1 y := by
    unfold daysIn
    cases isLeap y <;> decide
  have hm : (1 : Int) ≤ 1 ∧ (1 : Int) ≤ 12 := by decide
  have hz : (0 : Int) ≤ 0 ∧ (0 : Int) ≤ 23 := by decide
  have hz2 : (0 : Int) ≤ 0 ∧ (0 : Int) ≤ 59 := by decide
  have hc := clock_goDate y 1 1 0 0 0 hm hz hz2 hz2
  unfold Time.addDate
  rw [year_goDate y 1 1 0 0 0 hm hd hz hz2 hz2, month_goDate y 1 1 0 0 0 hm hd hz hz2 hz2,
    day_goDate y 1 1 0 0 0 hm hd hz hz2 hz2, hc.1, hc.2.1, hc.2.2]
  simp

theorem runLoop_never (env : Env) (event : Event) (start : Time) (r : Rule)
    (P : LoopState → Prop)
    (hP : ∀ st, P st → ∃ st1, loopBody env event start r st = (st1, false) ∧ P st1) :
    ∀ (fuel : Nat) (st : LoopState), P st → runLoop env event start r fuel st = none := by
  intro fuel
  induction fuel with
  | zero => intro st _; rfl
  | succ f ih =>
    intro st h
    obtain ⟨st1, hb, h1⟩ := hP st h
    rw [runLoop_continue env event start r f st st1 hb]
    exact ih st1 h1

theorem addDate_zero (t : Time) : t.addDate 0 0 0 = t := by
  rw [addDate_days]; show @Eq Int _ _; omega

/-! ## Invariant of the generation loop -/

theorem extends_refl (env : Env) (event : Event) (start : Time) (r : Rule) (k0 : Sink) :
    Extends env event start r k0 k0 :=
  ⟨rfl, [], by simp, by simp⟩

theorem emit_extends (env : Env) (event : Event) (start : Time) (r : Rule) (k0 : Sink)
    (ws we : Time) (st : LoopState) (hws : ws ≠ start)
    (h : Extends env event start r k0 st.sink) :
    Extends env event start r k0 (emit env event r ws we st).sink := by
  obtain ⟨hb, occ, he, hall⟩ := h
  unfold emit
  by_cases hu : untilAdmits r.until_ ws = true
  · simp only [hu, if_true]
    refine ⟨hb, occ ++ [newOccurrence env event ws we (st.current + 1)], ?_, ?_⟩
    · simp [Sink.setEvent, he]
    · intro e hmem
      rcases List.mem_append.mp hmem with h1 | h1
      · exact hall e h1
      · rw [List.mem_singleton] at h1
        exact ⟨ws, we, st.current + 1, h1, hws, hu⟩
  · simp only [hu]
    exact ⟨hb, occ, he, hall⟩

theorem weekLoop_extends (env : Env) (event : Event) (start : Time) (r : Rule) (k0 : Sink) :
    ∀ (i : Nat) (ws we : Time) (st : LoopState), Extends env event start r k0 st.sink →
      Extends env event start r k0 (weekLoop env event start r i ws we st).sink := by
  intro i
  induction i with
  | zero => intro ws we st h; exact h
  | succ i ih =>
    intro ws we st h
    unfold weekLoop
    apply ih
    by_cases hc : (contains r.byday (parseDayNameToIcsName ws.formatWeekDay) &&
        decide (ws ≠ start)) = true
    · rw [if_pos hc]
      have hws : ws ≠ start := by
        have := (Bool.and_eq_true _ _).mp hc
        exact of_decide_eq_true this.2
      exact emit_extends env event start r k0 ws we st hws h
    · rw [if_neg hc]
      exact h

theorem emitPass_extends (env : Env) (event : Event) (start : Time) (r : Rule) (k0 : Sink)
    (st : LoopState) (h : Extends env event start r k0 st.sink) :
    Extends env event start r k0 (emitPass env event start r st).sink := by
  unfold emitPass
  simp only []
  split
  · split
    · exact weekLoop_extends env event start r k0 7 _ _ st h
    · split
      · rename_i hne
        exact emit_extends env event start r k0 _ _ st hne h
      · exact h
  · exact h

theorem loopBody_sink (env : Env) (event : Event) (start : Time) (r : Rule) (st : LoopState) :
    (loopBody env event start r st).1.sink = (emitPass env event start r st).sink := by
  unfold loopBody
  simp only []
  split
  · rfl
  · split
    · split <;> rfl
    · rfl

theorem runLoop_extends (env : Env) (event : Event) (start : Time) (r : Rule) (k0 : Sink) :
    ∀ (fuel : Nat) (st s : LoopState), runLoop env event start r fuel st = some s →
      Extends env event start r k0 st.sink → Extends env event start r k0 s.sink := by
  intro fuel
  induction fuel with
  | zero => intro st s h; simp [runLoop] at h
  | succ f ih =>
    intro st s h hinv
    have hstep : Extends env event start r k0 (loopBody env event start r st).1.sink := by
      rw [loopBody_sink]
      exact emitPass_extends env event start r k0 st hinv
    unfold runLoop at h
    rcases hb : loopBody env event start r st with ⟨st1, b⟩
    rw [hb] at h hstep
    cases b with
    | true =>
      have : st1 = s := by simpa using h
      subst this
      exact hstep
    | false => exact ih st1 s (by simpa using h) hstep

theorem expand_extends (env : Env) (fuel : Nat) (event : Event) (start end_ : Time)
    (k0 k : Sink) (h : expand env fuel event start end_ k0 = some k) :
    Extends env event start (parseRule env.MaxRepeats event.rrule) k0 k := by
  unfold expand at h
  split at h
  · split at h
    · rename_i st hst
      have : st.sink = k := by simpa using h
      subst this
      exact runLoop_extends env event start _ k0 fuel _ st hst (extends_refl env event start _ k0)
    · simp at h
  · have : k0 = k := by simpa using h
    subst this
    exact extends_refl env event start _ k0

theorem admitted_start (env : Env) (event : Event) (start : Time) (r : Rule) (e : Event)
    (h : Admitted env event start r e) :
    e.start ≠ start ∧ untilAdmits r.until_ e.start = true := by
  obtain ⟨ws, we, cur, he, hne, hu⟩ := h
  subst he
  exact ⟨hne, hu⟩

theorem stateAfter_extends (env : Env) (event : Event) (start : Time) (r : Rule) (k0 : Sink) :
    ∀ (n : Nat) (st : LoopState), Extends env event start r k0 st.sink →
      Extends env event start r k0 (stateAfter env event start r n st).sink := by
  intro n
  induction n with
  | zero => intro st h; exact h
  | succ n ih =>
    intro st hinv
    have hstep : Extends env event start r k0 (loopBody env event start r st).1.sink := by
      rw [loopBody_sink]
      exact emitPass_extends env event start r k0 st hinv
    unfold stateAfter
    rcases hb : loopBody env event start r st with ⟨st1, b⟩
    rw [hb] at hstep
    cases b with
    | true => exact hstep
    | false => exact ih st1 hstep

theorem runLoop_eq_stateAfter (env : Env) (event : Event) (start : Time) (r : Rule) :
    ∀ (fuel : Nat) (st s : LoopState), runLoop env event start r fuel st = some s →
      stateAfter env event start r fuel st = s := by
  intro fuel
  induction fuel with
  | zero => intro st s h; simp [runLoop] at h
  | succ f ih =>
    intro st s h
    unfold runLoop at h
    unfold stateAfter
    rcases hb : loopBody env event start r st with ⟨st1, b⟩
    rw [hb] at h
    cases b with
    | true => simpa using h
    | false => exact ih st1 s (by simpa using h)

theorem expand_day (env : Env) (event : Event) (start end_ : Time) (k : Sink)
    (c d : Int) (N : Nat) (hon : env.RepeatRuleApply = true) (hne : event.rrule ≠ [])
    (hbm : (parseRule env.MaxRepeats event.rrule).bymonth = [])
    (hbd : (parseRule env.MaxRepeats event.rrule).byday = [])
    (hu : (parseRule env.MaxRepeats event.rrule).until_ = none)
    (hs : freqStep (parseRule env.MaxRepeats event.rrule) = (0, 0, d))
    (hc : (parseRule env.MaxRepeats event.rrule).count = c) (hd : 1 ≤ d)
    (hgo : ∀ j : Nat, j < N → ¬ ((j : Int) > env.MaxRepeats ∨ c - (j : Int) = 0))
    (hstop : (N : Int) > env.MaxRepeats ∨ c - (N : Int) = 0) (hN : 1 ≤ N) (n : Nat) :
    expand env (N + 1 + n) event start end_ k =
      some { k with events := k.events ++ dayOccurrences env event start end_ d N } := by
  have hrun := runLoop_day env event start end_ k (parseRule env.MaxRepeats event.rrule)
    c d N hbm hbd hu hs hd hgo hstop hN n
  unfold expand initState
  rw [if_pos ⟨hon, hne⟩, hc, hrun]
  rfl

theorem dayOccurrences_length (env : Env) (event : Event) (start end_ : Time) (d : Int)
    (n : Nat) : (dayOccurrences env event start end_ d n).length = n := by
  unfold dayOccurrences
  rw [List.length_map, List.length_range]

/-! ## C1 -/

theorem parseRule_c1 :
    parseRule 1000 "FREQ=DAILY;INTERVAL=2;COUNT=5".toList =
      { until_ := none, interval := 2, count := 5, freq := "DAILY".toList,
        bymonth := [], byday := [] } := by decide

/-- C1 (as stated, refuted): for the master event starting 2024-01-01T00:00:00Z
with rule FREQ=DAILY;INTERVAL=2;COUNT=5 the expansion appends five occurrences,
the fifth on 2024-01-11, and not the four of the claim. -/
theorem C1_counterexample :
    (expand bareEnv 6
        (masterWith "FREQ=DAILY;INTERVAL=2;COUNT=5".toList (goDate 2024 1 1 0 0 0)
          (goDate 2024 1 1 1 0 0))
        (goDate 2024 1 1 0 0 0) (goDate 2024 1 1 1 0 0) {}).map
        (fun k => k.events.map Event.start) =
      some [goDate 2024 1 3 0 0 0, goDate 2024 1 5 0 0 0, goDate 2024 1 7 0 0 0,
        goDate 2024 1 9 0 0 0, goDate 2024 1 11 0 0 0] ∧
    (expand bareEnv 6
        (masterWith "FREQ=DAILY;INTERVAL=2;COUNT=5".toList (goDate 2024 1 1 0 0 0)
          (goDate 2024 1 1 1 0 0))
        (goDate 2024 1 1 0 0 0) (goDate 2024 1 1 1 0 0) {}).map
        (fun k => k.events.map Event.start) ≠
      some [goDate 2024 1 3 0 0 0, goDate 2024 1 5 0 0 0, goDate 2024 1 7 0 0 0,
        goDate 2024 1 9 0 0 0] := by
  decide

/-- C1 (amended): for every master event that starts 2024-01-01T00:00:00Z and
carries the rule FREQ=DAILY;INTERVAL=2;COUNT=5, under the configuration that
`init` sets, the expansion returns after six passes and appends exactly five
occurrences, with starts 2024-01-03, 01-05, 01-07, 01-09 and 01-11, each of
them with end equal to its start plus the duration of the master. -/
theorem C1_daily_interval2_count5 (env : Env) (event : Event) (end_ : Time) (k : Sink)
    (n : Nat) :
    ∃ occ : List Event,
      expand env.init (6 + n) { event with rrule := "FREQ=DAILY;INTERVAL=2;COUNT=5".toList }
          (goDate 2024 1 1 0 0 0) end_ k
        = some { k with events := k.events ++ occ } ∧
      occ.map Event.start =
        [goDate 2024 1 3 0 0 0, goDate 2024 1 5 0 0 0, goDate 2024 1 7 0 0 0,
          goDate 2024 1 9 0 0 0, goDate 2024 1 11 0 0 0] ∧
      ∀ e ∈ occ, e.end_ = e.start + (end_ - goDate 2024 1 1 0 0 0) := by
  refine ⟨dayOccurrences env.init { event with rrule := "FREQ=DAILY;INTERVAL=2;COUNT=5".toList }
    (goDate 2024 1 1 0 0 0) end_ 2 5, ?_, ?_, ?_⟩
  · have hr := parseRule_c1
    have hrun := runLoop_day env.init { event with rrule := "FREQ=DAILY;INTERVAL=2;COUNT=5".toList }
      (goDate 2024 1 1 0 0 0) end_ k (parseRule 1000 "FREQ=DAILY;INTERVAL=2;COUNT=5".toList)
      5 2 5 (by rw [hr]) (by rw [hr]) (by rw [hr]) (by rw [hr]; decide) (by decide)
      (by intro j hj; show ¬ ((j : Int) > 1000 ∨ _); omega)
      (by right; decide) (by decide) n
    have hcond : (Env.init env).RepeatRuleApply ∧
        ({ event with rrule := "FREQ=DAILY;INTERVAL=2;COUNT=5".toList } : Event).rrule ≠ [] :=
      ⟨rfl, by show ("FREQ=DAILY;INTERVAL=2;COUNT=5".toList : Str) ≠ []; decide⟩
    unfold expand
    rw [if_pos hcond]
    have hi : initState env.init { event with rrule := "FREQ=DAILY;INTERVAL=2;COUNT=5".toList }
        (goDate 2024 1 1 0 0 0) end_ k =
        { current := 0, count := 5, freqDateStart := goDate 2024 1 1 0 0 0, freqDateEnd := end_,
          sink := k } := by
      show LoopState.mk _ (parseRule 1000 _).count _ _ _ = _
      rw [hr]
    rw [hi]
    have e6 : 6 + n = 5 + 1 + n := by omega
    rw [e6]
    show (match runLoop env.init _ _ (parseRule 1000 _) _ _ with
      | some st => some st.sink | none => none) = _
    rw [hrun]
    rfl
  · simp [dayOccurrences, dayOccurrence, newOccurrence, List.range_succ]
    decide
  · intro e he
    simp [dayOccurrences, dayOccurrence, newOccurrence, List.range_succ] at he
    rcases he with h | h | h | h | h <;> subst h <;> simp <;> ring

/-! ## C2 -/

theorem parseTimeField_wholeDay (env : Env) (fieldName eventData : Str)
    (h : (reWholeDay fieldName).findString eventData ≠ []) :
    parseTimeField env fieldName eventData = some (0, []) := by
  unfold parseTimeField
  simp [h]

/-- C2 (the code at a failing input). For the whole-day field
`DTSTART;VALUE=DATE:20240101` the date-only text parses to midnight UTC of
2024-01-01, but `parseTimeField` returns the zero time (0001-01-01T00:00:00Z)
with the empty zone identifier: the whole-day branch assigns `t` and the
function returns `ut`. -/
theorem C2_wholeDay_returns_zero_time (env : Env) :
    parseTimeField env "DTSTART".toList
        "BEGIN:VEVENT\r\nDTSTART;VALUE=DATE:20240101\r\nEND:VEVENT\r\n".toList = some (0, []) ∧
    timeParse IcsFormatWholeDay
        (trimField ((reWholeDay "DTSTART".toList).findString
            "BEGIN:VEVENT\r\nDTSTART;VALUE=DATE:20240101\r\nEND:VEVENT\r\n".toList)
          (RE.cat [RE.str "DTSTART".toList, RE.str ";VALUE=DATE:".toList])) =
      goDate 2024 1 1 0 0 0 ∧
    (0 : Time) ≠ goDate 2024 1 1 0 0 0 := by
  refine ⟨parseTimeField_wholeDay env _ _ (by decide), by decide, by decide⟩

/-! ## C3 -/

theorem parseRule_c3 :
    parseRule 1000 "FREQ=DAILY;COUNT=2000".toList =
      { until_ := none, interval := 1, count := 2000, freq := "DAILY".toList,
        bymonth := [], byday := [] } := by decide

/-- C3 (the code at two failing inputs). Under the configuration that `init`
sets (MaxRepeats = 1000), the rule FREQ=DAILY;COUNT=2000 makes the expansion
append 1001 occurrences for every master event, one more than MaxRepeats; and
the rule FREQ=WEEKLY;COUNT=1;BYDAY=MO,WE,FR;UNTIL=20240108T000000Z on a master
starting Monday 2024-01-01 appends two occurrences (Wednesday and Friday),
one more than COUNT. -/
theorem C3_limit_exceeded :
    (∀ (env : Env) (event : Event) (start end_ : Time) (k : Sink) (n : Nat),
      ∃ occ : List Event,
        expand env.init (1002 + n) { event with rrule := "FREQ=DAILY;COUNT=2000".toList }
            start end_ k = some { k with events := k.events ++ occ } ∧
        occ.length = 1001) ∧
    (expand bareEnv 1
        (masterWith "FREQ=WEEKLY;COUNT=1;BYDAY=MO,WE,FR;UNTIL=20240108T000000Z".toList
          (goDate 2024 1 1 9 0 0) (goDate 2024 1 1 10 0 0))
        (goDate 2024 1 1 9 0 0) (goDate 2024 1 1 10 0 0) {}).map
        (fun k => k.events.map Event.start) =
      some [goDate 2024 1 3 9 0 0, goDate 2024 1 5 9 0 0] := by
  constructor
  · intro env event start end_ k n
    refine ⟨dayOccurrences env.init { event with rrule := "FREQ=DAILY;COUNT=2000".toList }
      start end_ 1 1001, ?_, dayOccurrences_length _ _ _ _ _ _⟩
    have hr := parseRule_c3
    have e : 1002 + n = 1001 + 1 + n := by omega
    rw [e]
    exact expand_day env.init _ start end_ k 2000 1 1001 rfl
      (by show ("FREQ=DAILY;COUNT=2000".toList : Str) ≠ []; decide)
      (by show (parseRule 1000 _).bymonth = []; rw [hr])
      (by show (parseRule 1000 _).byday = []; rw [hr])
      (by show (parseRule 1000 _).until_ = none; rw [hr])
      (by show freqStep (parseRule 1000 _) = _; rw [hr]; decide)
      (by show (parseRule 1000 _).count = _; rw [hr])
      (by decide)
      (by intro j hj; show ¬ ((j : Int) > 1000 ∨ _); omega)
      (by left; show ((1001 : Nat) : Int) > 1000; decide) (by decide) n
  · decide

/-! ## C4 -/

theorem emitPass_skip (env : Env) (event : Event) (start : Time) (r : Rule) (st : LoopState)
    (h1 : r.bymonth ≠ []) (h2 : contains r.bymonth st.freqDateStart.formatNumMonth = false) :
    emitPass env event start r st = st := by
  simp [emitPass, h1, h2]

theorem parseRule_c4 :
    parseRule 1000 "FREQ=HOURLY;COUNT=3".toList =
      { until_ := none, interval := 1, count := 3, freq := "HOURLY".toList,
        bymonth := [], byday := [] } := by decide

theorem parseRule_c4_bymonth :
    parseRule 1000 "FREQ=YEARLY;BYMONTH=2".toList =
      { until_ := none, interval := 1, count := 1000, freq := "YEARLY".toList,
        bymonth := "2".toList, byday := [] } := by decide

/-- C4 (the code at two failing inputs). For every master event that carries
the rule FREQ=HOURLY;COUNT=3, a frequency the `switch` does not know, the
generation loop never leaves: whatever number of passes it is given, the
expansion is still running (the step is zero, no date but the start of the
master is reached, nothing is emitted and neither counter moves). The same
holds for every master event that starts 2024-01-01T00:00:00Z and carries the
rule FREQ=YEARLY;BYMONTH=2: every stepped date is a first of January, the
BYMONTH filter lets none through, and neither counter moves. -/
theorem C4_loop_never_returns :
    (∀ (env : Env) (event : Event) (start end_ : Time) (k : Sink) (fuel : Nat),
      expand env.init fuel { event with rrule := "FREQ=HOURLY;COUNT=3".toList } start end_ k
        = none) ∧
    (∀ (env : Env) (event : Event) (end_ : Time) (k : Sink) (fuel : Nat),
      expand env.init fuel { event with rrule := "FREQ=YEARLY;BYMONTH=2".toList }
        (goDate 2024 1 1 0 0 0) end_ k = none) := by
  constructor
  · intro env event start end_ k fuel
    have hr := parseRule_c4
    unfold expand initState
    rw [if_pos ⟨rfl, by show ("FREQ=HOURLY;COUNT=3".toList : Str) ≠ []; decide⟩]
    show (match runLoop env.init _ start (parseRule 1000 "FREQ=HOURLY;COUNT=3".toList) fuel
        { current := 0, count := (parseRule 1000 "FREQ=HOURLY;COUNT=3".toList).count,
          freqDateStart := start, freqDateEnd := end_, sink := k } with
      | some st => some st.sink | none => none) = none
    rw [hr, runLoop_never env.init _ start _ (fun st => st = ⟨0, 3, start, end_, k⟩) ?_ fuel _ rfl]
    intro st hst
    subst hst
    refine ⟨_, ?_, rfl⟩
    rw [loopBody_noUntil env.init _ start _ _ 0 0 0 rfl (by decide),
      emitPass_plain env.init _ start _ _ rfl rfl]
    simp [addDate_zero, Env.init]
  · intro env event end_ k fuel
    have hr := parseRule_c4_bymonth
    unfold expand initState
    rw [if_pos ⟨rfl, by show ("FREQ=YEARLY;BYMONTH=2".toList : Str) ≠ []; decide⟩]
    show (match runLoop env.init _ (goDate 2024 1 1 0 0 0)
        (parseRule 1000 "FREQ=YEARLY;BYMONTH=2".toList) fuel
        { current := 0, count := (parseRule 1000 "FREQ=YEARLY;BYMONTH=2".toList).count,
          freqDateStart := goDate 2024 1 1 0 0 0, freqDateEnd := end_, sink := k } with
      | some st => some st.sink | none => none) = none
    rw [hr, runLoop_never env.init _ (goDate 2024 1 1 0 0 0) _
      (fun st => st.current = 0 ∧ st.count = 1000 ∧
        ∃ n : Nat, st.freqDateStart = goDate (2024 + (n : Int)) 1 1 0 0 0) ?_ fuel _
      ⟨rfl, rfl, 0, rfl⟩]
    intro st ⟨h1, h2, n, h3⟩
    have hmonth : (goDate (2024 + (n : Int)) 1 1 0 0 0).month = 1 :=
      month_goDate _ 1 1 0 0 0 (by decide)
        (by unfold daysIn; cases isLeap (2024 + (n : Int)) <;> decide)
        (by decide) (by decide) (by decide)
    have hskip : emitPass env.init { event with rrule := "FREQ=YEARLY;BYMONTH=2".toList }
        (goDate 2024 1 1 0 0 0)
        { until_ := none, interval := 1, count := 1000, freq := "YEARLY".toList,
          bymonth := "2".toList, byday := [] } st = st := by
      apply emitPass_skip
      · decide
      · rw [h3]
        unfold Time.formatNumMonth
        rw [hmonth]
        decide
    refine ⟨{ st with freqDateStart := st.freqDateStart.addDate 1 0 0,
                      freqDateEnd := st.freqDateEnd.addDate 1 0 0 }, ?_, ?_⟩
    · rw [loopBody_noUntil env.init _ _ _ _ 1 0 0 rfl (by decide), hskip, h1, h2]
      simp [Env.init]
      exact ⟨h1, h2⟩
    · refine ⟨h1, h2, n + 1, ?_⟩
      show st.freqDateStart.addDate 1 0 0 = _
      rw [h3, addDate_years_january]
      push_cast
      ring_nf

/-! ## C5 -/

theorem parseRule_until_year (maxRepeats : Int) (rrule : Str) (u : Time)
    (h : (parseRule maxRepeats rrule).until_ = some u) : 0 ≤ u.year ∧ u.year ≤ 9999 := by
  unfold parseRule at h
  simp only [] at h
  split at h
  · simp at h
  · simp only [Option.some.injEq] at h
    subst h
    exact timeParse_year _ _

/-- C5 (as stated, refuted), at two inputs. Master starting
2024-01-01T00:00:00Z, rule FREQ=YEARLY;INTERVAL=8000;COUNT=2;UNTIL=20300101T000000Z:
UNTIL is read as 2030-01-01T00:00:00Z, and the expansion appends occurrences
starting in the years 10024 and 18024, both later than UNTIL, because the guard
compares the dates as text and `10024-01-01 00:00:00` sorts before
`2030-01-01 00:00:00`. Same master, rule FREQ=DAILY;COUNT=3;UNTIL=20240102: the
date-only UNTIL is not read at all, and occurrences of 2024-01-03 and
2024-01-04 are appended. -/
theorem C5_counterexample :
    ((parseRule 1000 "FREQ=YEARLY;INTERVAL=8000;COUNT=2;UNTIL=20300101T000000Z".toList).until_ =
        some (goDate 2030 1 1 0 0 0) ∧
      (expand bareEnv 3
          (masterWith "FREQ=YEARLY;INTERVAL=8000;COUNT=2;UNTIL=20300101T000000Z".toList
            (goDate 2024 1 1 0 0 0) (goDate 2024 1 1 1 0 0))
          (goDate 2024 1 1 0 0 0) (goDate 2024 1 1 1 0 0) {}).map
          (fun k => k.events.map Event.start) =
        some [goDate 10024 1 1 0 0 0, goDate 18024 1 1 0 0 0] ∧
      goDate 2030 1 1 0 0 0 < goDate 10024 1 1 0 0 0) ∧
    ((parseRule 1000 "FREQ=DAILY;COUNT=3;UNTIL=20240102".toList).until_ = none ∧
      (expand bareEnv 4
          (masterWith "FREQ=DAILY;COUNT=3;UNTIL=20240102".toList
            (goDate 2024 1 1 0 0 0) (goDate 2024 1 1 1 0 0))
          (goDate 2024 1 1 0 0 0) (goDate 2024 1 1 1 0 0) {}).map
          (fun k => k.events.map Event.start) =
        some [goDate 2024 1 2 0 0 0, goDate 2024 1 3 0 0 0, goDate 2024 1 4 0 0 0]) := by
  decide

/-- C5 (amended): for every master event and every rule text, whenever the
expansion returns, what it appended to the calendar are occurrences none of
which starts at the start of the master, and, when the rule text has an UNTIL
that the parser reads (the form `UNTIL=<digits>T<digits>Z`), none of which has
a start in the years 0 to 9999 that is strictly later than UNTIL. -/
theorem C5_until_bound (env : Env) (fuel : Nat) (event : Event) (start end_ : Time)
    (k0 k : Sink) (h : expand env fuel event start end_ k0 = some k) :
    ∃ occ : List Event, k.events = k0.events ++ occ ∧
      ∀ e ∈ occ, e.start ≠ start ∧
        ∀ u, (parseRule env.MaxRepeats event.rrule).until_ = some u →
          0 ≤ e.start.year → e.start.year ≤ 9999 → e.start ≤ u := by
  obtain ⟨-, occ, hocc, hall⟩ := expand_extends env fuel event start end_ k0 k h
  refine ⟨occ, hocc, ?_⟩
  intro e he
  obtain ⟨hne, hadm⟩ := admitted_start env event start _ e (hall e he)
  refine ⟨hne, ?_⟩
  intro u hu h0 h1
  rw [hu] at hadm
  exact le_of_formatYmdHis e.start u ⟨h0, h1⟩ (parseRule_until_year _ _ u hu) hadm

/-- C5 at the input of the spec: a weekly rule on Monday, Wednesday and Friday
with UNTIL one week after the start of the master, Monday 2024-01-01T09:00:00Z.
The expansion returns after one pass with the occurrences of Wednesday and
Friday. -/
theorem C5_until_bound_witness :
    expand bareEnv 1 weeklyMaster (goDate 2024 1 1 9 0 0) (goDate 2024 1 1 10 0 0) {} =
      some weeklyResult ∧
    ∃ occ : List Event, weeklyResult.events = ({} : Sink).events ++ occ ∧
      ∀ e ∈ occ, e.start ≠ goDate 2024 1 1 9 0 0 ∧
        ∀ u, (parseRule bareEnv.MaxRepeats weeklyMaster.rrule).until_ = some u →
          0 ≤ e.start.year → e.start.year ≤ 9999 → e.start ≤ u :=
  ⟨by decide,
    C5_until_bound bareEnv 1 weeklyMaster (goDate 2024 1 1 9 0 0) (goDate 2024 1 1 10 0 0) {}
      weeklyResult (by decide)⟩

/-! ## C6, C7, C8, C9 -/

/-- C6 (the code at a failing input). Master starting 2024-01-01T00:00:00Z, rule
FREQ=DAILY;UNTIL=20240103T000000Z: UNTIL is read as 2024-01-03T00:00:00Z, the
second stepped date equals UNTIL, and the only occurrence appended is the one
of 2024-01-02: the loop is left as soon as the next stepped date is not
earlier than UNTIL. -/
theorem C6_occurrence_at_until_missing :
    (parseRule 1000 "FREQ=DAILY;UNTIL=20240103T000000Z".toList).until_ =
      some (goDate 2024 1 3 0 0 0) ∧
    ((goDate 2024 1 1 0 0 0).addDate 0 0 1).addDate 0 0 1 = goDate 2024 1 3 0 0 0 ∧
    (expand bareEnv 2
        (masterWith "FREQ=DAILY;UNTIL=20240103T000000Z".toList (goDate 2024 1 1 0 0 0)
          (goDate 2024 1 1 1 0 0))
        (goDate 2024 1 1 0 0 0) (goDate 2024 1 1 1 0 0) {}).map
        (fun k => k.events.map Event.start) = some [goDate 2024 1 2 0 0 0] := by
  decide

/-- C7 (the code at a failing input). Master starting 2024-01-01T00:00:00Z, rule
FREQ=MONTHLY;BYMONTH=12;COUNT=1: the one occurrence appended starts on
2024-02-01, a date of month 2, because the text `2` occurs in the text `12`. -/
theorem C7_bymonth_substring :
    (parseRule 1000 "FREQ=MONTHLY;BYMONTH=12;COUNT=1".toList).bymonth = "12".toList ∧
    (expand bareEnv 2
        (masterWith "FREQ=MONTHLY;BYMONTH=12;COUNT=1".toList (goDate 2024 1 1 0 0 0)
          (goDate 2024 1 1 1 0 0))
        (goDate 2024 1 1 0 0 0) (goDate 2024 1 1 1 0 0) {}).map
        (fun k => k.events.map (fun e => (e.start, e.start.month))) =
      some [(goDate 2024 2 1 0 0 0, 2)] := by
  decide

/-- C8 (the code at a failing input). One event block with the rule
FREQ=DAILY;COUNT=2: the calendar receives the master and its two occurrences,
the buffered channel receives the master alone. -/
theorem C8_occurrences_not_sent :
    (match parseEvents bareEnv 3
        ["BEGIN:VEVENT\r\nDTSTART:20240101T090000\r\nDTEND:20240101T100000\r\nRRULE:FREQ=DAILY;COUNT=2\r\nEND:VEVENT\r\n".toList]
        {} with
      | .ok k => some (k.events.map Event.start, k.buffered.map Event.start)
      | .error _ => none) =
    some ([goDate 2024 1 1 9 0 0, goDate 2024 1 2 9 0 0, goDate 2024 1 3 9 0 0],
      [goDate 2024 1 1 9 0 0]) := by
  decide

/-- C9 (the code at a failing input). The zone identifier `Nowhere/Zone` is
found neither in the zone database nor in the legacy table, which returns a
nil location with its error. `parseTimeField` then does not return: the
location it parses in is the nil one of the legacy table, not UTC, and
`time.ParseInLocation` panics on it. -/
theorem C9_unknown_zone_panics :
    bareEnv.zoneDB "Nowhere/Zone".toList = none ∧
    bareEnv.wtzLoadLocation "Nowhere/Zone".toList = (none, true) ∧
    parseTimeField bareEnv "DTSTART".toList
      "BEGIN:VEVENT\r\nDTSTART;TZID=Nowhere/Zone:20240101T120000\r\nEND:VEVENT\r\n".toList = none := by
  refine ⟨rfl, rfl, ?_⟩
  decide

/-! ## C10 -/

/-- C10: when both time fields resolve (no panic), the assembled event has the
resolved start. When the resolved end is strictly earlier than the resolved
start, its end is the start plus the duration that the duration notation reads
from the text of the first `DURATION:` line (the text between `DURATION:` and the
end of the line), and the start itself when the notation rejects that text, in
particular when the block has no such line and the notation rejects the empty
text; otherwise its end is the resolved end. -/
theorem C10_end_resolution (env : Env) (eventData : Str) (start end0 : Time) (sz ez : Str)
    (hs : parseEventStart env eventData = some (start, sz))
    (he : parseEventEnd env eventData = some (end0, ez)) :
    ∃ e : Event, assembleEvent env eventData = some e ∧ e.start = start ∧
      (end0 < start → e.end_ = start + parseEventDuration env eventData) ∧
      (end0 < start → ∀ d : Int,
        env.durationFromString
            (trimField ((reLine "DURATION:".toList).findString eventData)
              (RE.str "DURATION:".toList)) = some d →
          e.end_ = start + d) ∧
      (end0 < start →
        env.durationFromString
            (trimField ((reLine "DURATION:".toList).findString eventData)
              (RE.str "DURATION:".toList)) = none →
          e.end_ = start) ∧
      (¬ end0 < start → e.end_ = end0) ∧
      (end0 < start → (reLine "DURATION:".toList).findString eventData = [] →
        env.durationFromString [] = none → e.end_ = start) := by
  unfold assembleEvent
  rw [hs, he]
  refine ⟨_, rfl, rfl, ?_, ?_, ?_, ?_, ?_⟩
  · intro h
    simp [resolveEnd, Time.before, Time.add, h]
  · intro h d hd
    have hz : parseEventDuration env eventData = d := by
      unfold parseEventDuration
      rw [hd]
    simp [resolveEnd, Time.before, Time.add, h, hz]
  · intro h hn
    have hz : parseEventDuration env eventData = 0 := by
      unfold parseEventDuration
      rw [hn]
    simp [resolveEnd, Time.before, Time.add, h, hz]
  · intro h
    simp [resolveEnd, Time.before, h]
  · intro h hd hn
    have hz : parseEventDuration env eventData = 0 := by
      unfold parseEventDuration
      rw [hd]
      have : trimField [] (RE.str "DURATION:".toList) = [] := by decide
      rw [this, hn]
    simp [resolveEnd, Time.before, Time.add, h, hz]

/-- C10 at concrete event blocks. In the first the end 08:00 lies before the
start 09:00 and the duration line reads `PT1H`: the event ends at 10:00, one
hour after its start. In the second the end 11:00 lies after the start 09:00:
the event ends at 11:00, the duration line notwithstanding. In the third the
end lies before the start and the notation rejects the duration text: the event
ends at its start. -/
theorem C10_end_resolution_witness :
    (parseEventStart hourEnv shortBlock = some (goDate 2024 1 1 9 0 0, []) ∧
      parseEventEnd hourEnv shortBlock = some (goDate 2024 1 1 8 0 0, []) ∧
      ∃ e : Event, assembleEvent hourEnv shortBlock = some e ∧
        e.start = goDate 2024 1 1 9 0 0 ∧ e.end_ = goDate 2024 1 1 10 0 0) ∧
    (parseEventStart hourEnv longBlock = some (goDate 2024 1 1 9 0 0, []) ∧
      parseEventEnd hourEnv longBlock = some (goDate 2024 1 1 11 0 0, []) ∧
      ∃ e : Event, assembleEvent hourEnv longBlock = some e ∧
        e.start = goDate 2024 1 1 9 0 0 ∧ e.end_ = goDate 2024 1 1 11 0 0) ∧
    (∃ e : Event, assembleEvent bareEnv shortBlock = some e ∧
        e.start = goDate 2024 1 1 9 0 0 ∧ e.end_ = goDate 2024 1 1 9 0 0) := by
  refine ⟨⟨by decide, by decide, ?_⟩, ⟨by decide, by decide, ?_⟩, ?_⟩
  · obtain ⟨e, h1, h2, _, h4, _⟩ :=
      C10_end_resolution hourEnv shortBlock (goDate 2024 1 1 9 0 0) (goDate 2024 1 1 8 0 0) [] []
        (by decide) (by decide)
    exact ⟨e, h1, h2, (h4 (by decide) 3600 (by decide)).trans (by decide)⟩
  · obtain ⟨e, h1, h2, _, _, _, h6, _⟩ :=
      C10_end_resolution hourEnv longBlock (goDate 2024 1 1 9 0 0) (goDate 2024 1 1 11 0 0) [] []
        (by decide) (by decide)
    exact ⟨e, h1, h2, h6 (by decide)⟩
  · obtain ⟨e, h1, h2, _, _, h5, _⟩ :=
      C10_end_resolution bareEnv shortBlock (goDate 2024 1 1 9 0 0) (goDate 2024 1 1 8 0 0) [] []
        (by decide) (by decide)
    exact ⟨e, h1, h2, h5 (by decide) (by decide)⟩

/-! ## C11 -/
/-! ## The matcher on the block expression -/

theorem run_str (w : Str) : ∀ (R : Type) (s : Str) (c : Caps) (k : Str → Caps → Option R),
    (RE.str w).run s c k = if w.isPrefixOf s then k (s.drop w.length) c else none := by
  induction w with
  | nil => intro R s c k; simp [RE.str, RE.run]
  | cons a t ih =>
    intro R s c k
    cases t with
    | nil =>
      cases s with
      | nil => simp [RE.str, RE.run]
      | cons x u =>
        by_cases h : x = a
        · subst h; simp [RE.str, RE.run]
        · have h' : ¬ a = x := fun e => h e.symm
          simp [RE.str, RE.run, h, h']
    | cons b t' =>
      have e : RE.str (a :: b :: t') = .seq (.lit a) (RE.str (b :: t')) := rfl
      rw [e]
      cases s with
      | nil => simp [RE.run]
      | cons x u =>
        by_cases h : x = a
        · subst h
          simp only [RE.run, if_true]
          rw [ih]
          simp
        · have h' : ¬ a = x := fun e => h e.symm
          simp [RE.run, h, h']

theorem afterLine_length : ∀ (s t : Str), afterLine s = some t → t.length < s.length := by
  intro s
  induction s with
  | nil => intro t h; simp [afterLine] at h
  | cons x u ih =>
    intro t h
    unfold afterLine at h
    split at h
    · simp only [Option.some.injEq] at h
      subst h; simp
    · have := ih t h
      simp; omega

theorem starLoop_dot (R : Type) (k : Str → Caps → Option R) :
    ∀ (s : Str) (n : Nat) (c : Caps), s.length ≤ n →
      starLoop (fun s1 c1 k1 => RE.dot.run s1 c1 k1) true n s c
          (fun s1 c1 => (RE.lit '\n').run s1 c1 k) =
        match afterLine s with
        | some t => k t c
        | none => none := by
  intro s
  induction s with
  | nil =>
    intro n c _
    cases n with
    | zero => simp [starLoop, RE.run, afterLine]
    | succ m => simp [starLoop, RE.run, RE.dot, afterLine]
  | cons x t ih =>
    intro n c hn
    cases n with
    | zero => simp at hn
    | succ m =>
      have hm : t.length ≤ m := by simpa using hn
      by_cases hx : x = '\n'
      · subst hx
        simp [starLoop, RE.run, RE.dot, afterLine]
      · have ih' := ih m c hm
        simp only [starLoop, RE.run, RE.dot, afterLine, hx, if_true, if_false, bne_iff_ne, ne_eq,
          not_false_eq_true, List.length_cons, Nat.lt_succ_self] at ih' ⊢
        rw [ih']
        cases afterLine t with
        | none => rfl
        | some t' =>
          show (match k t' c with | some r => some r | none => none) = k t' c
          cases k t' c <;> rfl

/-- The line expression `(.*\n)` consumes up to and including the first line feed. -/
theorem run_line (R : Type) (s : Str) (c : Caps) (k : Str → Caps → Option R) :
    (RE.grp 2 (RE.cat [.star true RE.dot, .lit '\n'])).run s c k =
      match afterLine s with
      | some t => k t ((2, s.take (s.length - t.length)) :: c)
      | none => none := by
  have h := starLoop_dot R (fun s1 c1 => k s1 ((2, s.take (s.length - s1.length)) :: c1))
    s s.length c (le_refl _)
  simp only [RE.cat, RE.run] at h ⊢
  exact h

/-- The tail `END\r?\n` of the block expression. -/
theorem run_tail (R : Type) (e s : Str) (c : Caps) (k : Str → Caps → Option R) :
    (RE.cat [RE.str e, .opt true (.lit '\r'), .lit '\n']).run s c k =
      match afterEndLine e s with
      | some rest => k rest c
      | none => none := by
  simp only [RE.cat, RE.run]
  rw [run_str]
  unfold afterEndLine
  by_cases hp : e.isPrefixOf s = true
  · simp only [hp, if_true]
    generalize s.drop e.length = u
    match u with
    | [] => simp
    | [x] =>
      by_cases h1 : x = '\r'
      · subst h1; simp
      · by_cases h2 : x = '\n'
        · subst h2; simp
        · simp [h1, h2]
    | x :: y :: t =>
      by_cases h1 : x = '\r'
      · subst h1
        by_cases h3 : y = '\n'
        · subst h3; simp
          cases k t c <;> rfl
        · simp [h3]
      · by_cases h2 : x = '\n'
        · subst h2; simp
        · simp [h1, h2]
  · simp [hp]

/-- The lazy repetition of the line expression in front of the tail: lines are
consumed until the tail matches, and the captured groups apart the result is that
of `afterBlockBody`. The continuation is one that always succeeds. -/
theorem starLoop_lines (R : Type) (e : Str) (k : Str → Caps → Option R)
    (hk : ∀ s c, k s c ≠ none) :
    ∀ (n : Nat) (s : Str) (c : Caps),
      (∀ rest, afterBlockBody e n s = some rest →
        ∃ c1, starLoop (fun s1 c1 k1 => (RE.grp 2 (RE.cat [.star true RE.dot, .lit '\n'])).run s1 c1 k1)
          false n s c (fun s2 c2 => (RE.cat [RE.str e, .opt true (.lit '\r'), .lit '\n']).run s2 c2 k)
            = k rest c1) ∧
      (afterBlockBody e n s = none →
        starLoop (fun s1 c1 k1 => (RE.grp 2 (RE.cat [.star true RE.dot, .lit '\n'])).run s1 c1 k1)
          false n s c (fun s2 c2 => (RE.cat [RE.str e, .opt true (.lit '\r'), .lit '\n']).run s2 c2 k)
            = none) := by
  intro n
  induction n with
  | zero =>
    intro s c
    simp only [starLoop, afterBlockBody]
    rw [run_tail]
    constructor
    · intro rest h
      rw [h]
      exact ⟨c, rfl⟩
    · intro h
      rw [h]
  | succ n ih =>
    intro s c
    simp only [starLoop, afterBlockBody, Bool.false_eq_true, if_false]
    rw [run_tail, run_line]
    cases hE : afterEndLine e s with
    | some rest0 =>
      simp only []
      constructor
      · intro rest h
        simp only [Option.some.injEq] at h
        subst h
        refine ⟨c, ?_⟩
        cases hv : k rest0 c with
        | none => exact absurd hv (hk _ _)
        | some r => rfl
      · intro h
        simp at h
    | none =>
      simp only []
      cases hL : afterLine s with
      | none =>
        simp only []
        constructor
        · intro rest h
          simp at h
        · intro _
          trivial
      | some t =>
        simp only [afterLine_length s t hL, if_true]
        exact ih t _

/-- What `afterEndLine` returns is a proper suffix that follows the marker and
its line terminator. -/
theorem afterEndLine_spec (e s rest : Str) (h : afterEndLine e s = some rest) :
    s = e ++ "\n".toList ++ rest ∨ s = e ++ "\r\n".toList ++ rest := by
  unfold afterEndLine at h
  by_cases hp : e.isPrefixOf s = true
  · simp only [hp, if_true] at h
    have hs : s = e ++ s.drop e.length := by
      have := List.isPrefixOf_iff_prefix.mp hp
      obtain ⟨u, hu⟩ := this
      rw [← hu]; simp
    generalize s.drop e.length = u at h hs
    split at h
    · simp only [Option.some.injEq] at h
      subst h; right; rw [hs]; simp
    · simp only [Option.some.injEq] at h
      subst h; left; rw [hs]; simp
    · simp at h
  · simp [hp] at h

theorem afterLine_suffix : ∀ (s t : Str), afterLine s = some t → ∃ p, s = p ++ t := by
  intro s
  induction s with
  | nil => intro t h; simp [afterLine] at h
  | cons x u ih =>
    intro t h
    unfold afterLine at h
    split at h
    · simp only [Option.some.injEq] at h
      subst h
      exact ⟨[x], rfl⟩
    · obtain ⟨p, hp⟩ := ih t h
      exact ⟨x :: p, by rw [hp]; rfl⟩

/-- What `afterBlockBody` returns follows some lines, the end marker and its line
terminator. -/
theorem afterBlockBody_spec (e : Str) : ∀ (n : Nat) (s rest : Str),
    afterBlockBody e n s = some rest →
      ∃ body, s = body ++ (e ++ "\n".toList ++ rest) ∨ s = body ++ (e ++ "\r\n".toList ++ rest) := by
  intro n
  induction n with
  | zero =>
    intro s rest h
    simp only [afterBlockBody] at h
    exact ⟨[], by simpa using afterEndLine_spec e s rest h⟩
  | succ n ih =>
    intro s rest h
    simp only [afterBlockBody] at h
    cases hE : afterEndLine e s with
    | some r0 =>
      rw [hE] at h
      simp only [Option.some.injEq] at h
      subst h
      exact ⟨[], by simpa using afterEndLine_spec e s r0 hE⟩
    | none =>
      rw [hE] at h
      simp only [] at h
      cases hL : afterLine s with
      | none => rw [hL] at h; simp at h
      | some t =>
        rw [hL] at h
        simp only [] at h
        obtain ⟨p, hp⟩ := afterLine_suffix s t hL
        obtain ⟨body, hb⟩ := ih t rest h
        refine ⟨p ++ body, ?_⟩
        rcases hb with hb | hb
        · left; rw [hp, hb]; simp
        · right; rw [hp, hb]; simp

theorem take_sub_length (p r : Str) : (p ++ r).take ((p ++ r).length - r.length) = p := by
  have h : (p ++ r).length - r.length = p.length := by simp
  rw [h]
  exact List.take_left' rfl

/-- A block found at the head of `s` is a prefix of `s` that starts with the
begin marker and ends with the end marker and its line terminator. -/
theorem blockAt_spec (b e s blk rest : Str) (h : blockAt b e s = some (blk, rest)) :
    s = blk ++ rest ∧
      ∃ body, blk = b ++ body ++ e ++ "\n".toList ∨ blk = b ++ body ++ e ++ "\r\n".toList := by
  unfold blockAt at h
  by_cases hp : b.isPrefixOf s = true
  · simp only [hp, if_true] at h
    have hs : s = b ++ s.drop b.length := by
      obtain ⟨u, hu⟩ := List.isPrefixOf_iff_prefix.mp hp
      rw [← hu]; simp
    cases hA : afterBlockBody e (s.drop b.length).length (s.drop b.length) with
    | none => rw [hA] at h; simp at h
    | some r =>
      rw [hA] at h
      simp only [Option.some.injEq, Prod.mk.injEq] at h
      obtain ⟨h1, h2⟩ := h
      subst h2
      obtain ⟨body, hb⟩ := afterBlockBody_spec e _ _ _ hA
      rcases hb with hb | hb
      · have hs2 : s = (b ++ body ++ e ++ "\n".toList) ++ r := by
          rw [hs, hb]; simp
        have hblk : blk = b ++ body ++ e ++ "\n".toList := by
          rw [hs2, take_sub_length] at h1
          exact h1.symm
        exact ⟨by rw [hblk]; exact hs2, body, Or.inl hblk⟩
      · have hs2 : s = (b ++ body ++ e ++ "\r\n".toList) ++ r := by
          rw [hs, hb]; simp
        have hblk : blk = b ++ body ++ e ++ "\r\n".toList := by
          rw [hs2, take_sub_length] at h1
          exact h1.symm
        exact ⟨by rw [hblk]; exact hs2, body, Or.inr hblk⟩
  · simp [hp] at h

/-- The block expression run at the head of `s`. -/
theorem run_block (R : Type) (b e s : Str) (c : Caps) (k : Str → Caps → Option R) :
    (reBlock b e).run s c k =
      if b.isPrefixOf s then
        starLoop (fun s1 c1 k1 => (RE.grp 2 (RE.cat [.star true RE.dot, .lit '\n'])).run s1 c1 k1)
          false (s.drop b.length).length (s.drop b.length) c
          (fun s2 c2 => (RE.cat [RE.str e, .opt true (.lit '\r'), .lit '\n']).run s2 c2
            (fun s3 c3 => k s3 ((1, s.take (s.length - s3.length)) :: c3)))
      else none := by
  have h : (reBlock b e).run s c k =
      (RE.str b).run s c (fun s0 c0 =>
        starLoop (fun s1 c1 k1 => (RE.grp 2 (RE.cat [.star true RE.dot, .lit '\n'])).run s1 c1 k1)
          false s0.length s0 c0
          (fun s2 c2 => (RE.cat [RE.str e, .opt true (.lit '\r'), .lit '\n']).run s2 c2
            (fun s3 c3 => k s3 ((1, s.take (s.length - s3.length)) :: c3)))) := rfl
  rw [h, run_str]

/-- The block expression matches at the head of `s` exactly when `blockAt` finds
a block there, with that block as the matched text. -/
theorem matchAt_block (b e pre s : Str) :
    (∀ blk rest, blockAt b e s = some (blk, rest) →
      ∃ c, (reBlock b e).matchAt pre s = some ⟨pre, blk, rest, c⟩) ∧
    (blockAt b e s = none → (reBlock b e).matchAt pre s = none) := by
  unfold RE.matchAt blockAt
  rw [run_block]
  by_cases hp : b.isPrefixOf s = true
  · simp only [hp, if_true]
    have hL := starLoop_lines Match e
      (fun s3 c3 => some ⟨pre, s.take (s.length - s3.length), s3,
        (1, s.take (s.length - s3.length)) :: c3⟩)
      (fun _ _ => by simp) (s.drop b.length).length (s.drop b.length) []
    cases hA : afterBlockBody e (s.drop b.length).length (s.drop b.length) with
    | none =>
      constructor
      · intro blk rest h; simp at h
      · intro _; exact hL.2 hA
    | some r =>
      constructor
      · intro blk rest h
        simp only [Option.some.injEq, Prod.mk.injEq] at h
        obtain ⟨h1, h2⟩ := h
        subst h1 h2
        obtain ⟨c1, hc⟩ := hL.1 r hA
        exact ⟨_, hc⟩
      · intro h; simp at h
  · simp [hp]

/-- The leftmost match of the block expression is the first block. -/
theorem findFrom_block (b e : Str) : ∀ (s pre : Str),
    (∀ p blk rest, firstBlock b e s = some (p, blk, rest) →
      ∃ c, (reBlock b e).findFrom pre s = some ⟨pre ++ p, blk, rest, c⟩) ∧
    (firstBlock b e s = none → (reBlock b e).findFrom pre s = none) := by
  intro s
  induction s with
  | nil =>
    intro pre
    have hM := matchAt_block b e pre []
    simp only [firstBlock, RE.findFrom]
    cases hB : blockAt b e [] with
    | none =>
      constructor
      · intro p blk rest h; simp at h
      · intro _; exact hM.2 hB
    | some br =>
      obtain ⟨blk0, rest0⟩ := br
      constructor
      · intro p blk rest h
        simp only [Option.some.injEq, Prod.mk.injEq] at h
        obtain ⟨h1, h2, h3⟩ := h
        subst h1 h2 h3
        simpa using hM.1 blk0 rest0 hB
      · intro h; simp at h
  | cons x t ih =>
    intro pre
    have hM := matchAt_block b e pre (x :: t)
    simp only [firstBlock, RE.findFrom]
    cases hB : blockAt b e (x :: t) with
    | some br =>
      obtain ⟨blk0, rest0⟩ := br
      obtain ⟨c, hc⟩ := hM.1 blk0 rest0 hB
      rw [hc]
      constructor
      · intro p blk rest h
        simp only [Option.some.injEq, Prod.mk.injEq] at h
        obtain ⟨h1, h2, h3⟩ := h
        subst h1 h2 h3
        exact ⟨c, by simp⟩
      · intro h; simp at h
    | none =>
      rw [hM.2 hB]
      simp only []
      have ih1 := ih (pre ++ [x])
      cases hF : firstBlock b e t with
      | none =>
        constructor
        · intro p blk rest h; simp at h
        · intro _; exact ih1.2 hF
      | some pbr =>
        obtain ⟨p0, blk0, rest0⟩ := pbr
        obtain ⟨c, hc⟩ := ih1.1 p0 blk0 rest0 hF
        constructor
        · intro p blk rest h
          simp only [Option.some.injEq, Prod.mk.injEq] at h
          obtain ⟨h1, h2, h3⟩ := h
          subst h1 h2 h3
          exact ⟨c, by rw [hc]; simp⟩
        · intro h; simp at h

/-- The first block, the text in front of it and the text after it make up the
text; the block starts with the begin marker and ends with the end marker and its
line terminator. -/
theorem firstBlock_spec (b e : Str) : ∀ (s p blk rest : Str),
    firstBlock b e s = some (p, blk, rest) →
      s = p ++ blk ++ rest ∧
        ∃ body, blk = b ++ body ++ e ++ "\n".toList ∨ blk = b ++ body ++ e ++ "\r\n".toList := by
  intro s
  induction s with
  | nil =>
    intro p blk rest h
    simp only [firstBlock] at h
    cases hB : blockAt b e [] with
    | none => rw [hB] at h; simp at h
    | some br =>
      obtain ⟨blk0, rest0⟩ := br
      rw [hB] at h
      simp only [Option.some.injEq, Prod.mk.injEq] at h
      obtain ⟨h1, h2, h3⟩ := h
      subst h1 h2 h3
      have := blockAt_spec b e [] blk0 rest0 hB
      exact ⟨by simpa using this.1, this.2⟩
  | cons x t ih =>
    intro p blk rest h
    simp only [firstBlock] at h
    cases hB : blockAt b e (x :: t) with
    | some br =>
      obtain ⟨blk0, rest0⟩ := br
      rw [hB] at h
      simp only [Option.some.injEq, Prod.mk.injEq] at h
      obtain ⟨h1, h2, h3⟩ := h
      subst h1 h2 h3
      have := blockAt_spec b e (x :: t) blk0 rest0 hB
      exact ⟨by simpa using this.1, this.2⟩
    | none =>
      rw [hB] at h
      simp only [] at h
      cases hF : firstBlock b e t with
      | none => rw [hF] at h; simp at h
      | some pbr =>
        obtain ⟨p0, blk0, rest0⟩ := pbr
        rw [hF] at h
        simp only [Option.some.injEq, Prod.mk.injEq] at h
        obtain ⟨h1, h2, h3⟩ := h
        subst h1 h2 h3
        have := ih p0 blk0 rest0 hF
        exact ⟨by rw [this.1]; simp, this.2⟩

theorem firstBlock_nonempty (b e s p blk rest : Str)
    (h : firstBlock b e s = some (p, blk, rest)) :
    blk.isEmpty = false ∧ rest.length < s.length := by
  obtain ⟨hs, body, hb⟩ := firstBlock_spec b e s p blk rest h
  have hne : blk ≠ [] := by
    rcases hb with hb | hb <;> rw [hb] <;> simp
  constructor
  · cases blk with
    | nil => exact absurd rfl hne
    | cons _ _ => rfl
  · have hl : 0 < blk.length := List.length_pos.mpr hne
    rw [hs]
    simp only [List.length_append]
    omega

/-- The leftmost match of the block expression in `s`. -/
theorem find_block (b e s : Str) :
    (∀ p blk rest, firstBlock b e s = some (p, blk, rest) →
      ∃ c, (reBlock b e).find s = some ⟨p, blk, rest, c⟩) ∧
    (firstBlock b e s = none → (reBlock b e).find s = none) := by
  simpa [RE.find] using findFrom_block b e s []

/-- Removing all matches of the block expression leaves the text between the
blocks. -/
theorem removeAllAux_block (b e : Str) : ∀ (n : Nat) (s : Str),
    (reBlock b e).removeAllAux n s = (cutBlocks b e n s).2 := by
  intro n
  induction n with
  | zero => intro s; rfl
  | succ n ih =>
    intro s
    simp only [RE.removeAllAux, cutBlocks]
    cases hF : firstBlock b e s with
    | none => rw [(find_block b e s).2 hF]
    | some pbr =>
      obtain ⟨p, blk, rest⟩ := pbr
      obtain ⟨c, hc⟩ := (find_block b e s).1 p blk rest hF
      rw [hc]
      simp only [(firstBlock_nonempty b e s p blk rest hF).1, Bool.false_eq_true, if_false]
      rw [ih]

/-- All matches of the block expression, when the limit on their number is not
below the length of the text, are the blocks in order. -/
theorem findAllAux_block (b e : Str) : ∀ (fuel limit : Nat) (s : Str) (am : Bool),
    s.length < fuel → s.length ≤ limit →
      (reBlock b e).findAllAux fuel limit am s = (cutBlocks b e fuel s).1 := by
  intro fuel
  induction fuel with
  | zero => intro limit s am h; omega
  | succ fuel ih =>
    intro limit s am hf hl
    cases hF : firstBlock b e s with
    | none =>
      have hfind := (find_block b e s).2 hF
      cases limit with
      | zero => simp [RE.findAllAux, cutBlocks, hF]
      | succ limit => simp [RE.findAllAux, cutBlocks, hF, hfind]
    | some pbr =>
      obtain ⟨p, blk, rest⟩ := pbr
      obtain ⟨c, hc⟩ := (find_block b e s).1 p blk rest hF
      obtain ⟨hne, hlen⟩ := firstBlock_nonempty b e s p blk rest hF
      cases limit with
      | zero => omega
      | succ limit =>
        simp only [RE.findAllAux, cutBlocks, hF, hc, hne, Bool.false_eq_true, if_false]
        rw [ih limit rest true (by omega) (by omega)]

theorem length_le_byteLen : ∀ (s : Str), s.length ≤ byteLen s := by
  intro s
  induction s with
  | nil => simp [byteLen]
  | cons x t ih =>
    have hx : 0 < x.utf8Size := Char.utf8Size_pos x
    simp only [byteLen, List.map_cons, List.sum_cons, List.length_cons] at ih ⊢
    omega

/-- The blocks that `cutBlocks` returns lie in the text in order, with the gaps
between them making up the second component; each starts with the begin marker
and ends with the end marker and its line terminator. -/
theorem cutBlocks_spec (b e : Str) : ∀ (n : Nat) (s : Str),
    ∃ gaps : List Str,
      gaps.length = (cutBlocks b e n s).1.length + 1 ∧
      weave gaps (cutBlocks b e n s).1 = s ∧
      gaps.flatten = (cutBlocks b e n s).2 ∧
      ∀ blk ∈ (cutBlocks b e n s).1,
        ∃ body, blk = b ++ body ++ e ++ "\n".toList ∨ blk = b ++ body ++ e ++ "\r\n".toList := by
  intro n
  induction n with
  | zero =>
    intro s
    exact ⟨[s], by simp [cutBlocks, weave]⟩
  | succ n ih =>
    intro s
    simp only [cutBlocks]
    cases hF : firstBlock b e s with
    | none => exact ⟨[s], by simp [weave]⟩
    | some pbr =>
      obtain ⟨p, blk, rest⟩ := pbr
      obtain ⟨hs, hb⟩ := firstBlock_spec b e s p blk rest hF
      obtain ⟨gaps, h1, h2, h3, h4⟩ := ih rest
      refine ⟨p :: gaps, ?_, ?_, ?_, ?_⟩
      · simp [h1]
      · simp only [List.cons_eq_cons, weave]
        show p ++ blk ++ weave gaps (cutBlocks b e n rest).1 = s
        rw [h2, hs]
      · simp only [List.flatten_cons, h3]
      · intro blk1 hm
        simp only [List.cons_eq_cons, List.mem_cons] at hm
        rcases hm with hm | hm
        · rw [hm]; exact hb
        · exact h4 blk1 hm

/-- The segmenter of the source computes the segmentation in the words of the
spec. -/
theorem explodeICal_eq_spec (doc : Str) : explodeICal doc = explodeSpec doc := by
  unfold explodeICal explodeSpec RE.findAllString RE.removeAll reEvents tzDefs
  rw [findAllAux_block _ _ _ _ _ _ (Nat.lt_succ_self _) (length_le_byteLen doc),
    findAllAux_block _ _ _ _ _ _ (Nat.lt_succ_self _) (length_le_byteLen doc),
    removeAllAux_block]

/-- C11: for every document, `explodeICal` returns the segmentation in the words
of the spec; its event blocks lie in the document in order without overlap
(the document is the gaps and the blocks woven together), the metadata is the
gaps put together, every event block starts with `BEGIN:VEVENT` and ends with
`END:VEVENT` and its line terminator; and a document in which the event
expression does not match gives no event block and the whole document as
metadata, one in which the zone expression does not match gives no zone block. -/
theorem C11_explodeICal_segments (doc : Str) :
    explodeICal doc = explodeSpec doc ∧
    (∃ gaps : List Str, gaps.length = (explodeICal doc).1.length + 1 ∧
      weave gaps (explodeICal doc).1 = doc ∧ gaps.flatten = (explodeICal doc).2.1) ∧
    (∀ blk ∈ (explodeICal doc).1, ∃ body,
      blk = "BEGIN:VEVENT".toList ++ body ++ "END:VEVENT".toList ++ "\n".toList ∨
      blk = "BEGIN:VEVENT".toList ++ body ++ "END:VEVENT".toList ++ "\r\n".toList) ∧
    (reEvents.find doc = none → (explodeICal doc).1 = [] ∧ (explodeICal doc).2.1 = doc) ∧
    (tzDefs.find doc = none → (explodeICal doc).2.2 = []) := by
  refine ⟨explodeICal_eq_spec doc, ?_, ?_, ?_, ?_⟩
  · rw [explodeICal_eq_spec]
    obtain ⟨gaps, h1, h2, h3, _⟩ :=
      cutBlocks_spec "BEGIN:VEVENT".toList "END:VEVENT".toList (doc.length + 1) doc
    exact ⟨gaps, h1, h2, h3⟩
  · rw [explodeICal_eq_spec]
    obtain ⟨_, _, _, _, h4⟩ :=
      cutBlocks_spec "BEGIN:VEVENT".toList "END:VEVENT".toList (doc.length + 1) doc
    exact h4
  · intro h
    cases hb : byteLen doc with
    | zero => simp [explodeICal, RE.findAllString, RE.removeAll, RE.findAllAux, RE.removeAllAux, h, hb]
    | succ n => simp [explodeICal, RE.findAllString, RE.removeAll, RE.findAllAux, RE.removeAllAux, h, hb]
  · intro h
    cases hb : byteLen doc with
    | zero => simp [explodeICal, RE.findAllString, RE.findAllAux, h, hb]
    | succ n => simp [explodeICal, RE.findAllString, RE.findAllAux, h, hb]

/-- C11 at two documents: one with a zone block and two event blocks, and one
in which no marker matches. -/
theorem C11_explodeICal_segments_witness :
    explodeICal sampleDoc =
      (["BEGIN:VEVENT\r\nUID:1\r\nEND:VEVENT\r\n".toList,
          "BEGIN:VEVENT\r\nUID:2\r\nEND:VEVENT\r\n".toList],
        "BEGIN:VCALENDAR\r\nX-WR-CALNAME:n\r\nBEGIN:VTIMEZONE\r\nTZID:Z\r\nEND:VTIMEZONE\r\nEND:VCALENDAR\r\n".toList,
        ["BEGIN:VTIMEZONE\r\nTZID:Z\r\nEND:VTIMEZONE\r\n".toList]) ∧
    explodeICal "BEGIN:VCALENDAR\r\nEND:VCALENDAR\r\n".toList =
      ([], "BEGIN:VCALENDAR\r\nEND:VCALENDAR\r\n".toList, []) :=
  ⟨((C11_explodeICal_segments sampleDoc).1).trans (by decide),
    ((C11_explodeICal_segments "BEGIN:VCALENDAR\r\nEND:VCALENDAR\r\n".toList).1).trans (by decide)⟩

/-! ## Attendees -/

theorem collectAttendees_field : ∀ (ds : List Str) (a : Attendee), a ∈ collectAttendees ds →
    a.email ≠ [] ∨ a.name ≠ [] ∨ a.role ≠ [] ∨ a.status ≠ [] ∨ a.type_ ≠ [] := by
  intro ds
  induction ds with
  | nil => intro a h; simp [collectAttendees] at h
  | cons d rest ih =>
    intro a h
    unfold collectAttendees at h
    by_cases hd : d = []
    · rw [if_pos hd] at h
      exact ih a h
    · rw [if_neg hd] at h
      simp only [] at h
      split at h
      · rename_i hf
        rcases List.mem_cons.mp h with h1 | h1
        · rw [h1]; exact hf
        · exact ih a h1
      · exact ih a h

theorem collectAttendees_keeps : ∀ (ds : List Str) (d : Str), d ∈ ds → d ≠ [] →
    (parseAttendee (unfoldOnce d)).email ≠ [] →
      parseAttendee (unfoldOnce d) ∈ collectAttendees ds := by
  intro ds
  induction ds with
  | nil => intro d h; simp at h
  | cons d0 rest ih =>
    intro d hm hne he
    unfold collectAttendees
    rcases List.mem_cons.mp hm with h1 | h1
    · subst h1
      rw [if_neg hne]
      simp only []
      rw [if_pos (Or.inl he)]
      exact List.mem_cons_self _ _
    · have hr := ih d h1 hne he
      by_cases hd : d0 = []
      · rw [if_pos hd]; exact hr
      · rw [if_neg hd]
        simp only []
        split
        · exact List.mem_cons_of_mem _ hr
        · exact hr

/-- C12: every attendee that `parseEventAttendees` returns has a non-empty field
among email, name, role, status and type; a matched block from which an email is
extracted is kept; the block `ATTENDEE:mailto:a@b.c` gives the attendee with
that email and nothing else, and the block `ATTENDEE:nobody`, which has no
sub-field, gives no attendee. -/
theorem C12_attendees_have_a_field (eventData : Str) :
    (∀ a ∈ parseEventAttendees eventData,
      a.email ≠ [] ∨ a.name ≠ [] ∨ a.role ≠ [] ∨ a.status ≠ [] ∨ a.type_ ≠ []) ∧
    (∀ d ∈ (rePerson "ATTENDEE".toList).findAllString eventData (byteLen eventData),
      d ≠ [] → (parseAttendee (unfoldOnce d)).email ≠ [] →
        parseAttendee (unfoldOnce d) ∈ parseEventAttendees eventData) ∧
    parseEventAttendees "BEGIN:VEVENT\r\nATTENDEE:mailto:a@b.c\r\nEND:VEVENT\r\n".toList =
      [{ email := "a@b.c".toList }] ∧
    parseEventAttendees "BEGIN:VEVENT\r\nATTENDEE:nobody\r\nEND:VEVENT\r\n".toList = [] :=
  ⟨fun a h => collectAttendees_field _ a h, fun d h hne he => collectAttendees_keeps _ d h hne he,
    by decide, by decide⟩

/-- C13: the block `ATTENDEE;CN=A;ROLE=CHAIR:mailto:a@b.c` yields
the empty role, not `CHAIR`: the expressions `ROLE=.*?;`, `PARTSTAT=.*?;` and
`CUTYPE=.*?;` want a semicolon after the value, so a parameter that is the last
one before the colon is not extracted. The same parameters followed by a
semicolon are. -/
theorem C13_final_parameter_not_extracted :
    parseAttendee (unfoldOnce "ATTENDEE;CN=A;ROLE=CHAIR:mailto:a@b.c\r\n".toList) =
      { email := "a@b.c".toList, name := "A".toList } ∧
    parseAttendeeRole (unfoldOnce "ATTENDEE;CN=A;ROLE=CHAIR:mailto:a@b.c\r\n".toList) = [] ∧
    parseAttendeeStatus (unfoldOnce "ATTENDEE;CN=A;PARTSTAT=ACCEPTED:mailto:a@b.c\r\n".toList) = [] ∧
    parseAttendeeType (unfoldOnce "ATTENDEE;CN=A;CUTYPE=INDIVIDUAL:mailto:a@b.c\r\n".toList) = [] ∧
    parseAttendee (unfoldOnce
        "ATTENDEE;ROLE=CHAIR;PARTSTAT=ACCEPTED;CUTYPE=INDIVIDUAL;CN=A:mailto:a@b.c\r\n".toList) =
      { email := "a@b.c".toList, role := "CHAIR".toList, status := "ACCEPTED".toList,
        type_ := "INDIVIDUAL".toList } := by
  decide

/-! ## The single-line extractors -/

/-- C14: a line whose key ends with the field name is taken as the field, and so
is a value that contains the field name: with the line
`X-MICROSOFT-CDO-BUSYSTATUS:BUSY` in front of `STATUS:CONFIRMED`,
`parseEventStatus` returns `BUSY`; with `SUMMARY:see LOCATION:below` in front of
`LOCATION:Room 1`, `parseEventLocation` returns `below`; likewise `X-GUID:77` is
taken for `UID` and `X-CALENDARSERVER-ACCESS-CLASS:abc` for `CLASS`. Without such
a line the value of the field is returned, and the empty text when no line has
the key. -/
theorem C14_key_suffix_taken_as_field :
    parseEventStatus
        "BEGIN:VEVENT\r\nX-MICROSOFT-CDO-BUSYSTATUS:BUSY\r\nSTATUS:CONFIRMED\r\nEND:VEVENT\r\n".toList =
      "BUSY".toList ∧
    parseEventLocation
        "BEGIN:VEVENT\r\nSUMMARY:see LOCATION:below\r\nLOCATION:Room 1\r\nEND:VEVENT\r\n".toList =
      "below".toList ∧
    parseEventId "BEGIN:VEVENT\r\nX-GUID:77\r\nUID:1\r\nEND:VEVENT\r\n".toList = "77".toList ∧
    parseEventClass
        "BEGIN:VEVENT\r\nX-CALENDARSERVER-ACCESS-CLASS:abc\r\nCLASS:PUBLIC\r\nEND:VEVENT\r\n".toList =
      "abc".toList ∧
    parseEventStatus "BEGIN:VEVENT\r\nSTATUS:CONFIRMED\r\nEND:VEVENT\r\n".toList =
      "CONFIRMED".toList ∧
    parseEventStatus "BEGIN:VEVENT\r\nUID:1\r\nEND:VEVENT\r\n".toList = [] := by
  decide

/-! ## The bulk accessors -/

/-- C15: `GetCalendars` and `GetErrors` return the error with a nil list exactly
when `statusCalendars` is not zero, and otherwise the accumulated list with no
error; on the parser that `New` returns `Done` is true and both accessors return
the empty list with no error. -/
theorem C15_bulk_accessors (p : Parser) :
    (p.GetCalendars = if p.statusCalendars ≠ 0 then (none, some Err.notParsed)
      else (some p.parsedCalendars, none)) ∧
    (p.GetErrors = if p.statusCalendars ≠ 0 then (none, some Err.notParsed)
      else (some p.errorsOccured, none)) ∧
    (p.GetCalendars.2 ≠ none ↔ p.statusCalendars ≠ 0) ∧
    (p.GetErrors.2 ≠ none ↔ p.statusCalendars ≠ 0) ∧
    Parser.new.Done = true ∧ Parser.new.GetCalendars = (some [], none) ∧
    Parser.new.GetErrors = (some [], none) := by
  refine ⟨?_, ?_, ?_, ?_, rfl, rfl, rfl⟩
  · by_cases h : p.statusCalendars = 0 <;> simp [Parser.GetCalendars, Parser.Done, h]
  · by_cases h : p.statusCalendars = 0 <;> simp [Parser.GetErrors, Parser.Done, h]
  · by_cases h : p.statusCalendars = 0 <;> simp [Parser.GetCalendars, Parser.Done, h]
  · by_cases h : p.statusCalendars = 0 <;> simp [Parser.GetErrors, Parser.Done, h]

/-! ## The in-flight counter -/

/-- What a worker that returns has done to the parser: the counter is one less;
on a retrieval error one error more; otherwise one calendar more, and one error
more when the zone of the calendar does not load. -/
theorem worker_spec (w : World) (env : Env) (fuel : Nat) (p p1 : Parser) (link : Str)
    (h : worker w env fuel p link = .ok p1) :
    p1.statusCalendars = p.statusCalendars - 1 ∧
    p1.parsedCalendars.length =
      p.parsedCalendars.length + (if retrievalFails w link then 0 else 1) ∧
    p1.errorsOccured.length =
      p.errorsOccured.length + (if retrievalFails w link then 1 else 0) +
        (if zoneFails w env link then 1 else 0) := by
  unfold worker at h
  unfold retrievalFails zoneFails
  cases hg : getICal w link with
  | error err =>
    rw [hg] at h
    simp only [Except.ok.injEq] at h
    subst h
    simp
  | ok content =>
    rw [hg] at h
    simp only [] at h
    unfold parseICalContent parseICalTimezone at h
    cases hz : timeLoadLocation env (calendarZoneName (explodeICal content).2.1) with
    | some loc =>
      simp only [hz] at h
      split at h
      · simp at h
      · rename_i p2 hp
        simp only [Except.ok.injEq] at h
        subst h
        split at hp
        · simp at hp
        · simp only [Except.ok.injEq] at hp
          subst hp
          simp [hz]
    | none =>
      simp only [hz] at h
      split at h
      · simp at h
      · rename_i p2 hp
        simp only [Except.ok.injEq] at h
        subst h
        split at hp
        · simp at hp
        · simp only [Except.ok.injEq] at hp
          subst hp
          simp [hz]

theorem countIf_append (f : Str → Bool) (l : List Str) (x : Str) :
    countIf f (l ++ [x]) = countIf f l + (if f x then 1 else 0) := by
  unfold countIf
  by_cases h : f x = true <;> simp [List.filter_append, List.filter_cons, h]

theorem countIf_cons (f : Str → Bool) (l : List Str) (x : Str) :
    countIf f (x :: l) = countIf f l + (if f x then 1 else 0) := by
  unfold countIf
  by_cases h : f x = true <;> simp [List.filter_cons, h]

theorem countIf_eraseIdx (f : Str → Bool) : ∀ (l : List Str) (i : Nat) (x : Str),
    l.get? i = some x →
      countIf f (l.eraseIdx i) + (if f x then 1 else 0) = countIf f l ∧
        (l.eraseIdx i).length + 1 = l.length := by
  intro l
  induction l with
  | nil => intro i x h; simp at h
  | cons y t ih =>
    intro i x h
    cases i with
    | zero =>
      simp only [List.get?_cons_zero, Option.some.injEq] at h
      subst h
      simp only [List.eraseIdx_cons_zero, countIf_cons, List.length_cons, and_self]
    | succ i =>
      simp only [List.get?_cons_succ] at h
      obtain ⟨h1, h2⟩ := ih i x h
      simp only [List.eraseIdx_cons_succ, countIf_cons, List.length_cons]
      constructor <;> omega

/-- What one action does to a session. -/
theorem step_spec (w : World) (env : Env) (fuel : Nat) (s s1 : Session) (a : Action)
    (h : s.step w env fuel a = some s1) :
    s1.parser.statusCalendars - s1.running.length = s.parser.statusCalendars - s.running.length ∧
    (s1.running.length : Int) + (finished [a] : Nat) = s.running.length + (accepted [a]).length ∧
    s1.parser.parsedCalendars.length + countIf (fun l => !retrievalFails w l) s1.running =
      s.parser.parsedCalendars.length + countIf (fun l => !retrievalFails w l) s.running +
        countIf (fun l => !retrievalFails w l) (accepted [a]) ∧
    s1.parser.errorsOccured.length + countIf (retrievalFails w) s1.running +
        countIf (zoneFails w env) s1.running =
      s.parser.errorsOccured.length + countIf (retrievalFails w) s.running +
        countIf (zoneFails w env) s.running + countIf (retrievalFails w) (accepted [a]) +
        countIf (zoneFails w env) (accepted [a]) := by
  cases a with
  | accept link =>
    simp only [Session.step, Option.some.injEq] at h
    subst h
    simp only [Session.accept, countIf_append, List.length_append, List.length_singleton,
      accepted, finished, countIf_cons]
    simp only [countIf, List.filter_nil, List.length_nil]
    refine ⟨?_, ?_, ?_, ?_⟩
    · push_cast; omega
    · push_cast; omega
    · omega
    · omega
  | finish i =>
    simp only [Session.step] at h
    cases hl : s.running.get? i with
    | none => rw [hl] at h; simp at h
    | some link =>
      rw [hl] at h
      simp only [] at h
      cases hw : worker w env fuel s.parser link with
      | error f => rw [hw] at h; simp at h
      | ok p1 =>
        rw [hw] at h
        simp only [Option.some.injEq] at h
        subst h
        obtain ⟨w1, w2, w3⟩ := worker_spec w env fuel s.parser p1 link hw
        obtain ⟨e1, el⟩ := countIf_eraseIdx (fun l => !retrievalFails w l) s.running i link hl
        obtain ⟨e2, _⟩ := countIf_eraseIdx (retrievalFails w) s.running i link hl
        obtain ⟨e3, _⟩ := countIf_eraseIdx (zoneFails w env) s.running i link hl
        simp only [accepted, finished, countIf, List.filter_nil, List.length_nil] at *
        refine ⟨?_, ?_, ?_, ?_⟩
        · rw [w1]
          have : ((s.running.eraseIdx i).length : Int) + 1 = s.running.length := by
            exact_mod_cast el
          omega
        · have : ((s.running.eraseIdx i).length : Int) + 1 = s.running.length := by
            exact_mod_cast el
          push_cast; omega
        · rw [w2]
          by_cases hr : retrievalFails w link = true
          · simp only [hr, Bool.not_true, Bool.false_eq_true, if_false, if_true] at e1 ⊢
            omega
          · simp only [Bool.not_eq_true] at hr
            simp only [hr, Bool.not_false, Bool.false_eq_true, if_false, if_true] at e1 ⊢
            omega
        · rw [w3]
          omega

theorem accepted_cons (a : Action) (rest : List Action) :
    accepted (a :: rest) = accepted [a] ++ accepted rest := by
  cases a <;> simp [accepted]

theorem finished_cons (a : Action) (rest : List Action) :
    finished (a :: rest) = finished [a] + finished rest := by
  cases a <;> simp [finished, Nat.add_comm]

theorem countIf_app (f : Str → Bool) (l1 l2 : List Str) :
    countIf f (l1 ++ l2) = countIf f l1 + countIf f l2 := by
  simp [countIf, List.filter_append]

theorem countIf_not (f : Str → Bool) (l : List Str) :
    countIf (fun x => !f x) l + countIf f l = l.length := by
  induction l with
  | nil => simp [countIf]
  | cons x t ih =>
    rw [countIf_cons, countIf_cons, List.length_cons]
    by_cases h : f x = true
    · simp only [h, Bool.not_true, Bool.false_eq_true, if_false, if_true]; omega
    · simp only [Bool.not_eq_true] at h
      simp only [h, Bool.not_false, Bool.false_eq_true, if_false, if_true]; omega

/-- What a run of actions does to a session: the counter moves with the number
of running workers; every accepted source is running or has left a calendar or a
retrieval error, and every calendar whose zone does not load has left an error
more. -/
theorem run_spec (w : World) (env : Env) (fuel : Nat) : ∀ (acts : List Action) (s0 s : Session),
    Session.run w env fuel s0 acts = some s →
      s.parser.statusCalendars - s.running.length =
        s0.parser.statusCalendars - s0.running.length ∧
      (s.running.length : Int) + (finished acts : Nat) =
        s0.running.length + (accepted acts).length ∧
      s.parser.parsedCalendars.length + countIf (fun l => !retrievalFails w l) s.running =
        s0.parser.parsedCalendars.length + countIf (fun l => !retrievalFails w l) s0.running +
          countIf (fun l => !retrievalFails w l) (accepted acts) ∧
      s.parser.errorsOccured.length + countIf (retrievalFails w) s.running +
          countIf (zoneFails w env) s.running =
        s0.parser.errorsOccured.length + countIf (retrievalFails w) s0.running +
          countIf (zoneFails w env) s0.running + countIf (retrievalFails w) (accepted acts) +
          countIf (zoneFails w env) (accepted acts) := by
  intro acts
  induction acts with
  | nil =>
    intro s0 s h
    simp only [Session.run, Option.some.injEq] at h
    subst h
    simp [accepted, finished, countIf]
  | cons a rest ih =>
    intro s0 s h
    simp only [Session.run] at h
    cases hs : s0.step w env fuel a with
    | none => rw [hs] at h; simp at h
    | some s1 =>
      rw [hs] at h
      simp only [] at h
      obtain ⟨a1, a2, a3, a4⟩ := step_spec w env fuel s0 s1 a hs
      obtain ⟨b1, b2, b3, b4⟩ := ih s1 s h
      rw [accepted_cons, finished_cons]
      simp only [countIf_app, List.length_append]
      refine ⟨?_, ?_, ?_, ?_⟩
      · omega
      · push_cast at a2 b2 ⊢; omega
      · omega
      · omega

/-- C16: in every state reached from the new parser by accepting sources and
finishing workers, `statusCalendars` is not negative, it is the number of
accepted sources whose worker has not finished, and it is the number of accepted
sources less the number of finished workers; accepting a source adds one to it,
and a worker that returns takes exactly one from it, on the retrieval-failure
path and on the parsed path alike. -/
theorem C16_counter_counts_running (w : World) (env : Env) (fuel : Nat) (acts : List Action)
    (s : Session) (h : Session.run w env fuel { parser := Parser.new } acts = some s) :
    0 ≤ s.parser.statusCalendars ∧
    s.parser.statusCalendars = s.running.length ∧
    s.parser.statusCalendars = ((accepted acts).length : Int) - (finished acts : Nat) ∧
    (∀ (t : Session) (link : Str),
      (t.accept link).parser.statusCalendars = t.parser.statusCalendars + 1) ∧
    (∀ (p p1 : Parser) (link : Str), worker w env fuel p link = .ok p1 →
      p1.statusCalendars = p.statusCalendars - 1) := by
  obtain ⟨h1, h2, _, _⟩ := run_spec w env fuel acts _ s h
  simp only [Parser.new, List.length_nil, Nat.cast_zero, sub_zero, zero_add] at h1 h2
  refine ⟨by omega, by omega, by omega, fun t link => rfl, fun p p1 link hw => ?_⟩
  exact (worker_spec w env fuel p p1 link hw).1

/-- C16 at a concrete run: three sources are accepted, the worker of the missing
one and the worker of another one finish; one worker is left. -/
theorem C16_counter_counts_running_witness :
    ∃ s, Session.run demoWorld bareEnv 10 { parser := Parser.new } demoActions = some s ∧
      0 ≤ s.parser.statusCalendars ∧ s.parser.statusCalendars = s.running.length ∧
      s.parser.statusCalendars = 1 := by
  have hsome : (Session.run demoWorld bareEnv 10 { parser := Parser.new } demoActions).isSome = true := by decide
  obtain ⟨s, hs⟩ := Option.isSome_iff_exists.mp hsome
  have h := C16_counter_counts_running demoWorld bareEnv 10 demoActions s hs
  refine ⟨s, hs, h.1, h.2.1, ?_⟩
  rw [h.2.2.1]
  decide

/-! ## The lists of a drained session -/

theorem errorAppends_map (errs : List Err) (events : List Event) :
    errorAppends (errs.map Effect.appendError ++ [Effect.send events]) = errs.length ∧
      calendarAppends (errs.map Effect.appendError ++ [Effect.send events]) = 0 := by
  induction errs with
  | nil => exact ⟨rfl, rfl⟩
  | cons e t ih =>
    simp only [List.map_cons, List.cons_append, errorAppends, calendarAppends, List.length_cons,
      List.append_eq]
    exact ⟨by rw [ih.1], ih.2⟩

/-- What the worker of a source appends: one calendar unless the retrieval fails,
one error when the retrieval fails, and one error when the zone of the calendar
does not load. -/
theorem effects_counts (w : World) (env : Env) (fuel : Nat) (link : Str) (todo : List Effect)
    (h : effects w env fuel link = some todo) :
    calendarAppends todo = (if retrievalFails w link then 0 else 1) ∧
    errorAppends todo =
      (if retrievalFails w link then 1 else 0) + (if zoneFails w env link then 1 else 0) := by
  unfold effects at h
  unfold retrievalFails zoneFails
  cases hg : getICal w link with
  | error err =>
    rw [hg] at h
    simp only [Option.some.injEq] at h
    subst h
    simp [calendarAppends, errorAppends]
  | ok content =>
    rw [hg] at h
    simp only [] at h
    split at h
    · simp at h
    · rename_i k hk
      simp only [Option.some.injEq] at h
      subst h
      obtain ⟨m1, m2⟩ :=
        errorAppends_map (parseICalTimezone env {} (explodeICal content).2.1).2.errorsOccured
          k.buffered
      simp only [calendarAppends, errorAppends, m1, m2, Bool.false_eq_true, if_false, zero_add]
      refine ⟨trivial, ?_⟩
      unfold parseICalTimezone
      by_cases hn : timeLoadLocation env (calendarZoneName (explodeICal content).2.1) = none
      · simp [hn]
      · obtain ⟨loc, hl⟩ := Option.ne_none_iff_exists'.mp hn
        simp [hl]

/-- What one step of the only running worker does, when what it has read is what
the parser holds: the parser and the worker after the step are again so, and an
append that is written makes the list one longer. -/
theorem task_step_spec (p : Parser) (t : Task)
    (he : ∀ errs, t.readErrors = some errs → errs = p.errorsOccured)
    (hc : ∀ cals, t.readCalendars = some cals → cals = p.parsedCalendars) :
    (match (t.step p).2 with
      | none =>
        t.todo = [] ∧ (t.step p).1.statusCalendars = p.statusCalendars - 1 ∧
          (t.step p).1.parsedCalendars = p.parsedCalendars ∧
          (t.step p).1.errorsOccured = p.errorsOccured
      | some t1 =>
        (t.step p).1.statusCalendars = p.statusCalendars ∧
          (∀ errs, t1.readErrors = some errs → errs = (t.step p).1.errorsOccured) ∧
          (∀ cals, t1.readCalendars = some cals → cals = (t.step p).1.parsedCalendars) ∧
          (t.step p).1.parsedCalendars.length + calendarAppends t1.todo =
            p.parsedCalendars.length + calendarAppends t.todo ∧
          (t.step p).1.errorsOccured.length + errorAppends t1.todo =
            p.errorsOccured.length + errorAppends t.todo) := by
  obtain ⟨link, todo, re, rc⟩ := t
  simp only [] at he hc
  cases todo with
  | nil => simp [Task.step]
  | cons eff rest =>
    cases eff with
    | appendError err =>
      cases re with
      | none =>
        simp only [Task.step, errorAppends, calendarAppends]
        refine ⟨?_, ?_, ?_, ?_, ?_⟩
        all_goals first
          | trivial
          | (intro x h; simp only [Option.some.injEq] at h; exact h.symm)
      | some errs0 =>
        have h0 := he errs0 rfl
        subst h0
        simp only [Task.step, errorAppends, calendarAppends, List.length_append,
          List.length_singleton]
        refine ⟨?_, ?_, ?_, ?_, ?_⟩
        all_goals first
          | trivial | omega
          | (intro x h; simp at h)
    | appendCalendar ical =>
      cases rc with
      | none =>
        simp only [Task.step, errorAppends, calendarAppends]
        refine ⟨?_, ?_, ?_, ?_, ?_⟩
        all_goals first
          | trivial
          | (intro x h; simp only [Option.some.injEq] at h; exact h.symm)
      | some cals0 =>
        have h0 := hc cals0 rfl
        subst h0
        simp only [Task.step, errorAppends, calendarAppends, List.length_append,
          List.length_singleton]
        refine ⟨?_, ?_, ?_, ?_, ?_⟩
        all_goals first
          | trivial | omega
          | (intro x h; simp at h)
    | send events =>
      simp only [Task.step, errorAppends, calendarAppends]
      refine ⟨?_, ?_, ?_, ?_, ?_⟩
      all_goals trivial

/-- What one move does to a session that is settled, when a source is accepted
only while no worker runs. -/
theorem move_spec (w : World) (env : Env) (fuel : Nat) (s s1 : Pool) (m : Move)
    (h : s.move w env fuel m = some s1) (hs : s.Settled)
    (ha : ∀ link, m = .accept link → s.tasks = []) :
    s1.Settled ∧
    s1.parser.statusCalendars - s1.tasks.length = s.parser.statusCalendars - s.tasks.length ∧
    s1.parser.parsedCalendars.length + pendingCalendars s1.tasks =
      s.parser.parsedCalendars.length + pendingCalendars s.tasks +
        countIf (fun l => !retrievalFails w l) (submitted [m]) ∧
    s1.parser.errorsOccured.length + pendingErrors s1.tasks =
      s.parser.errorsOccured.length + pendingErrors s.tasks +
        countIf (retrievalFails w) (submitted [m]) + countIf (zoneFails w env) (submitted [m]) := by
  cases m with
  | accept link =>
    have ht := ha link rfl
    simp only [Pool.move] at h
    cases he : effects w env fuel link with
    | none => rw [he] at h; simp at h
    | some todo =>
      rw [he] at h
      simp only [Option.some.injEq] at h
      subst h
      obtain ⟨c1, c2⟩ := effects_counts w env fuel link todo he
      simp only [ht, List.nil_append, pendingCalendars, pendingErrors, List.map_cons, List.map_nil,
        List.sum_cons, List.sum_nil, add_zero, submitted, countIf_cons, List.length_cons,
        List.length_nil, c1, c2]
      simp only [countIf, List.filter_nil, List.length_nil, zero_add]
      refine ⟨Or.inr ⟨_, rfl, fun _ h => by simp at h, fun _ h => by simp at h⟩, ?_, ?_, ?_⟩
      · push_cast; omega
      · by_cases hr : retrievalFails w link = true
        · simp [hr]
        · simp only [Bool.not_eq_true] at hr
          simp [hr]
      · omega
  | step i =>
    simp only [Pool.move] at h
    rcases hs with hs | ⟨t, hs, he, hc⟩
    · rw [hs] at h
      simp at h
    · rw [hs] at h
      cases i with
      | succ j => simp at h
      | zero =>
        simp only [List.get?_cons_zero] at h
        have hsp := task_step_spec s.parser t he hc
        cases hst : t.step s.parser with
        | mk p ot =>
          rw [hst] at h hsp
          simp only [] at hsp
          cases ot with
          | none =>
            simp only [List.eraseIdx_cons_zero, Option.some.injEq] at h
            subst h
            obtain ⟨h1, h2, h3, h4⟩ := hsp
            simp only [hs, h1, h2, h3, h4, pendingCalendars, pendingErrors, List.map_cons,
              List.map_nil, List.sum_cons, List.sum_nil, calendarAppends, errorAppends, submitted,
              countIf, List.filter_nil, List.length_nil, List.length_cons, add_zero]
            refine ⟨Or.inl rfl, ?_, trivial, trivial⟩
            push_cast; omega
          | some t1 =>
            simp only [List.set_cons_zero, Option.some.injEq] at h
            subst h
            obtain ⟨h1, h2, h3, h4, h5⟩ := hsp
            simp only [hs, h1, pendingCalendars, pendingErrors, List.map_cons,
              List.map_nil, List.sum_cons, List.sum_nil, submitted,
              countIf, List.filter_nil, List.length_nil, List.length_cons, add_zero]
            exact ⟨Or.inr ⟨t1, rfl, h2, h3⟩, trivial, h4, h5⟩

theorem submitted_cons (m : Move) (rest : List Move) :
    submitted (m :: rest) = submitted [m] ++ submitted rest := by
  cases m <;> simp [submitted]

/-- What a run of moves in which the workers run one at a time does to a settled
session. -/
theorem pool_run_spec (w : World) (env : Env) (fuel : Nat) :
    ∀ (moves : List Move) (s0 s : Pool), Pool.run w env fuel s0 moves = some s →
      Pool.oneAtATime w env fuel s0 moves = true → s0.Settled →
      s.Settled ∧
      s.parser.statusCalendars - s.tasks.length = s0.parser.statusCalendars - s0.tasks.length ∧
      s.parser.parsedCalendars.length + pendingCalendars s.tasks =
        s0.parser.parsedCalendars.length + pendingCalendars s0.tasks +
          countIf (fun l => !retrievalFails w l) (submitted moves) ∧
      s.parser.errorsOccured.length + pendingErrors s.tasks =
        s0.parser.errorsOccured.length + pendingErrors s0.tasks +
          countIf (retrievalFails w) (submitted moves) +
          countIf (zoneFails w env) (submitted moves) := by
  intro moves
  induction moves with
  | nil =>
    intro s0 s h _ hs
    simp only [Pool.run, Option.some.injEq] at h
    subst h
    simp [submitted, countIf, hs]
  | cons m rest ih =>
    intro s0 s h hseq hs
    simp only [Pool.run] at h
    simp only [Pool.oneAtATime, Bool.and_eq_true] at hseq
    cases hm : s0.move w env fuel m with
    | none => rw [hm] at h; simp at h
    | some s1 =>
      rw [hm] at h
      simp only [] at h
      have hseq2 : Pool.oneAtATime w env fuel s1 rest = true := by
        have := hseq.2
        rw [hm] at this
        exact this
      have ha : ∀ link, m = .accept link → s0.tasks = [] := by
        intro link hl
        have := hseq.1
        rw [hl] at this
        simpa using this
      obtain ⟨a1, a2, a3, a4⟩ := move_spec w env fuel s0 s1 m hm hs ha
      obtain ⟨b1, b2, b3, b4⟩ := ih s1 s h hseq2 a1
      rw [submitted_cons]
      simp only [countIf_app]
      exact ⟨b1, by omega, by omega, by omega⟩

/-- C17, amended: in a session in which the workers run one at a time (a source
is submitted only when no worker is running), when all workers have finished,
the counter is zero, the calendars are as many as the sources less those whose
retrieval failed, and the errors are as many as the sources whose retrieval
failed and the retrieved sources whose calendar zone does not load together.
Each append of a worker is a read and a later write of the list, as in the
source, where the appends are not under the mutex. -/
theorem C17_drained_counts (w : World) (env : Env) (fuel : Nat) (moves : List Move)
    (s : Pool) (h : Pool.run w env fuel { parser := Parser.new } moves = some s)
    (hseq : Pool.oneAtATime w env fuel { parser := Parser.new } moves = true)
    (hd : s.tasks = []) :
    s.parser.statusCalendars = 0 ∧
    s.parser.parsedCalendars.length =
      (submitted moves).length - countIf (retrievalFails w) (submitted moves) ∧
    s.parser.errorsOccured.length =
      countIf (retrievalFails w) (submitted moves) +
        countIf (zoneFails w env) (submitted moves) := by
  obtain ⟨_, h1, h3, h4⟩ := pool_run_spec w env fuel moves _ s h hseq (Or.inl rfl)
  have hn := countIf_not (retrievalFails w) (submitted moves)
  simp only [Parser.new, hd, pendingCalendars, pendingErrors, List.map_nil, List.sum_nil,
    List.length_nil, Nat.cast_zero, sub_zero, zero_add, add_zero] at h1 h3 h4 hn ⊢
  refine ⟨h1, ?_, h4⟩
  omega

/-- C17, counterexample. One source is submitted and its retrieval does not fail
(n = 1, k = 0); its calendar names a zone that does not load. After the worker
has finished the counter is zero and there is one calendar, but one error is
recorded, not none. And two sources are submitted whose retrievals do not fail
(n = 2, k = 0) and whose workers overlap: both read the calendars before either
writes its append, and after both have finished there is one calendar, not
two. -/
theorem C17_counterexample :
    (Pool.run demoWorld bareEnv 10 { parser := Parser.new } zoneMoves).map
      (fun s => (s.tasks.length, s.parser.statusCalendars, s.parser.parsedCalendars.length,
        s.parser.errorsOccured)) =
      some (0, 0, 1, [Err.unknownZone "Nowhere/Zone".toList]) ∧
    retrievalFails demoWorld "tz.ics".toList = false ∧
    (Pool.run demoWorld bareEnv 10 { parser := Parser.new } overlapMoves).map
      (fun s => (s.tasks.length, s.parser.statusCalendars, s.parser.parsedCalendars.length,
        s.parser.errorsOccured)) =
      some (0, 0, 1, []) ∧
    submitted overlapMoves = ["a.ics".toList, "a.ics".toList] ∧
    retrievalFails demoWorld "a.ics".toList = false := by
  decide

/-- C17 at the instance of the spec: of three sources, submitted one after the
other, one fails retrieval; after all workers have finished there are two
calendars and one error, and the counter is zero. -/
theorem C17_drained_counts_witness :
    ∃ s, Pool.run demoWorld bareEnv 10 { parser := Parser.new } queueMoves = some s ∧
      s.tasks = [] ∧ s.parser.statusCalendars = 0 ∧ s.parser.parsedCalendars.length = 2 ∧
      s.parser.errorsOccured.length = 1 := by
  have hrun : (Pool.run demoWorld bareEnv 10 { parser := Parser.new } queueMoves).map
      (fun s => s.tasks.length) = some 0 := by decide
  obtain ⟨s, hs, hl⟩ := Option.map_eq_some.mp hrun
  have hd : s.tasks = [] := List.length_eq_zero.mp hl
  have h := C17_drained_counts demoWorld bareEnv 10 queueMoves s hs (by decide) hd
  refine ⟨s, hs, hd, h.1, ?_, ?_⟩
  · rw [h.2.1]; decide
  · rw [h.2.2]; decide

/-! ## The order of the occurrences -/

/-- C18: the rule `FREQ=DAILY;BYDAY=MO,WE;COUNT=3` on a master that starts on
Monday 2024-01-01 appends the occurrences of 3 January, 3 January and 8 January:
the same date twice. With `COUNT=5` the expansion appends 3, 3, 8, 3 and 8
January: the third 3 January comes after 8 January. Each pass scans the seven
days from its stepped date, and with a daily step the scans overlap. -/
theorem C18_same_date_appended_twice :
    mondayStarts "FREQ=DAILY;BYDAY=MO,WE;COUNT=3".toList =
      some [goDate 2024 1 3 9 0 0, goDate 2024 1 3 9 0 0, goDate 2024 1 8 9 0 0] ∧
    mondayStarts "FREQ=DAILY;BYDAY=MO,WE;COUNT=5".toList =
      some [goDate 2024 1 3 9 0 0, goDate 2024 1 3 9 0 0, goDate 2024 1 8 9 0 0,
        goDate 2024 1 3 9 0 0, goDate 2024 1 8 9 0 0] ∧
    goDate 2024 1 3 9 0 0 < goDate 2024 1 8 9 0 0 := by
  decide

/-! ## Formatting an instant and parsing it back -/

theorem isDigit_digitChar (a : Nat) (h : a < 10) : isDigit (digitChar a) = true := by
  interval_cases a <;> decide

theorem digitVal_digitChar (a : Nat) (h : a < 10) : digitVal (digitChar a) = (a : Int) := by
  interval_cases a <;> decide

theorem digitChar_ne_Z (a : Nat) : ¬ 'Z' = digitChar a := by
  unfold digitChar
  split <;> decide

theorem getnum_padDec (n : Nat) (h : n < 100) (rest : Str) (fixed : Bool) :
    getnum (padDec 2 n ++ rest) fixed = some ((n : Int), rest) := by
  rw [padDec_two n h]
  have h1 : n / 10 < 10 := by omega
  have h2 : n % 10 < 10 := Nat.mod_lt _ (by decide)
  simp only [List.cons_append, List.nil_append, getnum, isDigit_digitChar _ h1,
    isDigit_digitChar _ h2, digitVal_digitChar _ h1, digitVal_digitChar _ h2, if_true]
  congr 2
  omega

/-- The layout `20060102T150405Z` reads the fields back from their compact text. -/
theorem parseChunks_compact (y m d h mi s : Nat) (hy : y < 10000) (hm : 1 ≤ m ∧ m ≤ 12)
    (hd : d < 100) (hh : h < 24) (hmi : mi < 60) (hs : s < 60) :
    parseChunks IcsFormat
        (padDec 4 y ++ (padDec 2 m ++ (padDec 2 d ++ 'T' ::
          (padDec 2 h ++ (padDec 2 mi ++ (padDec 2 s ++ ['Z'])))))) {} =
      some { year := y, month := m, day := d, hour := h, min := mi, sec := s } := by
  rw [padDec_four y hy]
  have y1 : y / 1000 < 10 := by omega
  have y2 : y / 100 % 10 < 10 := Nat.mod_lt _ (by decide)
  have y3 : y / 10 % 10 < 10 := Nat.mod_lt _ (by decide)
  have y4 : y % 10 < 10 := Nat.mod_lt _ (by decide)
  have ey : ((y / 1000 : Nat) : Int) * 1000 + ((y / 100 % 10 : Nat) : Int) * 100 +
      ((y / 10 % 10 : Nat) : Int) * 10 + ((y % 10 : Nat) : Int) = (y : Int) := by omega
  have cm : ¬ ((m : Int) ≤ 0 ∨ 12 < (m : Int)) := by omega
  have ch : ¬ ((h : Int) < 0 ∨ 24 ≤ (h : Int)) := by omega
  have cmi : ¬ ((mi : Int) < 0 ∨ 60 ≤ (mi : Int)) := by omega
  have cs : ¬ ((s : Int) < 0 ∨ 60 ≤ (s : Int)) := by omega
  simp only [IcsFormat, List.cons_append, List.nil_append, parseChunks, isDigit_digitChar _ y1,
    isDigit_digitChar _ y2, isDigit_digitChar _ y3, isDigit_digitChar _ y4,
    digitVal_digitChar _ y1, digitVal_digitChar _ y2, digitVal_digitChar _ y3,
    digitVal_digitChar _ y4, Bool.and_self, if_true, ey,
    getnum_padDec m (by omega), getnum_padDec d hd, getnum_padDec h (by omega),
    getnum_padDec mi (by omega), getnum_padDec s (by omega), cm, ch, cmi, cs, if_false,
    skipFraction]

theorem day_le_daysIn (t : Time) : t.day ≤ daysIn t.month t.year := by
  have h := month_spec t
  unfold Time.day daysIn
  omega

theorem formatCompact_eq (t : Time) (hy : 0 ≤ t.year) :
    t.formatCompact ++ ['Z'] =
      padDec 4 t.year.toNat ++ (padDec 2 t.month.toNat ++ (padDec 2 t.day.toNat ++ 'T' ::
        (padDec 2 t.hour.toNat ++ (padDec 2 t.minute.toNat ++ (padDec 2 t.second.toNat ++ ['Z']))))) := by
  unfold Time.formatCompact fmtYear
  rw [if_neg (not_lt.mpr hy)]
  simp only [List.append_assoc, List.cons_append]

/-- An instant of the years 0 to 9999 is read back from its compact text by the
layout `20060102T150405Z`. -/
theorem timeParse_formatCompact (t : Time) (hy : 0 ≤ t.year ∧ t.year ≤ 9999) :
    timeParse IcsFormat (t.formatCompact ++ ['Z']) = t := by
  have hm := month_range t
  have hd := day_range t
  have hc := clock_range t
  have hdi := day_le_daysIn t
  have ey : ((t.year.toNat : Nat) : Int) = t.year := Int.toNat_of_nonneg hy.1
  have em : ((t.month.toNat : Nat) : Int) = t.month := Int.toNat_of_nonneg (by omega)
  have ed : ((t.day.toNat : Nat) : Int) = t.day := Int.toNat_of_nonneg (by omega)
  have eh : ((t.hour.toNat : Nat) : Int) = t.hour := Int.toNat_of_nonneg hc.1
  have emi : ((t.minute.toNat : Nat) : Int) = t.minute := Int.toNat_of_nonneg hc.2.2.1
  have es : ((t.second.toNat : Nat) : Int) = t.second := Int.toNat_of_nonneg hc.2.2.2.2.1
  have hp := parseChunks_compact t.year.toNat t.month.toNat t.day.toNat t.hour.toNat
    t.minute.toNat t.second.toNat (by omega) (by omega) (by omega) (by omega) (by omega)
    (by omega)
  rw [ey, em, ed, eh, emi, es] at hp
  unfold timeParse parseFields
  rw [formatCompact_eq t hy.1, hp]
  have hday : ¬ (t.day < 1 ∨ daysIn t.month t.year < t.day) := by omega
  simp only [hday, if_false]
  exact goDate_civil t

theorem contains_formatCompact (t : Time) (hy : 0 ≤ t.year ∧ t.year ≤ 9999) :
    contains t.formatCompact ['Z'] = false := by
  have hm := month_range t
  have hd := day_range t
  have hc := clock_range t
  unfold Time.formatCompact fmtYear
  rw [if_neg (not_lt.mpr hy.1), padDec_four _ (by omega), padDec_two t.month.toNat (by omega),
    padDec_two t.day.toNat (by omega), padDec_two t.hour.toNat (by omega),
    padDec_two t.minute.toNat (by omega), padDec_two t.second.toNat (by omega)]
  simp [contains, List.isPrefixOf, digitChar_ne_Z]

/-! ## The round trip through UTC -/

/-- When the offset in force at the wall-clock value read as UTC is also in
force that offset earlier, `time.Date` subtracts it. -/
theorem dateIn_settled (loc : Location) (f : DateFields)
    (hoff : (loc.lookup (f.utc - (loc.lookup f.utc).1)).1 = (loc.lookup f.utc).1) :
    dateIn loc f = f.utc - (loc.lookup f.utc).1 := by
  unfold dateIn
  show (match loc.lookup f.utc with
    | (offset, start, stop) =>
      if offset ≠ 0 then
        if f.utc - offset < start ∨ f.utc - offset ≥ stop then
          f.utc - (loc.lookup (f.utc - offset)).1
        else f.utc - offset
      else f.utc) = f.utc - (loc.lookup f.utc).1
  revert hoff
  generalize loc.lookup f.utc = r
  obtain ⟨off, start, stop⟩ := r
  intro hoff
  simp only [] at hoff ⊢
  by_cases h0 : off = 0
  · subst h0; simp
  · rw [if_pos h0, hoff]
    split <;> rfl

/-- When the zone reports the interval of the offset of the wall-clock value
truthfully, `time.Date` subtracts the offset in force at its first guess. -/
theorem dateIn_window (loc : Location) (f : DateFields)
    (hc : ∀ u, (loc.lookup f.utc).2.1 ≤ u → u < (loc.lookup f.utc).2.2 →
      (loc.lookup u).1 = (loc.lookup f.utc).1) :
    dateIn loc f = f.utc - (loc.lookup (f.utc - (loc.lookup f.utc).1)).1 := by
  unfold dateIn
  show (match loc.lookup f.utc with
    | (offset, start, stop) =>
      if offset ≠ 0 then
        if f.utc - offset < start ∨ f.utc - offset ≥ stop then
          f.utc - (loc.lookup (f.utc - offset)).1
        else f.utc - offset
      else f.utc) = f.utc - (loc.lookup (f.utc - (loc.lookup f.utc).1)).1
  revert hc
  generalize hr : loc.lookup f.utc = r
  obtain ⟨off, start, stop⟩ := r
  intro hc
  simp only [] at hc ⊢
  by_cases h0 : off = 0
  · subst h0
    have e : f.utc - 0 = f.utc := sub_zero _
    simp only [ne_eq, not_true_eq_false, if_false, e, hr]
  · rw [if_pos h0]
    split
    · rfl
    · rename_i hin
      have hin2 : start ≤ f.utc - off ∧ f.utc - off < stop := by
        revert hin
        show ¬ (@LT.lt Int _ _ _ ∨ @GE.ge Int _ _ _) → (@LE.le Int _ _ _ ∧ @LT.lt Int _ _ _)
        intro hin
        omega
      rw [hc (f.utc - off) hin2.1 hin2.2]

/-- Around a single change of offset, a wall-clock value that exists is found by
the second guess of `time.Date`: with offsets `g` that are `p` before `T` and
`q` from `T` on throughout the window of `M` seconds on either side of `W`, the
offset `o` in force at `W - g W` is in force at `W - o`. -/
theorem window_settles (g : Int → Int) (W T p q M : Int)
    (hb : ∀ x, -M ≤ g x ∧ g x ≤ M)
    (h1 : ∀ x, W - M ≤ x → x ≤ W + M → g x = if x < T then p else q)
    (hex : ∃ u, u + g u = W) :
    g (W - g (W - g W)) = g (W - g W) := by
  obtain ⟨u, hu⟩ := hex
  have bu := hb u
  have bW := hb W
  have b1 := hb (W - g W)
  have b2 := hb (W - g (W - g W))
  have eu := h1 u (by omega) (by omega)
  have eW := h1 W (by omega) (by omega)
  have e1 := h1 (W - g W) (by omega) (by omega)
  have e2 := h1 (W - g (W - g W)) (by omega) (by omega)
  generalize g (W - g (W - g W)) = o3 at *
  generalize g (W - g W) = o2 at *
  generalize g W = o1 at *
  generalize g u = ou at *
  split at eu <;> split at eW <;> split at e1 <;> split at e2 <;> omega

/-- The timed branch of `parseTimeField`: when the field is in timed form, the
zone identifier resolves, the compact layout accepts the value and the instant
that `time.Date` builds lies in the years 0 to 9999, that instant is returned. -/
theorem parseTimeField_timed (env : Env) (fieldName eventData tzID dt : Str) (loc : Location)
    (f : DateFields)
    (hw : (reWholeDay fieldName).findString eventData = [])
    (hm : ((reTimed fieldName).find eventData).map
      (fun r => (r.group 2, trimSpace (r.group 4))) = some (tzID, dt))
    (hz : timeLoadLocation env tzID = some loc ∨
      (timeLoadLocation env tzID = none ∧ (env.wtzLoadLocation tzID).1 = some loc))
    (hf : parseFields dateTimeLayoutLocalized dt = some f)
    (hy : 0 ≤ (dateIn loc f).year ∧ (dateIn loc f).year ≤ 9999) :
    parseTimeField env fieldName eventData = some (dateIn loc f, tzID) := by
  have hloc : (match timeLoadLocation env tzID with
      | some l => some l
      | none => (env.wtzLoadLocation tzID).1) = some loc := by
    rcases hz with hz | ⟨hz1, hz2⟩
    · rw [hz]
    · rw [hz1]; exact hz2
  cases hfind : (reTimed fieldName).find eventData with
  | none => rw [hfind] at hm; simp at hm
  | some r =>
    rw [hfind] at hm
    simp only [Option.map_some', Option.some.injEq, Prod.mk.injEq] at hm
    obtain ⟨h2, h4⟩ := hm
    unfold parseTimeField
    simp only [hw, ne_eq, not_true_eq_false, if_false, hfind, h2, h4]
    have key : ∀ o : Option Location, o = some loc →
        (match parseInLocation dateTimeLayoutLocalized dt o with
          | none => none
          | some localTime =>
            some
              (timeParse IcsFormat
                  (if (!contains localTime.formatCompact ['Z']) = true then
                    localTime.formatCompact ++ ['Z']
                  else localTime.formatCompact),
                tzID)) =
          some (dateIn loc f, tzID) := by
      intro o ho
      subst ho
      simp only [parseInLocation, hf, contains_formatCompact _ hy,
        Bool.not_false, if_true, timeParse_formatCompact _ hy]
    exact key _ hloc

theorem year_le_of_le (t u : Time) (h : u ≤ t) : u.year ≤ t.year := by
  apply year_mono
  revert h
  unfold Time.dayNumber secondsPerDay
  show @LE.le Int _ _ _ → @LE.le Int _ _ _
  intro h
  omega

/-- In a zone that is regular around a wall-clock value that exists, `time.Date`
returns an instant that has that wall-clock value. The zone is regular when its
offsets are at most `M` seconds, it reports the interval of the offset found for
the value truthfully, and within `M` seconds on either side of the value it
changes its offset at most once. -/
theorem dateIn_round_trip (loc : Location) (f : DateFields) (M T p q : Int)
    (hb : ∀ x, -M ≤ (loc.lookup x).1 ∧ (loc.lookup x).1 ≤ M)
    (hc : ∀ u, (loc.lookup f.utc).2.1 ≤ u → u < (loc.lookup f.utc).2.2 →
      (loc.lookup u).1 = (loc.lookup f.utc).1)
    (h1 : ∀ x, f.utc - M ≤ x → x ≤ f.utc + M → (loc.lookup x).1 = if x < T then p else q)
    (hex : ∃ u, wallClock loc u = f.utc) :
    wallClock loc (dateIn loc f) = f.utc := by
  have hd := dateIn_window loc f hc
  have hs := window_settles (fun x => (loc.lookup x).1) f.utc T p q M hb h1 hex
  simp only [] at hs
  unfold wallClock
  rw [hd, hs]
  show @Eq Int _ _
  omega

/-- C19, amended: for an event block whose field is in timed form with a zone
identifier that resolves to a zone and a value that the compact layout accepts,
`parseTimeField` returns an instant whose wall-clock value in the zone is the
value of the field, whenever that wall-clock value exists in the zone (some
instant has it: it is not a value that a change of offset skips) and the
instants that have it lie in the years 0 to 9999. The zone is taken to be
regular around the value: its offsets are at most `M` seconds, it reports the
interval of the offset found for the value truthfully, and within `M` seconds on
either side of the value it changes its offset at most once (the offset is `p`
before `T` and `q` from `T` on). -/
theorem C19_round_trip (env : Env) (fieldName eventData tzID dt : Str) (loc : Location)
    (f : DateFields) (M T p q : Int)
    (hw : (reWholeDay fieldName).findString eventData = [])
    (hm : ((reTimed fieldName).find eventData).map
      (fun r => (r.group 2, trimSpace (r.group 4))) = some (tzID, dt))
    (hz : timeLoadLocation env tzID = some loc ∨
      (timeLoadLocation env tzID = none ∧ (env.wtzLoadLocation tzID).1 = some loc))
    (hf : parseFields dateTimeLayoutLocalized dt = some f)
    (hb : ∀ x, -M ≤ (loc.lookup x).1 ∧ (loc.lookup x).1 ≤ M)
    (hc : ∀ u, (loc.lookup f.utc).2.1 ≤ u → u < (loc.lookup f.utc).2.2 →
      (loc.lookup u).1 = (loc.lookup f.utc).1)
    (h1 : ∀ x, f.utc - M ≤ x → x ≤ f.utc + M → (loc.lookup x).1 = if x < T then p else q)
    (hex : ∃ u, wallClock loc u = f.utc)
    (hy : ∀ u, wallClock loc u = f.utc → 0 ≤ u.year ∧ u.year ≤ 9999) :
    ∃ ut, parseTimeField env fieldName eventData = some (ut, tzID) ∧ wallClock loc ut = f.utc :=
  ⟨dateIn loc f,
    parseTimeField_timed env fieldName eventData tzID dt loc f hw hm hz hf
      (hy _ (dateIn_round_trip loc f M T p q hb hc h1 hex)),
    dateIn_round_trip loc f M T p q hb hc h1 hex⟩

/-- C19, counterexample: the field `DTSTART;TZID=America/New_York:20240310T023000`
is a valid compact local timestamp and the zone identifier resolves, but the
wall-clock value 02:30 of 2024-03-10 is skipped by the change to summer time:
`parseTimeField` returns 06:30 UTC, which in the zone is 01:30, not 02:30. -/
theorem C19_counterexample :
    parseTimeField zoneEnv "DTSTART".toList gapBlock =
      some (goDate 2024 3 10 6 30 0, "America/New_York".toList) ∧
    (parseFields dateTimeLayoutLocalized "20240310T023000".toList).map DateFields.utc =
      some (goDate 2024 3 10 2 30 0) ∧
    (timeLoadLocation zoneEnv "America/New_York".toList).map
      (fun loc => wallClock loc (goDate 2024 3 10 6 30 0)) = some (goDate 2024 3 10 1 30 0) ∧
    goDate 2024 3 10 1 30 0 ≠ goDate 2024 3 10 2 30 0 := by
  decide

theorem newYork_lookup (x : Time) :
    newYork.lookup x =
      if x < (63845650800 : Int) then (-18000, -(2 ^ 63), 63845650800)
      else if x < (63866210400 : Int) then (-14400, 63845650800, 63866210400)
      else (-18000, 63866210400, 2 ^ 63 - 1) := by
  have h1 : goDate 2024 3 10 7 0 0 = 63845650800 := by decide
  have h2 : goDate 2024 11 3 6 0 0 = 63866210400 := by decide
  unfold newYork
  simp only [h1, h2]

theorem newYork_bound (x : Time) :
    -18000 ≤ (newYork.lookup x).1 ∧ (newYork.lookup x).1 ≤ 18000 := by
  rw [newYork_lookup]
  split
  · decide
  · split <;> decide

/-- The interval that `newYork` reports with an offset is one in which that
offset is in force. -/
theorem newYork_truthful (t u : Time) (h1 : (newYork.lookup t).2.1 ≤ u)
    (h2 : u < (newYork.lookup t).2.2) : (newYork.lookup u).1 = (newYork.lookup t).1 := by
  rw [newYork_lookup] at h1 h2 ⊢
  rw [newYork_lookup]
  by_cases a1 : t < (63845650800 : Int)
  · rw [if_pos a1] at h1 h2 ⊢
    have b1 : u < (63845650800 : Int) := h2
    rw [if_pos b1]
  · rw [if_neg a1] at h1 h2 ⊢
    by_cases a2 : t < (63866210400 : Int)
    · rw [if_pos a2] at h1 h2 ⊢
      have b1 : ¬ u < (63845650800 : Int) := not_lt.mpr h1
      have b2 : u < (63866210400 : Int) := h2
      rw [if_neg b1, if_pos b2]
    · rw [if_neg a2] at h1 h2 ⊢
      have b2 : ¬ u < (63866210400 : Int) := not_lt.mpr h1
      have b1 : ¬ u < (63845650800 : Int) := fun h => b2 (lt_trans h (by decide))
      rw [if_neg b1, if_neg b2]

/-- Before the change of 2024-11-03 `newYork` changes its offset once, at
2024-03-10T07:00:00Z. -/
theorem newYork_spring (x : Time) (h : x < (63866210400 : Int)) :
    (newYork.lookup x).1 = if x < (63845650800 : Int) then -18000 else -14400 := by
  rw [newYork_lookup]
  by_cases a1 : x < (63845650800 : Int)
  · rw [if_pos a1, if_pos a1]
  · rw [if_neg a1, if_neg a1, if_pos h]

/-- From the change of 2024-03-10 on `newYork` changes its offset once, at
2024-11-03T06:00:00Z. -/
theorem newYork_autumn (x : Time) (h : (63845650800 : Int) ≤ x) :
    (newYork.lookup x).1 = if x < (63866210400 : Int) then -14400 else -18000 := by
  rw [newYork_lookup]
  rw [if_neg (not_lt.mpr h)]
  by_cases a2 : x < (63866210400 : Int)
  · rw [if_pos a2, if_pos a2]
  · rw [if_neg a2, if_neg a2]

/-- In `newYork` every wall-clock value that exists is returned by `time.Date` as
an instant that has it: only the values that the change to summer time skips are
left out. -/
theorem newYork_round_trip (f : DateFields) (hex : ∃ u, wallClock newYork u = f.utc) :
    wallClock newYork (dateIn newYork f) = f.utc := by
  by_cases hW : f.utc + 18000 < (63866210400 : Int)
  · exact dateIn_round_trip newYork f 18000 63845650800 (-18000) (-14400) newYork_bound
      (fun u h1 h2 => newYork_truthful _ u h1 h2)
      (fun x _ hx => newYork_spring x (lt_of_le_of_lt hx hW)) hex
  · refine dateIn_round_trip newYork f 18000 63866210400 (-14400) (-18000) newYork_bound
      (fun u h1 h2 => newYork_truthful _ u h1 h2)
      (fun x hx _ => newYork_autumn x ?_) hex
    revert hW hx
    show ¬ @LT.lt Int _ _ _ → @LE.le Int _ _ _ → @LE.le Int _ _ _
    intro hW hx
    omega

/-- The instants that have a wall-clock value in `newYork` lie within five hours
of the value read as UTC. -/
theorem newYork_years (W : Time) (hlo : 0 ≤ (W - 18000).year) (hhi : (W + 18000).year ≤ 9999)
    (u : Time) (hu : wallClock newYork u = W) : 0 ≤ u.year ∧ u.year ≤ 9999 := by
  have hb := newYork_bound u
  have h1 : W - 18000 ≤ u := by
    revert hu hb
    unfold wallClock
    show @Eq Int _ _ → (@LE.le Int _ _ _ ∧ @LE.le Int _ _ _) → @LE.le Int _ _ _
    intro hu hb
    omega
  have h2 : u ≤ W + 18000 := by
    revert hu hb
    unfold wallClock
    show @Eq Int _ _ → (@LE.le Int _ _ _ ∧ @LE.le Int _ _ _) → @LE.le Int _ _ _
    intro hu hb
    omega
  exact ⟨le_trans hlo (year_le_of_le _ _ h1), le_trans (year_le_of_le _ _ h2) hhi⟩

/-- C19 at concrete fields in `America/New_York`. The wall-clock value 03:30 of
2024-03-10, half an hour after the change to summer time, is 07:30 UTC, which in
the zone is 03:30 again; noon of 2024-01-01 is 17:00 UTC, which in the zone is
noon again; 01:30 of 2024-11-03, which occurs twice, is 05:30 UTC, which in the
zone is 01:30. -/
theorem C19_round_trip_witness :
    (∃ ut, parseTimeField zoneEnv "DTSTART".toList afterGapBlock =
        some (ut, "America/New_York".toList) ∧
      wallClock newYork ut = goDate 2024 3 10 3 30 0) ∧
    (∃ ut, parseTimeField zoneEnv "DTSTART".toList noonBlock =
        some (ut, "America/New_York".toList) ∧
      wallClock newYork ut = goDate 2024 1 1 12 0 0) ∧
    (∃ ut, parseTimeField zoneEnv "DTSTART".toList twiceBlock =
        some (ut, "America/New_York".toList) ∧
      wallClock newYork ut = goDate 2024 11 3 1 30 0) ∧
    parseTimeField zoneEnv "DTSTART".toList afterGapBlock =
      some (goDate 2024 3 10 7 30 0, "America/New_York".toList) ∧
    parseTimeField zoneEnv "DTSTART".toList noonBlock =
      some (goDate 2024 1 1 17 0 0, "America/New_York".toList) ∧
    parseTimeField zoneEnv "DTSTART".toList twiceBlock =
      some (goDate 2024 11 3 5 30 0, "America/New_York".toList) :=
  ⟨C19_round_trip zoneEnv "DTSTART".toList afterGapBlock "America/New_York".toList
      "20240310T033000".toList newYork ⟨2024, 3, 10, 3, 30, 0⟩ 18000 63845650800 (-18000) (-14400)
      (by decide) (by decide) (Or.inl rfl) rfl newYork_bound
      (fun u h1 h2 => newYork_truthful _ u h1 h2)
      (fun x _ hx => newYork_spring x (lt_of_le_of_lt hx (by decide)))
      ⟨goDate 2024 3 10 7 30 0, by decide⟩
      (newYork_years _ (by decide) (by decide)),
    C19_round_trip zoneEnv "DTSTART".toList noonBlock "America/New_York".toList
      "20240101T120000".toList newYork ⟨2024, 1, 1, 12, 0, 0⟩ 18000 63845650800 (-18000) (-14400)
      (by decide) (by decide) (Or.inl rfl) rfl newYork_bound
      (fun u h1 h2 => newYork_truthful _ u h1 h2)
      (fun x _ hx => newYork_spring x (lt_of_le_of_lt hx (by decide)))
      ⟨goDate 2024 1 1 17 0 0, by decide⟩
      (newYork_years _ (by decide) (by decide)),
    C19_round_trip zoneEnv "DTSTART".toList twiceBlock "America/New_York".toList
      "20241103T013000".toList newYork ⟨2024, 11, 3, 1, 30, 0⟩ 18000 63866210400 (-14400) (-18000)
      (by decide) (by decide) (Or.inl rfl) rfl newYork_bound
      (fun u h1 h2 => newYork_truthful _ u h1 h2)
      (fun x hx _ => newYork_autumn x (le_trans (by decide) hx))
      ⟨goDate 2024 11 3 5 30 0, by decide⟩
      (newYork_years _ (by decide) (by decide)),
    by decide, by decide, by decide⟩

/-! ## Whole-day events -/

theorem isWholeDay_iff (start end_ : Time) :
    isWholeDay start end_ = true ↔
      (start.hour = 0 ∧ start.minute = 0 ∧ start.second = 0) ∧
        (end_.hour = 0 ∧ end_.minute = 0 ∧ end_.second = 0) := by
  simp only [isWholeDay, Bool.and_eq_true, decide_eq_true_eq]
  tauto

/-- C20: for an event block whose start and end fields are both in whole-day
form, the assembled event has start and end with hour, minute and second zero
and the whole-day flag true; and for every event block the flag of the assembled
event is true exactly when start and end both have hour, minute and second
zero. -/
theorem C20_wholeDay_flag (env : Env) (eventData : Str) :
    ((reWholeDay "DTSTART".toList).findString eventData ≠ [] →
      (reWholeDay "DTEND".toList).findString eventData ≠ [] →
        ∃ e : Event, assembleEvent env eventData = some e ∧
          (e.start.hour = 0 ∧ e.start.minute = 0 ∧ e.start.second = 0) ∧
          (e.end_.hour = 0 ∧ e.end_.minute = 0 ∧ e.end_.second = 0) ∧
          e.wholeDayEvent = true) ∧
    (∀ e : Event, assembleEvent env eventData = some e →
      (e.wholeDayEvent = true ↔
        (e.start.hour = 0 ∧ e.start.minute = 0 ∧ e.start.second = 0) ∧
          (e.end_.hour = 0 ∧ e.end_.minute = 0 ∧ e.end_.second = 0))) := by
  constructor
  · intro hs he
    have h1 : parseEventStart env eventData = some (0, []) :=
      parseTimeField_wholeDay env _ _ hs
    have h2 : parseEventEnd env eventData = some (0, []) :=
      parseTimeField_wholeDay env _ _ he
    unfold assembleEvent
    rw [h1, h2]
    have hr : resolveEnd 0 0 (parseEventDuration env eventData) = 0 := by
      simp [resolveEnd, Time.before]
    refine ⟨_, rfl, ?_, ?_, ?_⟩
    · show (0 : Time).hour = 0 ∧ (0 : Time).minute = 0 ∧ (0 : Time).second = 0
      decide
    · show (resolveEnd 0 0 (parseEventDuration env eventData)).hour = 0 ∧
        (resolveEnd 0 0 (parseEventDuration env eventData)).minute = 0 ∧
        (resolveEnd 0 0 (parseEventDuration env eventData)).second = 0
      rw [hr]
      decide
    · show isWholeDay 0 (resolveEnd 0 0 (parseEventDuration env eventData)) = true
      rw [hr]
      decide
  · intro e h
    unfold assembleEvent at h
    cases hs : parseEventStart env eventData with
    | none => rw [hs] at h; simp at h
    | some sp =>
      obtain ⟨start, sz⟩ := sp
      rw [hs] at h
      simp only [] at h
      cases he : parseEventEnd env eventData with
      | none => rw [he] at h; simp at h
      | some ep =>
        obtain ⟨end0, ez⟩ := ep
        rw [he] at h
        simp only [Option.some.injEq] at h
        subst h
        exact isWholeDay_iff _ _

/-- C20 at a block with both fields in whole-day form, and at a timed block,
whose flag is false. -/
theorem C20_wholeDay_flag_witness :
    (∃ e : Event, assembleEvent bareEnv wholeDayBlock = some e ∧
      (e.start.hour = 0 ∧ e.start.minute = 0 ∧ e.start.second = 0) ∧
      (e.end_.hour = 0 ∧ e.end_.minute = 0 ∧ e.end_.second = 0) ∧
      e.wholeDayEvent = true) ∧
    (assembleEvent hourEnv shortBlock).map (fun e => e.wholeDayEvent) = some false :=
  ⟨(C20_wholeDay_flag bareEnv wholeDayBlock).1 (by decide) (by decide), by decide⟩

/-! ## `getNthDate` -/

theorem natDec_four (n : Nat) (h1 : 1000 ≤ n) (h2 : n < 10000) : natDec n = padDec 4 n := by
  rw [padDec_four n h2]
  obtain ⟨f, rfl⟩ : ∃ f, n = f + 3 := ⟨n - 3, by omega⟩
  unfold natDec
  exact decAux_four f (f + 3) [] h1 h2

theorem daysIn_le (m y : Int) (hm : 1 ≤ m ∧ m ≤ 12) : daysIn m y ≤ 31 := by
  have h := daysBeforeMonth_step (isLeap y) m hm.1 hm.2
  unfold daysIn
  omega

/-- The layout `2006-01-02` reads the fields back from the text that
`%d-%02d-%02d` prints for a year of four digits. -/
theorem parseChunks_date (y m d : Nat) (hy : y < 10000) (hm : 1 ≤ m ∧ m ≤ 12) (hd : d < 100) :
    parseChunks layoutDate (padDec 4 y ++ '-' :: (padDec 2 m ++ '-' :: (padDec 2 d ++ []))) {} =
      some { year := y, month := m, day := d } := by
  rw [padDec_four y hy]
  have y1 : y / 1000 < 10 := by omega
  have y2 : y / 100 % 10 < 10 := Nat.mod_lt _ (by decide)
  have y3 : y / 10 % 10 < 10 := Nat.mod_lt _ (by decide)
  have y4 : y % 10 < 10 := Nat.mod_lt _ (by decide)
  have ey : ((y / 1000 : Nat) : Int) * 1000 + ((y / 100 % 10 : Nat) : Int) * 100 +
      ((y / 10 % 10 : Nat) : Int) * 10 + ((y % 10 : Nat) : Int) = (y : Int) := by omega
  have cm : ¬ ((m : Int) ≤ 0 ∨ 12 < (m : Int)) := by omega
  simp only [layoutDate, List.cons_append, List.nil_append, parseChunks, isDigit_digitChar _ y1,
    isDigit_digitChar _ y2, isDigit_digitChar _ y3, isDigit_digitChar _ y4,
    digitVal_digitChar _ y1, digitVal_digitChar _ y2, digitVal_digitChar _ y3,
    digitVal_digitChar _ y4, Bool.and_self, if_true, ey,
    getnum_padDec m (by omega), getnum_padDec d hd, cm, if_false]

/-- The date that `getNthDate` prints is read back as midnight UTC of that date,
for a year of four digits and a day inside the month. -/
theorem timeParse_date (y m d : Int) (hy : 1000 ≤ y ∧ y ≤ 9999) (hm : 1 ≤ m ∧ m ≤ 12)
    (hd : 1 ≤ d ∧ d ≤ daysIn m y) :
    timeParse layoutDate (fmtInt y ++ '-' :: (fmtInt02 m ++ '-' :: fmtInt02 d)) =
      goDate y m d 0 0 0 := by
  have h31 := daysIn_le m y hm
  have ey : ((y.toNat : Nat) : Int) = y := Int.toNat_of_nonneg (by omega)
  have em : ((m.toNat : Nat) : Int) = m := Int.toNat_of_nonneg (by omega)
  have ed : ((d.toNat : Nat) : Int) = d := Int.toNat_of_nonneg (by omega)
  have hp := parseChunks_date y.toNat m.toNat d.toNat (by omega) (by omega) (by omega)
  rw [ey, em, ed, List.append_nil] at hp
  unfold timeParse parseFields fmtInt fmtInt02
  rw [if_neg (by omega), if_neg (by omega), if_neg (by omega),
    natDec_four y.toNat (by omega) (by omega), hp]
  have hday : ¬ (d < 1 ∨ daysIn m y < d) := by omega
  simp only [hday, if_false]

theorem weekday_goDate (y m d : Int) (hm : 1 ≤ m ∧ m ≤ 12) :
    (goDate y m d 0 0 0).weekday = ((goDate y m 1 0 0 0).weekday + (d - 1)) % 7 := by
  rw [goDate_eq y m d 0 0 0 hm, goDate_eq y m 1 0 0 0 hm]
  unfold Time.weekday Time.dayNumber secondsPerDay
  generalize daysBeforeYear y + daysBeforeMonth (isLeap y) m = a
  omega

theorem weekday_range (t : Time) : 0 ≤ t.weekday ∧ t.weekday ≤ 6 := by
  unfold Time.weekday
  omega

theorem wrap64_small (x : Int) (h : -9223372036854775808 ≤ x ∧ x < 9223372036854775808) :
    wrap64 x = x := by
  unfold wrap64
  omega

/-- The day of the month that `getNthDate` computes is that of the `num`-th
occurrence of the weekday, as long as that lies inside a month. -/
theorem dayOfMonth_eq (f day num : Int) (hf : 0 ≤ f ∧ f ≤ 6) (hd : 0 ≤ day ∧ day ≤ 6)
    (hn : 1 ≤ num) (hin : 1 + (day - f) % 7 + 7 * (num - 1) ≤ 31) :
    (if f < day then wrap64 (1 + (day - f) + 7 * (num - 1))
      else if f = day then wrap64 (1 + 7 * (num - 1))
      else if f > day then wrap64 (1 + 7 * num - (f - day)) else 0) =
      1 + (day - f) % 7 + 7 * (num - 1) := by
  rcases lt_trichotomy f day with h | h | h
  · rw [if_pos h, wrap64_small _ (by omega)]
    omega
  · rw [if_neg (by omega), if_pos h, wrap64_small _ (by omega)]
    omega
  · rw [if_neg (by omega), if_neg (by omega), if_pos h, wrap64_small _ (by omega)]
    omega

/-- C21, amended: for a year of four digits (1000 to 9999), a month in 1..12, a
target weekday `day` in 0..6 and an ordinal `num ≥ 1` such that the `num`-th
occurrence of the weekday lies inside the month, `getNthDate` returns midnight
UTC of that occurrence: the returned date lies in the year and the month, its
day of the month `d` satisfies `7*(num-1) < d ≤ 7*num`, and its weekday is
`day`. -/
theorem C21_getNthDate (year month day num : Int) (hy : 1000 ≤ year ∧ year ≤ 9999)
    (hm : 1 ≤ month ∧ month ≤ 12) (hd : 0 ≤ day ∧ day ≤ 6) (hn : 1 ≤ num)
    (hin : nthWeekday year month day num ≤ daysIn month year) :
    getNthDate year month day num = goDate year month (nthWeekday year month day num) 0 0 0 ∧
    (getNthDate year month day num).year = year ∧
    (getNthDate year month day num).month = month ∧
    (getNthDate year month day num).day = nthWeekday year month day num ∧
    7 * (num - 1) < (getNthDate year month day num).day ∧
    (getNthDate year month day num).day ≤ 7 * num ∧
    (getNthDate year month day num).weekday = day := by
  have hf := weekday_range (goDate year month 1 0 0 0)
  have h31 := daysIn_le month year hm
  have hN : 1 ≤ nthWeekday year month day num := by
    unfold nthWeekday
    omega
  have hval : getNthDate year month day num =
      goDate year month (nthWeekday year month day num) 0 0 0 := by
    have hdm := dayOfMonth_eq (goDate year month 1 0 0 0).weekday day num hf hd hn
      (by unfold nthWeekday at hin; omega)
    unfold getNthDate
    simp only [gt_iff_lt]
    have hsame : (if (goDate year month 1 0 0 0).weekday < day then
          wrap64 (1 + (day - (goDate year month 1 0 0 0).weekday) + 7 * (num - 1))
        else if (goDate year month 1 0 0 0).weekday = day then wrap64 (1 + 7 * (num - 1))
        else if day < (goDate year month 1 0 0 0).weekday then
          wrap64 (1 + 7 * num - ((goDate year month 1 0 0 0).weekday - day))
        else 0) = nthWeekday year month day num := hdm
    rw [hsame]
    exact timeParse_date year month _ hy hm ⟨hN, hin⟩
  have hz : (0 : Int) ≤ 0 ∧ (0 : Int) ≤ 23 := by omega
  have hz2 : (0 : Int) ≤ 0 ∧ (0 : Int) ≤ 59 := by omega
  have hday := day_goDate year month (nthWeekday year month day num) 0 0 0 hm ⟨hN, hin⟩ hz hz2 hz2
  have hwd := weekday_goDate year month (nthWeekday year month day num) hm
  refine ⟨hval, ?_, ?_, ?_, ?_, ?_, ?_⟩
  · rw [hval]; exact year_goDate _ _ _ _ _ _ hm ⟨hN, hin⟩ hz hz2 hz2
  · rw [hval]; exact month_goDate _ _ _ _ _ _ hm ⟨hN, hin⟩ hz hz2 hz2
  · rw [hval]; exact hday
  · rw [hval, hday]; unfold nthWeekday; omega
  · rw [hval, hday]; unfold nthWeekday; omega
  · rw [hval, hwd]; unfold nthWeekday; omega

/-- C21, counterexample: for the year 999 the first Sunday of January is the
6th, inside the month, but `%d` prints the year with three digits, the layout
`2006-01-02` rejects the text, and `getNthDate` returns the zero time,
0001-01-01, a Monday. -/
theorem C21_counterexample :
    nthWeekday 999 1 0 1 = 6 ∧ (6 : Int) ≤ daysIn 1 999 ∧ (goDate 999 1 6 0 0 0).weekday = 0 ∧
    getNthDate 999 1 0 1 = 0 ∧ (getNthDate 999 1 0 1).weekday = 1 ∧
    (getNthDate 999 1 0 1).year = 1 := by
  decide

/-- C21 at a concrete input: the second Sunday of March 2024 is the 10th. -/
theorem C21_getNthDate_witness :
    nthWeekday 2024 3 0 2 = 10 ∧
    (getNthDate 2024 3 0 2 = goDate 2024 3 (nthWeekday 2024 3 0 2) 0 0 0 ∧
      (getNthDate 2024 3 0 2).year = 2024 ∧
      (getNthDate 2024 3 0 2).month = 3 ∧
      (getNthDate 2024 3 0 2).day = nthWeekday 2024 3 0 2 ∧
      7 * (2 - 1) < (getNthDate 2024 3 0 2).day ∧
      (getNthDate 2024 3 0 2).day ≤ 7 * 2 ∧
      (getNthDate 2024 3 0 2).weekday = 0) :=
  ⟨by decide,
    C21_getNthDate 2024 3 0 2 (by decide) (by decide) (by decide) (by decide) (by decide)⟩

/-! ## A value in UTC form -/

/-- The layout `20060102T150405` rejects the compact text of an instant followed
by `Z`: the `Z` is text left over. -/
theorem parseFields_localized_Z (t : Time) (hy : 0 ≤ t.year ∧ t.year ≤ 9999) :
    parseFields dateTimeLayoutLocalized (t.formatCompact ++ ['Z']) = none := by
  have hm := month_range t
  have hd := day_range t
  have hc := clock_range t
  have y1 : t.year.toNat / 1000 < 10 := by omega
  have y2 : t.year.toNat / 100 % 10 < 10 := Nat.mod_lt _ (by decide)
  have y3 : t.year.toNat / 10 % 10 < 10 := Nat.mod_lt _ (by decide)
  have y4 : t.year.toNat % 10 < 10 := Nat.mod_lt _ (by decide)
  have cm : ¬ ((t.month.toNat : Int) ≤ 0 ∨ 12 < (t.month.toNat : Int)) := by omega
  have ch : ¬ ((t.hour.toNat : Int) < 0 ∨ 24 ≤ (t.hour.toNat : Int)) := by omega
  have cmi : ¬ ((t.minute.toNat : Int) < 0 ∨ 60 ≤ (t.minute.toNat : Int)) := by omega
  have cs : ¬ ((t.second.toNat : Int) < 0 ∨ 60 ≤ (t.second.toNat : Int)) := by omega
  unfold parseFields
  rw [formatCompact_eq t hy.1, padDec_four _ (by omega)]
  simp only [dateTimeLayoutLocalized, List.cons_append, List.nil_append, parseChunks,
    isDigit_digitChar _ y1, isDigit_digitChar _ y2, isDigit_digitChar _ y3,
    isDigit_digitChar _ y4, Bool.and_self, if_true,
    getnum_padDec t.month.toNat (by omega), getnum_padDec t.day.toNat (by omega),
    getnum_padDec t.hour.toNat (by omega), getnum_padDec t.minute.toNat (by omega),
    getnum_padDec t.second.toNat (by omega), cm, ch, cmi, cs, if_false, skipFraction]

/-- C22: for every event block whose field has no zone identifier and whose
value is the compact UTC text of an instant `t` of the years 0 to 9999 followed
by `Z`, `parseTimeField` returns the zero time, not `t`: the layout
`20060102T150405` of `time.ParseInLocation` rejects the `Z`, the error is
dropped, and the zero time is formatted and parsed back into `ut`. The value
that the layout `IcsFormat` reads from the text, which the code assigns to `t`
and does not return, is the instant. -/
theorem C22_utc_value_returns_zero_time (env : Env) (fieldName eventData : Str) (t : Time)
    (hy : 0 ≤ t.year ∧ t.year ≤ 9999)
    (hw : (reWholeDay fieldName).findString eventData = [])
    (hm : ((reTimed fieldName).find eventData).map
      (fun r => (r.group 2, trimSpace (r.group 4))) = some ([], t.formatCompact ++ ['Z'])) :
    parseTimeField env fieldName eventData = some (0, []) ∧
    timeParse IcsFormat (t.formatCompact ++ ['Z']) = t := by
  refine ⟨?_, timeParse_formatCompact t hy⟩
  cases hfind : (reTimed fieldName).find eventData with
  | none => rw [hfind] at hm; simp at hm
  | some r =>
    rw [hfind] at hm
    simp only [Option.map_some', Option.some.injEq, Prod.mk.injEq] at hm
    obtain ⟨h2, h4⟩ := hm
    have hz : (0 : Time).formatCompact = "00010101T000000".toList := by decide
    have hp : timeParse IcsFormat "00010101T000000Z".toList = 0 := by decide
    have hc : contains "00010101T000000".toList ['Z'] = false := by decide
    unfold parseTimeField
    simp only [hw, ne_eq, not_true_eq_false, if_false, hfind, h2, h4, timeLoadLocation, true_or,
      if_true, parseInLocation, parseFields_localized_Z t hy, hz, hc, Bool.not_false]
    exact congrArg (fun x => some (x, ([] : Str))) hp

/-- C22 at the field `DTSTART:20240101T120000Z`: it gives the zero
time, not noon of 2024-01-01. -/
theorem C22_utc_value_returns_zero_time_witness :
    (parseTimeField bareEnv "DTSTART".toList utcBlock = some (0, []) ∧
      timeParse IcsFormat ((goDate 2024 1 1 12 0 0).formatCompact ++ ['Z']) =
        goDate 2024 1 1 12 0 0) ∧
    (goDate 2024 1 1 12 0 0).formatCompact ++ ['Z'] = "20240101T120000Z".toList ∧
    (0 : Time) ≠ goDate 2024 1 1 12 0 0 :=
  ⟨C22_utc_value_returns_zero_time bareEnv "DTSTART".toList utcBlock (goDate 2024 1 1 12 0 0)
      (by decide) (by decide) (by decide),
    by decide, by decide⟩

/-! ## The duration of the occurrences -/

theorem emit_span (env : Env) (event : Event) (r : Rule) (delta : Int) (k0 : Sink)
    (ws we : Time) (st : LoopState) (hd : we - ws = delta) (h : SameSpan delta k0 st.sink) :
    SameSpan delta k0 (emit env event r ws we st).sink ∧
      (emit env event r ws we st).freqDateStart = st.freqDateStart ∧
      (emit env event r ws we st).freqDateEnd = st.freqDateEnd := by
  obtain ⟨occ, he, hall⟩ := h
  unfold emit
  refine ⟨?_, rfl, rfl⟩
  by_cases hu : untilAdmits r.until_ ws = true
  · simp only [hu, if_true]
    refine ⟨occ ++ [newOccurrence env event ws we (st.current + 1)], ?_, ?_⟩
    · simp [Sink.setEvent, he]
    · intro e hm
      rcases List.mem_append.mp hm with h1 | h1
      · exact hall e h1
      · simp only [List.mem_singleton] at h1
        subst h1
        exact hd
  · simp only [hu, Bool.false_eq_true, if_false]
    exact ⟨occ, he, hall⟩

theorem weekLoop_span (env : Env) (event : Event) (start : Time) (r : Rule) (delta : Int)
    (k0 : Sink) :
    ∀ (i : Nat) (ws we : Time) (st : LoopState), we - ws = delta → SameSpan delta k0 st.sink →
      SameSpan delta k0 (weekLoop env event start r i ws we st).sink ∧
        (weekLoop env event start r i ws we st).freqDateStart = st.freqDateStart ∧
        (weekLoop env event start r i ws we st).freqDateEnd = st.freqDateEnd := by
  intro i
  induction i with
  | zero => intro ws we st _ h; exact ⟨h, rfl, rfl⟩
  | succ i ih =>
    intro ws we st hd h
    unfold weekLoop
    simp only []
    have hstep : we.addDate 0 0 1 - ws.addDate 0 0 1 = delta := by
      rw [addDate_days, addDate_days]
      revert hd
      show @Eq Int _ _ → @Eq Int _ _
      omega
    split
    · obtain ⟨e1, e2, e3⟩ := emit_span env event r delta k0 ws we st hd h
      obtain ⟨i1, i2, i3⟩ := ih (ws.addDate 0 0 1) (we.addDate 0 0 1) _ hstep e1
      exact ⟨i1, i2.trans e2, i3.trans e3⟩
    · exact ih (ws.addDate 0 0 1) (we.addDate 0 0 1) st hstep h

theorem emitPass_span (env : Env) (event : Event) (start : Time) (r : Rule) (delta : Int)
    (k0 : Sink) (st : LoopState) (hd : st.freqDateEnd - st.freqDateStart = delta)
    (h : SameSpan delta k0 st.sink) :
    SameSpan delta k0 (emitPass env event start r st).sink ∧
      (emitPass env event start r st).freqDateStart = st.freqDateStart ∧
      (emitPass env event start r st).freqDateEnd = st.freqDateEnd := by
  unfold emitPass
  simp only []
  split
  · split
    · exact weekLoop_span env event start r delta k0 7 _ _ st hd h
    · split
      · exact emit_span env event r delta k0 _ _ st hd h
      · exact ⟨h, rfl, rfl⟩
  · exact ⟨h, rfl, rfl⟩

theorem loopBody_dates (env : Env) (event : Event) (start : Time) (r : Rule) (st : LoopState) :
    (loopBody env event start r st).1.freqDateStart =
        (emitPass env event start r st).freqDateStart.addDate
          (freqStep r).1 (freqStep r).2.1 (freqStep r).2.2 ∧
      (loopBody env event start r st).1.freqDateEnd =
        (emitPass env event start r st).freqDateEnd.addDate
          (freqStep r).1 (freqStep r).2.1 (freqStep r).2.2 := by
  unfold loopBody
  generalize freqStep r = fs
  obtain ⟨y, m, d⟩ := fs
  simp only []
  split
  · exact ⟨rfl, rfl⟩
  · split
    · split <;> exact ⟨rfl, rfl⟩
    · exact ⟨rfl, rfl⟩

/-- One pass of the generation loop of a rule that steps by days keeps the
distance between the stepped start and the stepped end, and appends only
occurrences of that duration. -/
theorem loopBody_span (env : Env) (event : Event) (start : Time) (r : Rule) (delta : Int)
    (k0 : Sink) (hy : (freqStep r).1 = 0) (hm : (freqStep r).2.1 = 0) (st : LoopState)
    (hd : st.freqDateEnd - st.freqDateStart = delta) (h : SameSpan delta k0 st.sink) :
    (loopBody env event start r st).1.freqDateEnd -
        (loopBody env event start r st).1.freqDateStart = delta ∧
      SameSpan delta k0 (loopBody env event start r st).1.sink := by
  obtain ⟨p1, p2, p3⟩ := emitPass_span env event start r delta k0 st hd h
  obtain ⟨d1, d2⟩ := loopBody_dates env event start r st
  rw [loopBody_sink, d1, d2, hy, hm, addDate_days, addDate_days, p2, p3]
  refine ⟨?_, p1⟩
  revert hd
  show @Eq Int _ _ → @Eq Int _ _
  intro hd
  omega

theorem runLoop_span (env : Env) (event : Event) (start : Time) (r : Rule) (delta : Int)
    (k0 : Sink) (hy : (freqStep r).1 = 0) (hm : (freqStep r).2.1 = 0) :
    ∀ (fuel : Nat) (st s : LoopState), runLoop env event start r fuel st = some s →
      st.freqDateEnd - st.freqDateStart = delta → SameSpan delta k0 st.sink →
        SameSpan delta k0 s.sink := by
  intro fuel
  induction fuel with
  | zero => intro st s h; simp [runLoop] at h
  | succ f ih =>
    intro st s h hd hinv
    obtain ⟨b1, b2⟩ := loopBody_span env event start r delta k0 hy hm st hd hinv
    unfold runLoop at h
    split at h
    · rename_i st1 hb
      simp only [Option.some.injEq] at h
      subst h
      rw [hb] at b2
      exact b2
    · rename_i st1 hb
      rw [hb] at b1 b2
      exact ih st1 s h b1 b2

/-- The expansion of a rule that steps by days (the years and months of its step
are zero: DAILY, WEEKLY, or no known frequency) appends only occurrences whose
duration is `end_ - start`. -/
theorem expand_span (env : Env) (fuel : Nat) (event : Event) (start end_ : Time) (k0 k : Sink)
    (hy : (freqStep (parseRule env.MaxRepeats event.rrule)).1 = 0)
    (hm : (freqStep (parseRule env.MaxRepeats event.rrule)).2.1 = 0)
    (h : expand env fuel event start end_ k0 = some k) :
    SameSpan (end_ - start) k0 k := by
  unfold expand at h
  split at h
  · split at h
    · rename_i st hst
      have hk : st.sink = k := by simpa using h
      subst hk
      exact runLoop_span env event start _ (end_ - start) k0 hy hm fuel _ st hst rfl
        ⟨[], by simp [initState], by simp⟩
    · simp at h
  · have hk : k0 = k := by simpa using h
    subst hk
    exact ⟨[], by simp, by simp⟩

/-- A DAILY or WEEKLY rule steps by days. -/
theorem freqStep_days (r : Rule) (h : r.freq = "DAILY".toList ∨ r.freq = "WEEKLY".toList) :
    (freqStep r).1 = 0 ∧ (freqStep r).2.1 = 0 := by
  unfold freqStep
  rcases h with h | h
  · rw [if_pos h]; exact ⟨rfl, rfl⟩
  · by_cases hd : r.freq = "DAILY".toList
    · rw [if_pos hd]; exact ⟨rfl, rfl⟩
    · rw [if_neg hd, if_pos h]; exact ⟨rfl, rfl⟩

/-- C23: a master that starts at 23:00 on 2024-01-31 and ends two hours later, at
01:00 on 2024-02-01, with the rule `FREQ=MONTHLY;COUNT=1` gets an occurrence
that starts at 23:00 on 2024-03-02 and ends at 01:00 on 2024-03-01: `AddDate`
is applied to the start and to the end apart, and 31 February is normalised to
2 March. The occurrence ends 46 hours before it starts. Likewise a master from
23:00 on 2024-02-29 to 01:00 on 2024-03-01 with `FREQ=YEARLY;COUNT=1` gets an
occurrence from 23:00 to 01:00 of 2025-03-01. For a rule whose step has no
years and no months (DAILY, WEEKLY) every appended occurrence has the duration
of the master. -/
theorem C23_month_step_changes_duration :
    occurrenceSpans "FREQ=MONTHLY;COUNT=1".toList (goDate 2024 1 31 23 0 0) (goDate 2024 2 1 1 0 0) =
      some [(goDate 2024 3 2 23 0 0, goDate 2024 3 1 1 0 0)] ∧
    goDate 2024 2 1 1 0 0 - goDate 2024 1 31 23 0 0 = 7200 ∧
    goDate 2024 3 1 1 0 0 - goDate 2024 3 2 23 0 0 = -165600 ∧
    occurrenceSpans "FREQ=YEARLY;COUNT=1".toList (goDate 2024 2 29 23 0 0) (goDate 2024 3 1 1 0 0) =
      some [(goDate 2025 3 1 23 0 0, goDate 2025 3 1 1 0 0)] ∧
    occurrenceSpans "FREQ=DAILY;COUNT=2".toList (goDate 2024 1 31 23 0 0) (goDate 2024 2 1 1 0 0) =
      some [(goDate 2024 2 1 23 0 0, goDate 2024 2 2 1 0 0),
        (goDate 2024 2 2 23 0 0, goDate 2024 2 3 1 0 0)] ∧
    (∀ (env : Env) (fuel : Nat) (event : Event) (start end_ : Time) (k0 k : Sink),
      (freqStep (parseRule env.MaxRepeats event.rrule)).1 = 0 →
      (freqStep (parseRule env.MaxRepeats event.rrule)).2.1 = 0 →
      expand env fuel event start end_ k0 = some k → SameSpan (end_ - start) k0 k) :=
  ⟨by decide, by decide, by decide, by decide, by decide,
    fun env fuel event start end_ k0 k hy hm h => expand_span env fuel event start end_ k0 k hy hm h⟩

end Ics
